import Mathlib

/-!
A shallow embedding of the transaction request scheduler of this repository
(`txrequest.cpp`, given as `src/unnamed/part_000`): the `TxRequestTracker`
with its `Entry` records, the three index orderings (ByPeer, ByTxHash,
ByTime) and all public operations, together with proofs of the specified
invariants and functional properties.

The multi-index container is embedded as a single list of entries kept in
ByTxHash order (the order the state-machine helpers operate on); the ByPeer
and ByTime views are derived orderings.  Equivalent keys are kept in
insertion order by the container; the embedding inserts new and repositioned
elements at the upper bound of their equal range, matching the container.
-/

namespace TxRequest

/-- The five states of an announcement `Entry`.  The numeric order of
`State.code` below is the order the ByTxHash index sorts equal-txhash
entries by (normative ordering of the spec, also visible in the source
comments: first DELAYED, then BEST/REQUESTED, then READY, then COMPLETED).
A sentinel value `TOO_LARGE` (code 5) is used by the source only inside
search keys and is represented here by the bare code. -/
inductive State where
  | CANDIDATE_DELAYED
  | CANDIDATE_BEST
  | REQUESTED
  | CANDIDATE_READY
  | COMPLETED
deriving DecidableEq, Repr

def State.code : State → Nat
  | .CANDIDATE_DELAYED => 0
  | .CANDIDATE_BEST => 1
  | .REQUESTED => 2
  | .CANDIDATE_READY => 3
  | .COMPLETED => 4

/-- Selected states: CANDIDATE_BEST or REQUESTED (`Entry::IsSelected`). -/
def State.isSelected : State → Bool
  | .CANDIDATE_BEST => true
  | .REQUESTED => true
  | _ => false

/-- Selectable states: CANDIDATE_READY or CANDIDATE_BEST (`Entry::IsSelectable`). -/
def State.isSelectable : State → Bool
  | .CANDIDATE_READY => true
  | .CANDIDATE_BEST => true
  | _ => false

/-- Waiting states: CANDIDATE_DELAYED or REQUESTED (`Entry::IsWaiting`). -/
def State.isWaiting : State → Bool
  | .CANDIDATE_DELAYED => true
  | .REQUESTED => true
  | _ => false

/-- Per-txhash flag: no further preferred announcement may get the first marker. -/
def TXHASHINFO_NO_MORE_PREFERRED_FIRST : Nat := 1

/-- Per-txhash flag: no further non-preferred announcement may get the first marker. -/
def TXHASHINFO_NO_MORE_NONPREFERRED_FIRST : Nat := 2

/-- One tracked announcement: a row per `(peer, txhash)` combination.
Field names follow the source.  `m_txhash` is the 32-byte identifier as a
natural number, `m_time` the microsecond timestamp (reqtime or exptime,
a signed 64-bit count in the source). -/
structure Entry where
  m_txhash : Nat
  m_is_wtxid : Bool
  m_peer : Nat
  m_time : Int
  m_sequence : Nat
  m_preferred : Bool
  m_first : Bool
  m_state : State
  m_per_txhash : Nat
deriving DecidableEq, Repr

instance : Inhabited Entry :=
  ⟨⟨0, false, 0, 0, 0, false, false, .CANDIDATE_DELAYED, 0⟩⟩

/-- Modelled from the spec: `CSipHasher` (crypto/siphash) is not among the
given sources; the spec treats the priority hash as an abstract keyed
64-bit hash of `(txhash, peer)`.  It is modelled as a fixed keyed mixing
function into the 64-bit range; no verified property depends on its exact
values. -/
def hash64 (k0 k1 txhash peer : Nat) : Nat :=
  (k0 * 6364136223846793005 + k1 * 1442695040888963407 +
    txhash * 2862933555777941757 + peer * 3037000493 + 1) % 2 ^ 64

/-- `TxRequestTracker::PriorityComputer::operator()`: zero low bits when
`first`, otherwise the keyed hash shifted right by one; the top bit is the
negation of `preferred`. -/
def priorityCompute (k0 k1 : Nat) (txhash peer : Nat) (preferred first : Bool) : Nat :=
  let low_bits : Nat := if first then 0 else hash64 k0 k1 txhash peer >>> 1
  low_bits ||| ((if preferred then 0 else 1) <<< 63)

/-- `Entry::ComputePriority`. -/
def Entry.priority (k0 k1 : Nat) (e : Entry) : Nat :=
  priorityCompute k0 k1 e.m_txhash e.m_peer e.m_preferred e.m_first

/-- The ByTxHash sort key `(txhash, state, priority-if-READY-else-0)`,
encoded positionally into one natural number (valid because the state code
is below `2 ^ 3` and the priority below `2 ^ 64`). -/
def Entry.keyN (k0 k1 : Nat) (e : Entry) : Nat :=
  e.m_txhash * 2 ^ 67 + e.m_state.code * 2 ^ 64 +
    (if e.m_state = .CANDIDATE_READY then e.priority k0 k1 else 0)

/-- Encoded ByTxHash search key `(txhash, statecode, 0)` used by the
lower-bound lookups of the source. -/
def searchKeyN (txhash code : Nat) : Nat :=
  txhash * 2 ^ 67 + code * 2 ^ 64

/-- Index of the first entry whose ByTxHash key is not below `key`
(`lower_bound` on the ByTxHash index; on a sorted list the entries with
smaller keys form a prefix). -/
def lowerBoundIdx (k0 k1 key : Nat) (l : List Entry) : Nat :=
  l.countP (fun e => decide (e.keyN k0 k1 < key))

/-- Insert into the ByTxHash-ordered list after every entry whose key is
less than or equal (ordered indices place new elements at the upper bound
of their equal range). -/
def insertUB (k0 k1 : Nat) (e : Entry) : List Entry → List Entry
  | [] => [e]
  | x :: xs =>
      if x.keyN k0 k1 ≤ e.keyN k0 k1 then x :: insertUB k0 k1 e xs
      else e :: x :: xs

/-- OR the flags `fl` into the per-txhash field of the entry at index `i`. -/
def orFlagsAt (l : List Entry) (i : Nat) (fl : Nat) : List Entry :=
  match l[i]? with
  | none => l
  | some e => l.set i { e with m_per_txhash := e.m_per_txhash ||| fl }

/-- Flag propagation of `Erase`/`Modify`: if the predecessor of the entry at
index `i` belongs to the same txhash, OR the flags of the entry into the
predecessor. -/
def propToPred (l : List Entry) (i : Nat) : List Entry :=
  if i = 0 then l
  else
    match l[i]?, l[i - 1]? with
    | some e, some p =>
        if p.m_txhash = e.m_txhash then orFlagsAt l (i - 1) e.m_per_txhash else l
    | _, _ => l

/-- Flag propagation after `Modify` repositioned an entry: if the
predecessor of the entry at index `i` belongs to the same txhash, OR the
flags of the predecessor into the entry. -/
def propFromPred (l : List Entry) (i : Nat) : List Entry :=
  if i = 0 then l
  else
    match l[i]?, l[i - 1]? with
    | some e, some p =>
        if p.m_txhash = e.m_txhash then orFlagsAt l i p.m_per_txhash else l
    | _, _ => l

/-- `TxRequestTracker::Erase` at ByTxHash index `i` (the per-peer counters
of the source are derived data here, see `Tracker.countTracked`). -/
def eraseAt (l : List Entry) (i : Nat) : List Entry :=
  (propToPred l i).eraseIdx i

/-- The scheduler state: the priority salt, the entries in ByTxHash order,
and the next sequence number. -/
structure Tracker where
  m_k0 : Nat
  m_k1 : Nat
  entries : List Entry
  m_sequence : Nat
deriving DecidableEq, Repr

def initTracker (k0 k1 : Nat) : Tracker := ⟨k0, k1, [], 0⟩

/-- Modelled from the spec: `GetRand` (random.h) is not among the given
sources.  The constructor takes the entropy that the random source would
produce; in deterministic mode the salt is zero and the entropy is ignored. -/
def mkTracker (deterministic : Bool) (entropy : Nat × Nat) : Tracker :=
  if deterministic then initTracker 0 0
  else initTracker (entropy.1 % 2 ^ 64) (entropy.2 % 2 ^ 64)

def Tracker.size (t : Tracker) : Nat := t.entries.length

/-- `TxRequestTracker::Modify` on the entry with sequence number `s`
(sequence numbers are unique, so they serve as stable element identities
across repositioning; the source uses iterators).  The three steps are the
flag propagation before the change, the repositioning, and the flag
propagation after the change, exactly as in the source. -/
def modifyBySeq (k0 k1 s : Nat) (f : Entry → Entry) (l : List Entry) : List Entry :=
  match l.findIdx? (fun e => e.m_sequence == s) with
  | none => l
  | some i =>
      match l[i]? with
      | none => l
      | some e =>
          let l2 := (propToPred l i).eraseIdx i
          let l3 := insertUB k0 k1 (f e) l2
          match l3.findIdx? (fun x => x.m_sequence == s) with
          | none => l3
          | some j => propFromPred l3 j

def Tracker.modify (t : Tracker) (s : Nat) (f : Entry → Entry) : Tracker :=
  { t with entries := modifyBySeq t.m_k0 t.m_k1 s f t.entries }

def Tracker.eraseSeq (t : Tracker) (s : Nat) : Tracker :=
  match t.entries.findIdx? (fun e => e.m_sequence == s) with
  | none => t
  | some i => { t with entries := eraseAt t.entries i }

/-- `TxRequestTracker::PromoteCandidateNew`: convert a CANDIDATE_DELAYED
entry to CANDIDATE_READY, then decide from its ByTxHash predecessor whether
it becomes CANDIDATE_BEST, displaces the current CANDIDATE_BEST, or stays
CANDIDATE_READY. -/
def Tracker.promoteCandidateNew (t : Tracker) (s : Nat) : Tracker :=
  let t1 := t.modify s (fun e => { e with m_state := .CANDIDATE_READY })
  match t1.entries.findIdx? (fun e => e.m_sequence == s) with
  | none => t1
  | some i =>
      match t1.entries[i]? with
      | none => t1
      | some cur =>
          let prev? : Option Entry := if i = 0 then none else t1.entries[i - 1]?
          match prev? with
          | none => t1.modify s (fun e => { e with m_state := .CANDIDATE_BEST })
          | some p =>
              if p.m_txhash ≠ cur.m_txhash ∨ p.m_state = .CANDIDATE_DELAYED then
                t1.modify s (fun e => { e with m_state := .CANDIDATE_BEST })
              else if p.m_state = .CANDIDATE_BEST then
                if cur.priority t.m_k0 t.m_k1 < p.priority t.m_k0 t.m_k1 then
                  (t1.modify p.m_sequence
                      (fun e => { e with m_state := .CANDIDATE_READY })).modify s
                    (fun e => { e with m_state := .CANDIDATE_BEST })
                else t1
              else t1

/-- `TxRequestTracker::ChangeAndReselect`: move an entry out of the
selected set, promoting the immediately following CANDIDATE_READY of the
same txhash (the best one) to CANDIDATE_BEST if the entry was selected. -/
def Tracker.changeAndReselect (t : Tracker) (s : Nat) (new_state : State) : Tracker :=
  match t.entries.findIdx? (fun e => e.m_sequence == s) with
  | none => t
  | some i =>
      match t.entries[i]? with
      | none => t
      | some cur =>
          let t1 :=
            if cur.m_state.isSelected then
              match t.entries[i + 1]? with
              | some nxt =>
                  if nxt.m_txhash = cur.m_txhash ∧ nxt.m_state = .CANDIDATE_READY then
                    t.modify nxt.m_sequence (fun e => { e with m_state := .CANDIDATE_BEST })
                  else t
              | none => t
            else t
          t1.modify s (fun e => { e with m_state := new_state })

/-- The erase loop of `MakeCompleted`: repeatedly erase at index `i` while
the entry there belongs to txhash `hsh` (erasing yields the next index). -/
def eraseGroupFrom (hsh i : Nat) : Nat → List Entry → List Entry
  | 0, l => l
  | fuel + 1, l =>
      let l' := eraseAt l i
      match l'[i]? with
      | some e => if e.m_txhash = hsh then eraseGroupFrom hsh i fuel l' else l'
      | none => l'

/-- `TxRequestTracker::MakeCompleted`: no-op on COMPLETED entries; if the
entry is the first of its txhash group and everything after it in the group
is COMPLETED, delete the whole group and report that the entry is gone;
otherwise mark it COMPLETED and reselect. -/
def Tracker.makeCompleted (t : Tracker) (s : Nat) : Tracker × Bool :=
  match t.entries.findIdx? (fun e => e.m_sequence == s) with
  | none => (t, true)
  | some i =>
      match t.entries[i]? with
      | none => (t, true)
      | some cur =>
          if cur.m_state = .COMPLETED then (t, true)
          else
            let firstOfGroup : Bool :=
              i == 0 ||
                (match t.entries[i - 1]? with
                 | some p => p.m_txhash != cur.m_txhash
                 | none => true)
            let restCompleted : Bool :=
              match t.entries[i + 1]? with
              | none => true
              | some nxt => nxt.m_txhash != cur.m_txhash || nxt.m_state == .COMPLETED
            if firstOfGroup && restCompleted then
              ({ t with entries := eraseGroupFrom cur.m_txhash i t.entries.length t.entries },
                false)
            else
              (t.changeAndReselect s .COMPLETED, true)

/-- The ByTime class of a state: waiting entries first, then COMPLETED,
then selectable entries (normative ordering of the spec). -/
def State.timeClass : State → Nat
  | .CANDIDATE_DELAYED => 0
  | .REQUESTED => 0
  | .COMPLETED => 1
  | .CANDIDATE_READY => 2
  | .CANDIDATE_BEST => 2

/-- Strict ByTime order `(time_class, time)`. -/
def byTimeLtB (a b : Entry) : Bool :=
  decide (a.m_state.timeClass < b.m_state.timeClass) ||
    (a.m_state.timeClass == b.m_state.timeClass && decide (a.m_time < b.m_time))

/-- The first entry of the ByTime index: least `(time_class, time)` key,
keeping the earliest listed entry among ties. -/
def byTimeMin (l : List Entry) : Option Entry :=
  l.foldl
    (fun acc x =>
      match acc with
      | none => some x
      | some a => if byTimeLtB x a then some x else acc)
    none

/-- The last entry of the ByTime index: greatest `(time_class, time)` key,
keeping the last listed entry among ties. -/
def byTimeMax (l : List Entry) : Option Entry :=
  l.foldl
    (fun acc x =>
      match acc with
      | none => some x
      | some a => if byTimeLtB x a then acc else some x)
    none

/-- First loop of `SetTimePoint`: promote CANDIDATE_DELAYED and expire
REQUESTED entries whose time has been reached, oldest first. -/
def Tracker.timeLoop1 (now : Int) : Nat → Tracker → Tracker
  | 0, t => t
  | fuel + 1, t =>
      match byTimeMin t.entries with
      | none => t
      | some e =>
          if e.m_state = .CANDIDATE_DELAYED ∧ e.m_time ≤ now then
            Tracker.timeLoop1 now fuel (t.promoteCandidateNew e.m_sequence)
          else if e.m_state = .REQUESTED ∧ e.m_time ≤ now then
            Tracker.timeLoop1 now fuel (t.makeCompleted e.m_sequence).1
          else t

/-- Second loop of `SetTimePoint`: if time went backwards, demote
selectable entries with a future time back to CANDIDATE_DELAYED, newest
first. -/
def Tracker.timeLoop2 (now : Int) : Nat → Tracker → Tracker
  | 0, t => t
  | fuel + 1, t =>
      match byTimeMax t.entries with
      | none => t
      | some e =>
          if e.m_state.isSelectable ∧ now < e.m_time then
            Tracker.timeLoop2 now fuel (t.changeAndReselect e.m_sequence .CANDIDATE_DELAYED)
          else t

/-- `TxRequestTracker::SetTimePoint`.  The loops are given fuel one more
than the number of entries, which is proved sufficient below (each
iteration decreases the respective measure). -/
def Tracker.setTimePoint (t : Tracker) (now : Int) : Tracker :=
  let t1 := Tracker.timeLoop1 now (t.entries.length + 1) t
  Tracker.timeLoop2 now (t1.entries.length + 1) t1

/-- The erase loop of `AlreadyHaveTx`: starting at the lower bound of
`(txhash, CANDIDATE_DELAYED, 0)`, erase while the entry there matches the
txhash. -/
def Tracker.alreadyHaveLoop (hsh : Nat) : Nat → Tracker → Tracker
  | 0, t => t
  | fuel + 1, t =>
      let i := lowerBoundIdx t.m_k0 t.m_k1 (searchKeyN hsh 0) t.entries
      match t.entries[i]? with
      | some e =>
          if e.m_txhash = hsh then
            Tracker.alreadyHaveLoop hsh fuel { t with entries := eraseAt t.entries i }
          else t
      | none => t

/-- `TxRequestTracker::AlreadyHaveTx`. -/
def Tracker.alreadyHaveTx (t : Tracker) (gtxid : Bool × Nat) : Tracker :=
  t.alreadyHaveLoop gtxid.2 (t.entries.length + 1)

/-- The ByPeer key `(peer, state == CANDIDATE_BEST, txhash)`. -/
def Entry.byPeerKey (e : Entry) : Nat × Nat × Nat :=
  (e.m_peer, if e.m_state = .CANDIDATE_BEST then 1 else 0, e.m_txhash)

/-- Strict lexicographic order on triples of naturals. -/
def lex3Lt (a b : Nat × Nat × Nat) : Bool :=
  decide (a.1 < b.1) ||
    (a.1 == b.1 &&
      (decide (a.2.1 < b.2.1) || (a.2.1 == b.2.1 && decide (a.2.2 < b.2.2))))

/-- The entry of peer `p` with the least ByPeer key, if any (where the
iteration of `DeletedPeer` starts each round). -/
def byPeerMinOfPeer (p : Nat) (l : List Entry) : Option Entry :=
  (l.filter (fun e => e.m_peer == p)).foldl
    (fun acc x =>
      match acc with
      | none => some x
      | some a => if lex3Lt x.byPeerKey a.byPeerKey then some x else acc)
    none

/-- The loop of `DeletedPeer`: take the next entry of the peer in ByPeer
order, complete it (which may delete its whole txhash group), and erase it
if it still exists. -/
def Tracker.deletedPeerLoop (p : Nat) : Nat → Tracker → Tracker
  | 0, t => t
  | fuel + 1, t =>
      match byPeerMinOfPeer p t.entries with
      | none => t
      | some e =>
          let r := t.makeCompleted e.m_sequence
          let t2 := if r.2 then r.1.eraseSeq e.m_sequence else r.1
          Tracker.deletedPeerLoop p fuel t2

/-- `TxRequestTracker::DeletedPeer`. -/
def Tracker.deletedPeer (t : Tracker) (p : Nat) : Tracker :=
  t.deletedPeerLoop p (t.entries.length + 1)

/-- `TxRequestTracker::ReceivedInv`.  The two bail-out paths are the
explicit CANDIDATE_BEST lookup and the uniqueness of the ByPeer index on
`(peer, state == CANDIDATE_BEST, txhash)`, which makes the emplace of the
new CANDIDATE_DELAYED entry fail when any non-CANDIDATE_BEST entry for the
same peer and txhash exists. -/
def Tracker.receivedInv (t : Tracker) (peer : Nat) (gtxid : Bool × Nat)
    (preferred overloaded : Bool) (reqtime : Int) : Tracker :=
  let hsh := gtxid.2
  if t.entries.any (fun e =>
      e.m_peer == peer && e.m_state == .CANDIDATE_BEST && e.m_txhash == hsh) then t
  else
    -- find the last ByTxHash entry for this txhash and read its flags
    -- (the source takes the predecessor of the lower bound of
    -- (txhash, TOO_LARGE, 0); when that lower bound is the very beginning
    -- the predecessor does not exist and no entry is used)
    let lb := lowerBoundIdx t.m_k0 t.m_k1 (searchKeyN hsh 5) t.entries
    let last? : Option Entry :=
      if t.size ≠ 0 ∧ 0 < lb then
        match t.entries[lb - 1]? with
        | some el => if el.m_txhash = hsh then some el else none
        | none => none
      else none
    let per1 : Nat := match last? with | some el => el.m_per_txhash | none => 0
    let first : Bool :=
      !overloaded &&
        (if preferred then per1 &&& TXHASHINFO_NO_MORE_PREFERRED_FIRST == 0
         else per1 &&& TXHASHINFO_NO_MORE_NONPREFERRED_FIRST == 0)
    let per2 : Nat :=
      if first then
        per1 ||| (if preferred then TXHASHINFO_NO_MORE_PREFERRED_FIRST
                  else TXHASHINFO_NO_MORE_NONPREFERRED_FIRST)
      else per1
    if t.entries.any (fun e =>
        e.m_peer == peer && !(e.m_state == .CANDIDATE_BEST) && e.m_txhash == hsh) then t
    else
      let newE : Entry :=
        { m_txhash := hsh, m_is_wtxid := gtxid.1, m_peer := peer, m_time := reqtime,
          m_sequence := t.m_sequence, m_preferred := preferred, m_first := first,
          m_state := .CANDIDATE_DELAYED, m_per_txhash := 0 }
      let l1 := insertUB t.m_k0 t.m_k1 newE t.entries
      let i := l1.findIdx (fun e => e.m_sequence == t.m_sequence)
      let tgt : Nat :=
        match last? with
        | none => i
        | some el =>
            let j := l1.findIdx (fun e => e.m_sequence == el.m_sequence)
            if j + 1 == i then i else j
      { t with entries := orFlagsAt l1 tgt per2, m_sequence := t.m_sequence + 1 }

/-- `TxRequestTracker::RequestedTx`.  Returns `none` when the assertions of
the source fail (no CANDIDATE_BEST entry for the peer and txhash exists):
the process aborts. -/
def Tracker.requestedTx (t : Tracker) (peer : Nat) (gtxid : Bool × Nat)
    (exptime : Int) : Option Tracker :=
  let hsh := gtxid.2
  match t.entries.find? (fun e =>
      e.m_peer == peer && e.m_state == .CANDIDATE_BEST && e.m_txhash == hsh) with
  | none => none
  | some e =>
      let t1 := t.modify e.m_sequence
        (fun x => { x with m_state := .REQUESTED, m_time := exptime })
      let lb := lowerBoundIdx t1.m_k0 t1.m_k1 (searchKeyN hsh 5) t1.entries
      let bits := TXHASHINFO_NO_MORE_PREFERRED_FIRST ||| TXHASHINFO_NO_MORE_NONPREFERRED_FIRST
      some { t1 with entries := orFlagsAt t1.entries (lb - 1) bits }

/-- `TxRequestTracker::ReceivedResponse`: look the announcement up under
both ByPeer keys (non-selected first, then selected) and complete it. -/
def Tracker.receivedResponse (t : Tracker) (peer : Nat) (gtxid : Bool × Nat) : Tracker :=
  let hsh := gtxid.2
  let e? :=
    match t.entries.find? (fun e =>
        e.m_peer == peer && !(e.m_state == .CANDIDATE_BEST) && e.m_txhash == hsh) with
    | some e => some e
    | none =>
        t.entries.find? (fun e =>
          e.m_peer == peer && e.m_state == State.CANDIDATE_BEST && e.m_txhash == hsh)
  match e? with
  | some e => (t.makeCompleted e.m_sequence).1
  | none => t

/-- `TxRequestTracker::CountInFlight`: the number of REQUESTED entries of
the peer (the source keeps this count incrementally in `m_peerinfo`;
`SanityCheck` pins it to exactly this recomputation). -/
def Tracker.countInFlight (t : Tracker) (p : Nat) : Nat :=
  t.entries.countP (fun e => e.m_peer == p && e.m_state == .REQUESTED)

/-- `TxRequestTracker::CountTracked`: the number of entries of the peer. -/
def Tracker.countTracked (t : Tracker) (p : Nat) : Nat :=
  t.entries.countP (fun e => e.m_peer == p)

/-- Stable insertion into a list ordered by the strict order `lt`: the new
element goes before the first element not strictly below it. -/
def insL (lt : α → α → Bool) (e : α) : List α → List α
  | [] => [e]
  | x :: xs => if lt x e then x :: insL lt e xs else e :: x :: xs

/-- Stable insertion sort by the strict order `lt`. -/
def sortL (lt : α → α → Bool) : List α → List α
  | [] => []
  | x :: xs => insL lt x (sortL lt xs)

/-- Strict ByPeer order between entries. -/
def byPeerLtB (a b : Entry) : Bool := lex3Lt a.byPeerKey b.byPeerKey

/-- `TxRequestTracker::GetRequestable`: advance time, walk the ByPeer index
from `(peer, true, 0)` collecting CANDIDATE_BEST entries of the peer, and
return their gtxids sorted by sequence number. -/
def Tracker.getRequestable (t : Tracker) (peer : Nat) (now : Int) :
    List (Bool × Nat) × Tracker :=
  let t' := t.setTimePoint now
  let bp := sortL byPeerLtB t'.entries
  let rest := bp.dropWhile (fun e => lex3Lt e.byPeerKey (peer, 1, 0))
  let sel := rest.takeWhile (fun e => e.m_peer == peer && e.m_state == .CANDIDATE_BEST)
  ((sortL (fun a b : Entry => decide (a.m_sequence < b.m_sequence)) sel).map
      (fun e => (e.m_is_wtxid, e.m_txhash)),
    t')

/-- The public operations, as issued by a caller. -/
inductive Op where
  | recvInv (peer : Nat) (iswtxid : Bool) (hsh : Nat)
      (preferred overloaded : Bool) (reqtime : Int)
  | delPeer (peer : Nat)
  | haveTx (iswtxid : Bool) (hsh : Nat)
  | recvResponse (peer : Nat) (iswtxid : Bool) (hsh : Nat)
  | reqTx (peer : Nat) (iswtxid : Bool) (hsh : Nat) (exptime : Int)
  | getReq (peer : Nat) (now : Int)
  | qInFlight (peer : Nat)
  | qTracked (peer : Nat)
  | qSize
deriving DecidableEq, Repr

/-- The observable result of one operation. -/
inductive Out where
  | unit
  | txs (l : List (Bool × Nat))
  | num (n : Nat)
  | aborted
deriving DecidableEq, Repr

/-- Apply one operation, producing the next state and the observable
output.  A failed `RequestedTx` assertion aborts the process; the state is
kept so that runs remain total, and the abort is observable. -/
def Tracker.applyOpOut (t : Tracker) : Op → Tracker × Out
  | .recvInv p w h pref ov rt => (t.receivedInv p (w, h) pref ov rt, .unit)
  | .delPeer p => (t.deletedPeer p, .unit)
  | .haveTx w h => (t.alreadyHaveTx (w, h), .unit)
  | .recvResponse p w h => (t.receivedResponse p (w, h), .unit)
  | .reqTx p w h et =>
      match t.requestedTx p (w, h) et with
      | some t' => (t', .unit)
      | none => (t, .aborted)
  | .getReq p now =>
      let r := t.getRequestable p now
      (r.2, .txs r.1)
  | .qInFlight p => (t, .num (t.countInFlight p))
  | .qTracked p => (t, .num (t.countTracked p))
  | .qSize => (t, .num t.size)

def Tracker.applyOp (t : Tracker) (o : Op) : Tracker := (t.applyOpOut o).1

/-- The state after a sequence of public operations on a fresh tracker. -/
def runOps (k0 k1 : Nat) (ops : List Op) : Tracker :=
  ops.foldl Tracker.applyOp (initTracker k0 k1)

/-- The trace of observable outputs of a sequence of operations. -/
def traceOps (t : Tracker) : List Op → List Out
  | [] => []
  | o :: os =>
      let r := t.applyOpOut o
      r.2 :: traceOps r.1 os

/-! ### The core view of an entry

Every field of an entry except the per-txhash flag byte.  The flag
propagation of `Erase` and `Modify` touches only the flag byte of
neighbouring entries, so the multiset of core views evolves in a clean
way, and all the specified invariants are functions of that multiset. -/

structure ECore where
  txhash : Nat
  iswtxid : Bool
  peer : Nat
  time : Int
  seq : Nat
  preferred : Bool
  firstm : Bool
  st : State
deriving DecidableEq, Repr

def Entry.core (e : Entry) : ECore :=
  ⟨e.m_txhash, e.m_is_wtxid, e.m_peer, e.m_time, e.m_sequence, e.m_preferred,
    e.m_first, e.m_state⟩

def ECore.prio (k0 k1 : Nat) (c : ECore) : Nat :=
  priorityCompute k0 k1 c.txhash c.peer c.preferred c.firstm

/-- The priority component of the ByTxHash key: the priority for
CANDIDATE_READY entries and zero otherwise. -/
def Entry.prioR (k0 k1 : Nat) (e : Entry) : Nat :=
  if e.m_state = .CANDIDATE_READY then e.priority k0 k1 else 0

/-! ### The sortedness of the entry list in ByTxHash key order -/

def SortedK (k0 k1 : Nat) (l : List Entry) : Prop :=
  l.Pairwise (fun a b => a.keyN k0 k1 ≤ b.keyN k0 k1)

/-- Two entry lists with the same underlying list of core views (equal up
to per-txhash flag bytes, in the same order). -/
def CoreEq (l₁ l₂ : List Entry) : Prop := l₁.map Entry.core = l₂.map Entry.core

/-- Sequence numbers are pairwise distinct. -/
def seqNodup (l : List Entry) : Prop :=
  l.Pairwise (fun a b => a.m_sequence ≠ b.m_sequence)

/-! ### The specified per-txhash invariants, as multiset properties of the
core views -/

/-- A core view with its state replaced. -/
def setSt (c : ECore) (st : State) : ECore := { c with st := st }

/-- Number of selected (CANDIDATE_BEST or REQUESTED) core views for a txhash. -/
def selCount (h : Nat) (m : List ECore) : Nat :=
  m.countP (fun c => c.txhash == h && c.st.isSelected)

/-- Number of CANDIDATE_READY core views for a txhash. -/
def readyCount (h : Nat) (m : List ECore) : Nat :=
  m.countP (fun c => c.txhash == h && c.st == State.CANDIDATE_READY)

/-- Invariant: at most one selected announcement per txhash. -/
def InvSel (m : List ECore) : Prop := ∀ h, selCount h m ≤ 1

/-- Invariant: a txhash with a CANDIDATE_READY announcement has exactly one
selected announcement. -/
def InvReadySel (m : List ECore) : Prop := ∀ h, 0 < readyCount h m → selCount h m = 1

/-- Invariant: a CANDIDATE_BEST announcement has priority at most that of
every CANDIDATE_READY announcement of the same txhash. -/
def InvBestPrio (k0 k1 : Nat) (m : List ECore) : Prop :=
  ∀ b ∈ m, ∀ r ∈ m, b.txhash = r.txhash → b.st = State.CANDIDATE_BEST →
    r.st = State.CANDIDATE_READY → b.prio k0 k1 ≤ r.prio k0 k1

/-- Invariant: no txhash has only COMPLETED announcements. -/
def InvNoAllCompleted (m : List ECore) : Prop :=
  ∀ c ∈ m, ∃ w ∈ m, w.txhash = c.txhash ∧ w.st ≠ State.COMPLETED

/-- Invariant: no two announcements share a `(peer, txhash)` pair. -/
def PeerHashNodup (m : List ECore) : Prop :=
  m.Pairwise (fun a b => ¬(a.peer = b.peer ∧ a.txhash = b.txhash))

/-- All structural and per-txhash invariants except the no-all-COMPLETED
one (which is transiently broken inside `MakeCompleted`). -/
structure WFcore (t : Tracker) : Prop where
  sorted : SortedK t.m_k0 t.m_k1 t.entries
  snd : seqNodup t.entries
  sbound : ∀ e ∈ t.entries, e.m_sequence < t.m_sequence
  phnd : PeerHashNodup (t.entries.map Entry.core)
  sel : InvSel (t.entries.map Entry.core)
  rsel : InvReadySel (t.entries.map Entry.core)
  bprio : InvBestPrio t.m_k0 t.m_k1 (t.entries.map Entry.core)

/-- The full invariant of reachable tracker states. -/
def WF (t : Tracker) : Prop :=
  WFcore t ∧ InvNoAllCompleted (t.entries.map Entry.core)

/-- The specification of `PromoteCandidateNew` on the entry `e`: modulo
flag bytes, either `e` becomes CANDIDATE_READY and a selected announcement
for its txhash exists (whose priority, when it is CANDIDATE_BEST, is at
most that of `e`); or `e` becomes CANDIDATE_BEST and every other
announcement of its txhash is unselected, with priority at least that of
`e` when CANDIDATE_READY; or `e` becomes CANDIDATE_BEST displacing the
previous CANDIDATE_BEST `p` (demoted to CANDIDATE_READY), and no other
announcement of the txhash is selected. -/
def PromoteOut (t : Tracker) (e : Entry) (t' : Tracker) : Prop :=
  SortedK t.m_k0 t.m_k1 t'.entries ∧ seqNodup t'.entries ∧
  t'.entries.length = t.entries.length ∧
  t'.m_k0 = t.m_k0 ∧ t'.m_k1 = t.m_k1 ∧ t'.m_sequence = t.m_sequence ∧
  ∃ r : List ECore,
    List.Perm (t.entries.map Entry.core) (e.core :: r) ∧
    ((∃ x ∈ r, x.txhash = e.m_txhash ∧ x.st.isSelected = true ∧
        (x.st = State.CANDIDATE_BEST →
          x.prio t.m_k0 t.m_k1 ≤ e.core.prio t.m_k0 t.m_k1) ∧
        List.Perm (t'.entries.map Entry.core) (setSt e.core .CANDIDATE_READY :: r)) ∨
      ((∀ y ∈ r, y.txhash = e.m_txhash → y.st.isSelected = false ∧
          (y.st = State.CANDIDATE_READY →
            e.core.prio t.m_k0 t.m_k1 ≤ y.prio t.m_k0 t.m_k1)) ∧
        List.Perm (t'.entries.map Entry.core) (setSt e.core .CANDIDATE_BEST :: r)) ∨
      (∃ p r₂, List.Perm r (p :: r₂) ∧ p.txhash = e.m_txhash ∧
        p.st = State.CANDIDATE_BEST ∧
        e.core.prio t.m_k0 t.m_k1 < p.prio t.m_k0 t.m_k1 ∧
        (∀ y ∈ r₂, y.txhash = e.m_txhash → y.st.isSelected = false) ∧
        List.Perm (t'.entries.map Entry.core)
          (setSt e.core .CANDIDATE_BEST :: setSt p .CANDIDATE_READY :: r₂)))

/-- The specification of `ChangeAndReselect` on the entry `e` with new
state `ns`: modulo flag bytes, either only `e` changes state (and when `e`
was selected, no CANDIDATE_READY announcement of its txhash exists), or
`e` was selected and the best CANDIDATE_READY announcement `x` of its
txhash is promoted to CANDIDATE_BEST. -/
def ChangeOut (t : Tracker) (e : Entry) (ns : State) (t' : Tracker) : Prop :=
  SortedK t.m_k0 t.m_k1 t'.entries ∧ seqNodup t'.entries ∧
  t'.entries.length = t.entries.length ∧
  t'.m_k0 = t.m_k0 ∧ t'.m_k1 = t.m_k1 ∧ t'.m_sequence = t.m_sequence ∧
  ∃ r : List ECore,
    List.Perm (t.entries.map Entry.core) (e.core :: r) ∧
    (((e.m_state.isSelected = true →
          ∀ y ∈ r, y.txhash = e.m_txhash → y.st ≠ State.CANDIDATE_READY) ∧
        List.Perm (t'.entries.map Entry.core) (setSt e.core ns :: r)) ∨
      (e.m_state.isSelected = true ∧
        ∃ x r₂, List.Perm r (x :: r₂) ∧ x.txhash = e.m_txhash ∧
          x.st = State.CANDIDATE_READY ∧
          (∀ y ∈ r₂, y.txhash = e.m_txhash → y.st = State.CANDIDATE_READY →
            x.prio t.m_k0 t.m_k1 ≤ y.prio t.m_k0 t.m_k1) ∧
          List.Perm (t'.entries.map Entry.core)
            (setSt e.core ns :: setSt x .CANDIDATE_BEST :: r₂)))

/-- The observable effect of `MakeCompleted` on an entry `e`: either `e` is
already COMPLETED and nothing happens; or the whole txhash group of `e` is
deleted (reported by the `false` flag); or `e` is marked COMPLETED with a
possible reselection, and some non-COMPLETED entry of the group survives. -/
def CompletedOut (t : Tracker) (e : Entry) (out : Tracker × Bool) : Prop :=
  (e.m_state = State.COMPLETED ∧ out = (t, true)) ∨
  (out.2 = false ∧
    out.1.m_k0 = t.m_k0 ∧ out.1.m_k1 = t.m_k1 ∧ out.1.m_sequence = t.m_sequence ∧
    out.1.entries.map Entry.core =
      (t.entries.map Entry.core).filter (fun c => c.txhash != e.m_txhash) ∧
    SortedK t.m_k0 t.m_k1 out.1.entries ∧ seqNodup out.1.entries) ∨
  (out.2 = true ∧ e.m_state ≠ State.COMPLETED ∧
    ChangeOut t e State.COMPLETED out.1 ∧
    ∃ c ∈ out.1.entries.map Entry.core,
      c.txhash = e.m_txhash ∧ c.st ≠ State.COMPLETED)

/-- The core view of an entry whose state and time were both rewritten
(`RequestedTx` does this in one `Modify`). -/
def setStTime (c : ECore) (s : State) (ti : Int) : ECore :=
  { c with st := s, time := ti }

theorem core_prio (k0 k1 : Nat) (e : Entry) : e.core.prio k0 k1 = e.priority k0 k1 := rfl

/-! ### Arithmetic facts about priorities and the encoded ByTxHash key -/

theorem hash64_lt (k0 k1 h p : Nat) : hash64 k0 k1 h p < 2 ^ 64 :=
  Nat.mod_lt _ (by norm_num)

theorem priorityCompute_lt (k0 k1 h p : Nat) (pref fst : Bool) :
    priorityCompute k0 k1 h p pref fst < 2 ^ 64 := by
  unfold priorityCompute
  apply Nat.or_lt_two_pow
  · split
    · norm_num
    · calc hash64 k0 k1 h p >>> 1 ≤ hash64 k0 k1 h p := by
            rw [Nat.shiftRight_one]; exact Nat.div_le_self _ _
        _ < 2 ^ 64 := hash64_lt k0 k1 h p
  · split <;> norm_num [Nat.shiftLeft_eq]

theorem priority_lt (k0 k1 : Nat) (e : Entry) : e.priority k0 k1 < 2 ^ 64 :=
  priorityCompute_lt ..

theorem State.code_lt (s : State) : s.code < 8 := by cases s <;> simp [State.code]

theorem Entry.prioR_lt (k0 k1 : Nat) (e : Entry) : e.prioR k0 k1 < 2 ^ 64 := by
  unfold Entry.prioR; split
  · exact priority_lt ..
  · norm_num

theorem Entry.keyN_eq (k0 k1 : Nat) (e : Entry) :
    e.keyN k0 k1 = e.m_txhash * 2 ^ 67 + (e.m_state.code * 2 ^ 64 + e.prioR k0 k1) := by
  unfold Entry.keyN Entry.prioR; omega

/-- Positional comparison: with both remainders below the base, comparing
`a * M + r` against `b * M + s` is lexicographic. -/
theorem posLt_iff {M a b r s : Nat} (hr : r < M) (hs : s < M) :
    a * M + r < b * M + s ↔ a < b ∨ (a = b ∧ r < s) := by
  constructor
  · intro h
    rcases Nat.lt_trichotomy a b with hab | hab | hab
    · exact Or.inl hab
    · exact Or.inr ⟨hab, by subst hab; omega⟩
    · exfalso
      have hm : (b + 1) * M ≤ a * M := Nat.mul_le_mul_right M hab
      have hm' : (b + 1) * M = b * M + M := by ring
      omega
  · rintro (hab | ⟨rfl, hrs⟩)
    · have hm : (a + 1) * M ≤ b * M := Nat.mul_le_mul_right M hab
      have hm' : (a + 1) * M = a * M + M := by ring
      omega
    · omega

theorem posLe_iff {M a b r s : Nat} (hr : r < M) (hs : s < M) :
    a * M + r ≤ b * M + s ↔ a < b ∨ (a = b ∧ r ≤ s) := by
  have h1 := posLt_iff (a := b) (b := a) (r := s) (s := r) hs hr
  constructor
  · intro h
    rcases Nat.lt_trichotomy a b with hab | hab | hab
    · exact Or.inl hab
    · exact Or.inr ⟨hab, by subst hab; omega⟩
    · exfalso; have := h1.2 (Or.inl hab); omega
  · rintro (hab | ⟨rfl, hrs⟩)
    · have := (posLt_iff hr hs).2 (Or.inl hab); omega
    · omega

theorem keyN_lt_iff (k0 k1 : Nat) (a b : Entry) :
    a.keyN k0 k1 < b.keyN k0 k1 ↔
      a.m_txhash < b.m_txhash ∨
        (a.m_txhash = b.m_txhash ∧
          (a.m_state.code < b.m_state.code ∨
            (a.m_state.code = b.m_state.code ∧ a.prioR k0 k1 < b.prioR k0 k1))) := by
  rw [Entry.keyN_eq, Entry.keyN_eq]
  have hrest : ∀ e : Entry, e.m_state.code * 2 ^ 64 + e.prioR k0 k1 < 2 ^ 67 := by
    intro e
    have h1 := e.m_state.code_lt
    have h2 := e.prioR_lt k0 k1
    calc e.m_state.code * 2 ^ 64 + e.prioR k0 k1 < e.m_state.code * 2 ^ 64 + 2 ^ 64 := by omega
      _ = (e.m_state.code + 1) * 2 ^ 64 := by ring
      _ ≤ 8 * 2 ^ 64 := by
          have : e.m_state.code + 1 ≤ 8 := h1
          exact Nat.mul_le_mul_right _ this
      _ = 2 ^ 67 := by norm_num
  rw [posLt_iff (hrest a) (hrest b),
    posLt_iff (a.prioR_lt k0 k1) (b.prioR_lt k0 k1)]

theorem keyN_le_iff (k0 k1 : Nat) (a b : Entry) :
    a.keyN k0 k1 ≤ b.keyN k0 k1 ↔
      a.m_txhash < b.m_txhash ∨
        (a.m_txhash = b.m_txhash ∧
          (a.m_state.code < b.m_state.code ∨
            (a.m_state.code = b.m_state.code ∧ a.prioR k0 k1 ≤ b.prioR k0 k1))) := by
  have h1 := keyN_lt_iff k0 k1 b a
  have h2 := keyN_lt_iff k0 k1 a b
  constructor
  · intro h
    rcases Nat.lt_trichotomy (a.m_txhash) (b.m_txhash) with hh | hh | hh
    · exact Or.inl hh
    · refine Or.inr ⟨hh, ?_⟩
      rcases Nat.lt_trichotomy (a.m_state.code) (b.m_state.code) with hc | hc | hc
      · exact Or.inl hc
      · refine Or.inr ⟨hc, ?_⟩
        by_contra hp
        have := h1.2 (Or.inr ⟨hh.symm, Or.inr ⟨hc.symm, by omega⟩⟩)
        omega
      · exfalso; have := h1.2 (Or.inr ⟨hh.symm, Or.inl hc⟩); omega
    · exfalso; have := h1.2 (Or.inl hh); omega
  · intro h
    rcases h with hh | ⟨hh, hc | ⟨hc, hp⟩⟩
    · exact le_of_lt (h2.2 (Or.inl hh))
    · exact le_of_lt (h2.2 (Or.inr ⟨hh, Or.inl hc⟩))
    · rcases Nat.lt_or_ge (a.prioR k0 k1) (b.prioR k0 k1) with hp' | hp'
      · exact le_of_lt (h2.2 (Or.inr ⟨hh, Or.inr ⟨hc, hp'⟩⟩))
      · have : a.prioR k0 k1 = b.prioR k0 k1 := by omega
        rw [Entry.keyN_eq, Entry.keyN_eq, hh, hc, this]

theorem keyN_lt_searchKeyN_iff (k0 k1 h c : Nat) (hc : c < 8) (e : Entry) :
    e.keyN k0 k1 < searchKeyN h c ↔
      e.m_txhash < h ∨ (e.m_txhash = h ∧ e.m_state.code < c) := by
  rw [Entry.keyN_eq]
  unfold searchKeyN
  have hrest : e.m_state.code * 2 ^ 64 + e.prioR k0 k1 < 2 ^ 67 := by
    have h1 := e.m_state.code_lt
    have h2 := e.prioR_lt k0 k1
    calc e.m_state.code * 2 ^ 64 + e.prioR k0 k1 < (e.m_state.code + 1) * 2 ^ 64 := by ring_nf; omega
      _ ≤ 8 * 2 ^ 64 := Nat.mul_le_mul_right _ h1
      _ = 2 ^ 67 := by norm_num
  have hcrest : c * 2 ^ 64 + 0 < 2 ^ 67 := by
    calc c * 2 ^ 64 + 0 = c * 2 ^ 64 := by ring
      _ < 8 * 2 ^ 64 := by exact (Nat.mul_lt_mul_right (by norm_num)).2 hc
      _ = 2 ^ 67 := by norm_num
  have : h * 2 ^ 67 + c * 2 ^ 64 = h * 2 ^ 67 + (c * 2 ^ 64 + 0) := by ring
  rw [this, posLt_iff hrest hcrest,
    posLt_iff (e.prioR_lt k0 k1) (show (0 : Nat) < 2 ^ 64 by norm_num)]
  omega

theorem searchKeyN_le_keyN_iff (k0 k1 h c : Nat) (hc : c < 8) (e : Entry) :
    searchKeyN h c ≤ e.keyN k0 k1 ↔
      h < e.m_txhash ∨ (h = e.m_txhash ∧ c ≤ e.m_state.code) := by
  have h1 := keyN_lt_searchKeyN_iff k0 k1 h c hc e
  constructor
  · intro hle
    by_contra hcon
    push_neg at hcon
    have : e.keyN k0 k1 < searchKeyN h c := by
      apply h1.2
      rcases Nat.lt_trichotomy (e.m_txhash) h with hh | hh | hh
      · exact Or.inl hh
      · exact Or.inr ⟨hh, by have := hcon.2 hh.symm; omega⟩
      · exact absurd hh (by omega)
    omega
  · intro hgt
    by_contra hcon
    push_neg at hcon
    have := h1.1 hcon
    omega

theorem SortedK.le_of_le (hs : SortedK k0 k1 l) {i j : Nat} (hij : i ≤ j)
    (hj : j < l.length) :
    l[i].keyN k0 k1 ≤ l[j].keyN k0 k1 := by
  rcases Nat.lt_or_ge i j with hlt | hge
  · exact (List.pairwise_iff_getElem.1 hs) i j _ hj hlt
  · have : i = j := by omega
    subst this; exact le_refl _

/-! ### List surgery lemmas -/

theorem keyN_flag (k0 k1 : Nat) (e : Entry) (fl : Nat) :
    Entry.keyN k0 k1 { e with m_per_txhash := fl } = e.keyN k0 k1 := rfl

theorem core_flag (e : Entry) (fl : Nat) :
    Entry.core { e with m_per_txhash := fl } = e.core := rfl

theorem CoreEq.refl (l : List Entry) : CoreEq l l := rfl

theorem CoreEq.trans' {l₁ l₂ l₃ : List Entry} (h1 : CoreEq l₁ l₂) (h2 : CoreEq l₂ l₃) :
    CoreEq l₁ l₃ := h1.trans h2

theorem CoreEq.length_eq {l₁ l₂ : List Entry} (h : CoreEq l₁ l₂) :
    l₁.length = l₂.length := by
  have := congrArg List.length h
  simpa using this

theorem CoreEq.getElem?_core {l₁ l₂ : List Entry} (h : CoreEq l₁ l₂) (i : Nat) :
    (l₁[i]?.map Entry.core) = (l₂[i]?.map Entry.core) := by
  have := congrArg (fun l => l[i]?) h
  simpa using this

theorem eraseIdx_map (f : Entry → ECore) (l : List Entry) (i : Nat) :
    (l.eraseIdx i).map f = (l.map f).eraseIdx i := by
  induction l generalizing i with
  | nil => simp
  | cons x xs ih =>
      cases i with
      | zero => simp
      | succ j => simp [List.eraseIdx_cons_succ, ih]

theorem eq_take_cons_drop {α : Type} {l : List α} {i : Nat} (h : i < l.length) :
    l = l.take i ++ l[i] :: l.drop (i + 1) := by
  conv_lhs => rw [← List.take_append_drop i l]
  rw [List.drop_eq_getElem_cons h]

theorem perm_eraseIdx {α : Type} {l : List α} {i : Nat} (h : i < l.length) :
    List.Perm l (l[i] :: l.eraseIdx i) := by
  rw [List.eraseIdx_eq_take_drop_succ]
  conv_lhs => rw [eq_take_cons_drop h]
  exact List.perm_middle

/-- `orFlagsAt` changes no core view. -/
theorem orFlagsAt_coreEq (l : List Entry) (i fl : Nat) :
    CoreEq (orFlagsAt l i fl) l := by
  unfold orFlagsAt
  cases hg : l[i]? with
  | none => rfl
  | some e =>
      unfold CoreEq
      rw [List.map_set]
      have hi : i < l.length := by
        rcases List.getElem?_eq_some_iff.1 hg with ⟨h, _⟩
        exact h
      have he : l[i] = e := by
        rcases List.getElem?_eq_some_iff.1 hg with ⟨_, h2⟩
        exact h2
      apply List.ext_getElem?
      intro j
      rcases Nat.decEq i j with hne | heq
      · rw [List.getElem?_set_ne hne]
      · subst heq
        rw [List.getElem?_set_self (by simpa using hi)]
        rw [List.getElem?_map]
        rw [List.getElem?_eq_getElem hi, he]
        rfl

theorem propToPred_coreEq (l : List Entry) (i : Nat) :
    CoreEq (propToPred l i) l := by
  unfold propToPred
  split
  · exact CoreEq.refl l
  · cases l[i]? with
    | none => exact CoreEq.refl l
    | some e =>
        cases l[i - 1]? with
        | none => exact CoreEq.refl l
        | some p =>
            dsimp only
            split
            · exact orFlagsAt_coreEq l (i - 1) e.m_per_txhash
            · exact CoreEq.refl l

theorem propFromPred_coreEq (l : List Entry) (i : Nat) :
    CoreEq (propFromPred l i) l := by
  unfold propFromPred
  split
  · exact CoreEq.refl l
  · cases l[i]? with
    | none => exact CoreEq.refl l
    | some e =>
        cases l[i - 1]? with
        | none => exact CoreEq.refl l
        | some p =>
            dsimp only
            split
            · exact orFlagsAt_coreEq l i p.m_per_txhash
            · exact CoreEq.refl l

theorem insertUB_perm (k0 k1 : Nat) (e : Entry) (l : List Entry) :
    List.Perm (insertUB k0 k1 e l) (e :: l) := by
  induction l with
  | nil => exact List.Perm.refl _
  | cons x xs ih =>
      unfold insertUB
      split
      · exact (ih.cons x).trans (List.Perm.swap e x xs)
      · exact List.Perm.refl _

theorem insertUB_length (k0 k1 : Nat) (e : Entry) (l : List Entry) :
    (insertUB k0 k1 e l).length = l.length + 1 := by
  have := (insertUB_perm k0 k1 e l).length_eq
  simpa using this

theorem mem_insertUB {k0 k1 : Nat} {e x : Entry} {l : List Entry} :
    x ∈ insertUB k0 k1 e l ↔ x = e ∨ x ∈ l := by
  rw [(insertUB_perm k0 k1 e l).mem_iff]
  simp

/-- Inserting at the upper bound preserves sortedness. -/
theorem SortedK.insertUB {k0 k1 : Nat} {l : List Entry} (hs : SortedK k0 k1 l)
    (e : Entry) : SortedK k0 k1 (TxRequest.insertUB k0 k1 e l) := by
  induction l with
  | nil => simp [TxRequest.insertUB, SortedK]
  | cons x xs ih =>
      have hx : ∀ y ∈ xs, x.keyN k0 k1 ≤ y.keyN k0 k1 := by
        intro y hy
        exact (List.pairwise_cons.1 hs).1 y hy
      have hxs : SortedK k0 k1 xs := (List.pairwise_cons.1 hs).2
      unfold TxRequest.insertUB
      split
      · refine List.pairwise_cons.2 ⟨?_, ih hxs⟩
        intro y hy
        rcases mem_insertUB.1 hy with rfl | hy'
        · assumption
        · exact hx y hy'
      · refine List.pairwise_cons.2 ⟨?_, hs⟩
        intro y hy
        have he : e.keyN k0 k1 ≤ x.keyN k0 k1 := by omega
        rcases List.mem_cons.1 hy with rfl | hy'
        · exact he
        · exact le_trans he (hx y hy')

theorem SortedK.eraseIdx {k0 k1 : Nat} {l : List Entry} (hs : SortedK k0 k1 l)
    (i : Nat) : SortedK k0 k1 (l.eraseIdx i) :=
  hs.sublist (List.eraseIdx_sublist l i)

/-- Sortedness only depends on the core views. -/
theorem SortedK_of_coreEq {k0 k1 : Nat} {l₁ l₂ : List Entry} (h : CoreEq l₁ l₂)
    (hs : SortedK k0 k1 l₂) : SortedK k0 k1 l₁ := by
  have key_core : ∀ e : Entry, e.keyN k0 k1 =
      e.core.txhash * 2 ^ 67 + e.core.st.code * 2 ^ 64 +
        (if e.core.st = .CANDIDATE_READY then e.core.prio k0 k1 else 0) := fun _ => rfl
  unfold SortedK at hs ⊢
  have h1 : ∀ l : List Entry, l.Pairwise (fun a b => a.keyN k0 k1 ≤ b.keyN k0 k1) ↔
      (l.map Entry.core).Pairwise (fun a b =>
        a.txhash * 2 ^ 67 + a.st.code * 2 ^ 64 +
            (if a.st = .CANDIDATE_READY then a.prio k0 k1 else 0) ≤
          b.txhash * 2 ^ 67 + b.st.code * 2 ^ 64 +
            (if b.st = .CANDIDATE_READY then b.prio k0 k1 else 0)) := by
    intro l
    rw [List.pairwise_map]
    exact Iff.rfl
  rw [h1] at hs ⊢
  rw [h]
  exact hs

theorem seqNodup_of_coreEq {l₁ l₂ : List Entry} (h : CoreEq l₁ l₂)
    (hs : seqNodup l₂) : seqNodup l₁ := by
  unfold seqNodup at hs ⊢
  have h1 : ∀ l : List Entry, l.Pairwise (fun a b => a.m_sequence ≠ b.m_sequence) ↔
      (l.map Entry.core).Pairwise (fun a b => a.seq ≠ b.seq) := by
    intro l; rw [List.pairwise_map]; rfl
  rw [h1] at hs ⊢
  rw [h]
  exact hs

/-- Looking an entry up by its sequence number: with pairwise distinct
sequence numbers, `findIdx?` finds exactly the position of the entry. -/
theorem findSeq_spec {l : List Entry} (hnd : seqNodup l) {e : Entry}
    (he : e ∈ l) :
    ∃ i, l.findIdx? (fun x => x.m_sequence == e.m_sequence) = some i ∧
      ∃ h : i < l.length, l[i] = e := by
  have hex : ∃ x ∈ l, (fun x : Entry => x.m_sequence == e.m_sequence) x = true := by
    exact ⟨e, he, by simp⟩
  have h1 := List.findIdx?_eq_some_of_exists hex
  refine ⟨_, h1, ?_⟩
  rcases List.findIdx?_eq_some_iff_getElem.1 h1 with ⟨hlen, hp, _⟩
  refine ⟨hlen, ?_⟩
  rcases List.mem_iff_getElem.1 he with ⟨j, hj, hje⟩
  have hseq : l[List.findIdx (fun x => x.m_sequence == e.m_sequence) l].m_sequence
      = e.m_sequence := by simpa using hp
  have hpw := List.pairwise_iff_getElem.1 hnd
  rcases Nat.lt_trichotomy (List.findIdx (fun x => x.m_sequence == e.m_sequence) l) j
    with hlt | heq | hgt
  · exfalso
    have hcon := hpw _ _ hlen hj hlt
    rw [hje] at hcon
    exact hcon hseq
  · subst heq
    exact hje
  · exfalso
    have hcon := hpw _ _ hj hlen hgt
    rw [hje] at hcon
    exact hcon hseq.symm

/-- With pairwise distinct sequence numbers, an entry of the list is
determined by its sequence number. -/
theorem eq_of_seq_eq {l : List Entry} (hnd : seqNodup l) {x y : Entry}
    (hx : x ∈ l) (hy : y ∈ l) (hseq : x.m_sequence = y.m_sequence) : x = y := by
  rcases List.mem_iff_getElem.1 hx with ⟨i, hi, hix⟩
  rcases List.mem_iff_getElem.1 hy with ⟨j, hj, hjy⟩
  have hpw := List.pairwise_iff_getElem.1 hnd
  rcases Nat.lt_trichotomy i j with hlt | heq | hgt
  · exfalso
    have := hpw _ _ hi hj hlt
    rw [hix, hjy] at this
    exact this hseq
  · subst heq; rw [← hix, ← hjy]
  · exfalso
    have := hpw _ _ hj hi hgt
    rw [hix, hjy] at this
    exact this hseq.symm

theorem seqNodup_of_perm_core {l₁ : List Entry} {m : List ECore}
    (hp : List.Perm (l₁.map Entry.core) m)
    (hnd : m.Pairwise (fun a b => a.seq ≠ b.seq)) : seqNodup l₁ := by
  unfold seqNodup
  have h2 : (l₁.map Entry.core).Pairwise (fun a b => a.seq ≠ b.seq) :=
    (hp.pairwise_iff (fun {a b} h hc => h hc.symm)).2 hnd
  have h3 := (List.pairwise_map.1 h2)
  exact h3

/-! ### The effect of Modify and Erase on the core views -/

theorem eraseAt_map_core {l : List Entry} (i : Nat) :
    (eraseAt l i).map Entry.core = (l.map Entry.core).eraseIdx i := by
  unfold eraseAt
  rw [eraseIdx_map]
  have := propToPred_coreEq l i
  unfold CoreEq at this
  rw [this]

theorem eraseAt_perm_core {l : List Entry} {i : Nat} (hi : i < l.length) :
    List.Perm (l.map Entry.core) (l[i].core :: (eraseAt l i).map Entry.core) := by
  rw [eraseAt_map_core]
  have him : i < (l.map Entry.core).length := by simpa using hi
  have h1 : (l.map Entry.core)[i] = l[i].core := by
    rw [List.getElem_map]
  rw [← h1]
  exact perm_eraseIdx him

theorem SortedK.eraseAt {k0 k1 : Nat} {l : List Entry} (hs : SortedK k0 k1 l)
    (i : Nat) : SortedK k0 k1 (TxRequest.eraseAt l i) := by
  unfold TxRequest.eraseAt
  exact (SortedK_of_coreEq (propToPred_coreEq l i) hs).eraseIdx i

theorem eraseAt_length {l : List Entry} {i : Nat} (hi : i < l.length) :
    (eraseAt l i).length = l.length - 1 := by
  have h := congrArg List.length (eraseAt_map_core (l := l) i)
  rw [List.length_map, List.length_eraseIdx, List.length_map] at h
  rw [h]
  simp [hi]

/-- The full effect of `modifyBySeq` on the entry with sequence number `s`:
modulo flag bytes, the result is a permutation of the original with `f`
applied to that entry; sortedness and length are preserved. -/
theorem modifyBySeq_spec (k0 k1 : Nat) {l : List Entry} (hnd : seqNodup l)
    {e : Entry} (he : e ∈ l) (f : Entry → Entry) :
    ∃ r : List ECore,
      List.Perm (l.map Entry.core) (e.core :: r) ∧
      List.Perm ((modifyBySeq k0 k1 e.m_sequence f l).map Entry.core) ((f e).core :: r) ∧
      (SortedK k0 k1 l → SortedK k0 k1 (modifyBySeq k0 k1 e.m_sequence f l)) ∧
      (modifyBySeq k0 k1 e.m_sequence f l).length = l.length := by
  rcases findSeq_spec hnd he with ⟨i, hfind, hi, hie⟩
  have hdef : modifyBySeq k0 k1 e.m_sequence f l =
      (match (insertUB k0 k1 (f e) ((propToPred l i).eraseIdx i)).findIdx?
          (fun x => x.m_sequence == e.m_sequence) with
       | none => insertUB k0 k1 (f e) ((propToPred l i).eraseIdx i)
       | some j => propFromPred (insertUB k0 k1 (f e) ((propToPred l i).eraseIdx i)) j) := by
    unfold modifyBySeq
    rw [hfind]
    dsimp only
    rw [List.getElem?_eq_getElem hi]
    dsimp only
    rw [hie]
  have hcore3 : List.Perm ((insertUB k0 k1 (f e) ((propToPred l i).eraseIdx i)).map Entry.core)
      ((f e).core :: (l.map Entry.core).eraseIdx i) := by
    have hl2 : ((propToPred l i).eraseIdx i).map Entry.core
        = (l.map Entry.core).eraseIdx i := by
      rw [eraseIdx_map]
      have := propToPred_coreEq l i
      unfold CoreEq at this
      rw [this]
    have := (insertUB_perm k0 k1 (f e) ((propToPred l i).eraseIdx i)).map Entry.core
    rw [List.map_cons, hl2] at this
    exact this
  refine ⟨((l.map Entry.core).eraseIdx i), ?_, ?_, ?_, ?_⟩
  · have him : i < (l.map Entry.core).length := by simpa using hi
    have h1 : (l.map Entry.core)[i] = l[i].core := by
      rw [List.getElem_map]
    rw [← hie]
    rw [← h1]
    exact perm_eraseIdx him
  · rw [hdef]
    cases hmatch : (insertUB k0 k1 (f e) ((propToPred l i).eraseIdx i)).findIdx?
        (fun x => x.m_sequence == e.m_sequence) with
    | none => exact hcore3
    | some j =>
        have hpc := propFromPred_coreEq
          (insertUB k0 k1 (f e) ((propToPred l i).eraseIdx i)) j
        unfold CoreEq at hpc
        dsimp only
        rw [hpc]
        exact hcore3
  · intro hs
    rw [hdef]
    have hs2 : SortedK k0 k1 ((propToPred l i).eraseIdx i) :=
      (SortedK_of_coreEq (propToPred_coreEq l i) hs).eraseIdx i
    have hs3 : SortedK k0 k1 (insertUB k0 k1 (f e) ((propToPred l i).eraseIdx i)) :=
      hs2.insertUB (f e)
    cases hmatch : (insertUB k0 k1 (f e) ((propToPred l i).eraseIdx i)).findIdx?
        (fun x => x.m_sequence == e.m_sequence) with
    | none => exact hs3
    | some j =>
        dsimp only
        exact SortedK_of_coreEq (propFromPred_coreEq _ j) hs3
  · rw [hdef]
    have hlen2 : ((propToPred l i).eraseIdx i).length = l.length - 1 := by
      have h := congrArg List.length (propToPred_coreEq l i)
      rw [List.length_map, List.length_map] at h
      rw [List.length_eraseIdx, h]
      simp [hi]
    have hlen3 : (insertUB k0 k1 (f e) ((propToPred l i).eraseIdx i)).length
        = l.length := by
      rw [insertUB_length, hlen2]
      omega
    cases hmatch : (insertUB k0 k1 (f e) ((propToPred l i).eraseIdx i)).findIdx?
        (fun x => x.m_sequence == e.m_sequence) with
    | none => exact hlen3
    | some j =>
        dsimp only
        have h := congrArg List.length (propFromPred_coreEq
          (insertUB k0 k1 (f e) ((propToPred l i).eraseIdx i)) j)
        rw [List.length_map, List.length_map] at h
        rw [h, hlen3]

theorem InvSel_of_perm {m₁ m₂ : List ECore} (hp : List.Perm m₁ m₂)
    (h : InvSel m₂) : InvSel m₁ := by
  intro hh
  unfold selCount
  rw [hp.countP_eq]
  exact h hh

theorem InvReadySel_of_perm {m₁ m₂ : List ECore} (hp : List.Perm m₁ m₂)
    (h : InvReadySel m₂) : InvReadySel m₁ := by
  intro hh hr
  unfold readyCount at hr
  rw [hp.countP_eq] at hr
  have := h hh hr
  unfold selCount at this ⊢
  rw [hp.countP_eq]
  exact this

theorem InvBestPrio_of_perm {k0 k1 : Nat} {m₁ m₂ : List ECore} (hp : List.Perm m₁ m₂)
    (h : InvBestPrio k0 k1 m₂) : InvBestPrio k0 k1 m₁ := by
  intro b hb r hr
  exact h b (hp.mem_iff.1 hb) r (hp.mem_iff.1 hr)

theorem InvNoAllCompleted_of_perm {m₁ m₂ : List ECore} (hp : List.Perm m₁ m₂)
    (h : InvNoAllCompleted m₂) : InvNoAllCompleted m₁ := by
  intro c hc
  rcases h c (hp.mem_iff.1 hc) with ⟨w, hw, hwh, hws⟩
  exact ⟨w, hp.mem_iff.2 hw, hwh, hws⟩

theorem PeerHashNodup_of_perm {m₁ m₂ : List ECore} (hp : List.Perm m₁ m₂)
    (h : PeerHashNodup m₂) : PeerHashNodup m₁ :=
  (hp.pairwise_iff (fun {_ _} hab hc => hab ⟨hc.1.symm, hc.2.symm⟩)).2 h

/-- In a list of core views with pairwise distinct sequence numbers, a
member is determined by its sequence number. -/
theorem core_eq_of_seq_eq {m : List ECore} (hnd : m.Pairwise (fun a b => a.seq ≠ b.seq))
    {x y : ECore} (hx : x ∈ m) (hy : y ∈ m) (hseq : x.seq = y.seq) : x = y := by
  rcases List.mem_iff_getElem.1 hx with ⟨i, hi, hix⟩
  rcases List.mem_iff_getElem.1 hy with ⟨j, hj, hjy⟩
  have hpw := List.pairwise_iff_getElem.1 hnd
  rcases Nat.lt_trichotomy i j with hlt | heq | hgt
  · exfalso
    have := hpw _ _ hi hj hlt
    rw [hix, hjy] at this
    exact this hseq
  · subst heq; rw [← hix, ← hjy]
  · exfalso
    have := hpw _ _ hj hi hgt
    rw [hix, hjy] at this
    exact this hseq.symm

theorem seqNodup_pairwise_core {l : List Entry} (hnd : seqNodup l) :
    (l.map Entry.core).Pairwise (fun a b => a.seq ≠ b.seq) := by
  rw [List.pairwise_map]
  exact hnd

theorem core_setSt (e : Entry) (st : State) :
    Entry.core { e with m_state := st } = setSt e.core st := rfl

/-- The Tracker-level specification of `Modify`: it rewrites exactly the
entry with the given sequence number (modulo flag bytes everywhere), and
preserves sortedness, sequence number distinctness and bounds, and the
length and the administrative fields. -/
theorem Tracker.modify_spec (t : Tracker) {e : Entry} (hsort : SortedK t.m_k0 t.m_k1 t.entries)
    (hnd : seqNodup t.entries) (he : e ∈ t.entries) (f : Entry → Entry)
    (hfseq : (f e).m_sequence = e.m_sequence) :
    ∃ r : List ECore,
      List.Perm (t.entries.map Entry.core) (e.core :: r) ∧
      List.Perm ((t.modify e.m_sequence f).entries.map Entry.core) ((f e).core :: r) ∧
      SortedK t.m_k0 t.m_k1 (t.modify e.m_sequence f).entries ∧
      seqNodup (t.modify e.m_sequence f).entries ∧
      (t.modify e.m_sequence f).entries.length = t.entries.length := by
  rcases modifyBySeq_spec t.m_k0 t.m_k1 hnd he f with ⟨r, h1, h2, h3, h4⟩
  refine ⟨r, h1, h2, h3 hsort, ?_, h4⟩
  apply seqNodup_of_perm_core h2
  have hold := seqNodup_pairwise_core hnd
  have hcons : (e.core :: r).Pairwise (fun a b => a.seq ≠ b.seq) :=
    (h1.pairwise_iff (fun {a b} hab hc => hab hc.symm)).1 hold
  rcases List.pairwise_cons.1 hcons with ⟨hhead, hrest⟩
  apply List.pairwise_cons.2
  refine ⟨?_, hrest⟩
  intro b hb
  have : (f e).core.seq = e.core.seq := hfseq
  rw [this]
  exact hhead b hb

theorem Tracker.modify_k0 (t : Tracker) (s : Nat) (f : Entry → Entry) :
    (t.modify s f).m_k0 = t.m_k0 := rfl

theorem Tracker.modify_k1 (t : Tracker) (s : Nat) (f : Entry → Entry) :
    (t.modify s f).m_k1 = t.m_k1 := rfl

theorem Tracker.modify_seqctr (t : Tracker) (s : Nat) (f : Entry → Entry) :
    (t.modify s f).m_sequence = t.m_sequence := rfl

/-! ### Small facts about states and entry lookups -/

theorem State.code_cases (s : State) :
    (s = .CANDIDATE_DELAYED ∧ s.code = 0) ∨ (s = .CANDIDATE_BEST ∧ s.code = 1) ∨
    (s = .REQUESTED ∧ s.code = 2) ∨ (s = .CANDIDATE_READY ∧ s.code = 3) ∨
    (s = .COMPLETED ∧ s.code = 4) := by
  cases s <;> simp [State.code]

theorem State.isSelected_code {s : State} : s.isSelected = true ↔ s.code = 1 ∨ s.code = 2 := by
  cases s <;> simp [State.code, State.isSelected]

theorem State.isSelectable_code {s : State} : s.isSelectable = true ↔ s.code = 1 ∨ s.code = 3 := by
  cases s <;> simp [State.code, State.isSelectable]

theorem State.isWaiting_code {s : State} : s.isWaiting = true ↔ s.code = 0 ∨ s.code = 2 := by
  cases s <;> simp [State.code, State.isWaiting]

theorem Entry.core_seq (e : Entry) : e.core.seq = e.m_sequence := rfl

theorem Entry.core_txhash (e : Entry) : e.core.txhash = e.m_txhash := rfl

theorem Entry.core_st (e : Entry) : e.core.st = e.m_state := rfl

theorem Entry.core_time (e : Entry) : e.core.time = e.m_time := rfl

theorem prioR_of_ready {k0 k1 : Nat} {e : Entry} (h : e.m_state = .CANDIDATE_READY) :
    e.prioR k0 k1 = e.priority k0 k1 := by
  unfold Entry.prioR
  rw [if_pos h]

/-- An entry whose core view is known exists whenever the core view is in
the mapped list. -/
theorem entry_of_core_mem {l : List Entry} {c : ECore} (h : c ∈ l.map Entry.core) :
    ∃ y ∈ l, y.core = c := by
  rcases List.mem_map.1 h with ⟨y, hy, hyc⟩
  exact ⟨y, hy, hyc⟩

theorem State.code_D : State.CANDIDATE_DELAYED.code = 0 := rfl

theorem State.code_B : State.CANDIDATE_BEST.code = 1 := rfl

theorem State.code_Q : State.REQUESTED.code = 2 := rfl

theorem State.code_R : State.CANDIDATE_READY.code = 3 := rfl

theorem State.code_C : State.COMPLETED.code = 4 := rfl

theorem setSt_setSt (c : ECore) (s1 s2 : State) : setSt (setSt c s1) s2 = setSt c s2 := rfl

theorem setSt_st (c : ECore) (s : State) : (setSt c s).st = s := rfl

theorem setSt_seq (c : ECore) (s : State) : (setSt c s).seq = c.seq := rfl

theorem setSt_txhash (c : ECore) (s : State) : (setSt c s).txhash = c.txhash := rfl

theorem setSt_prio (k0 k1 : Nat) (c : ECore) (s : State) :
    (setSt c s).prio k0 k1 = c.prio k0 k1 := rfl

/-- Distinct sequence numbers make the list of core views duplicate free. -/
theorem coreNodup {l : List Entry} (hnd : seqNodup l) : (l.map Entry.core).Nodup :=
  (seqNodup_pairwise_core hnd).imp (fun h heq => h (congrArg ECore.seq heq))

/-- The head of a cons decomposition of a duplicate-free multiset does not
recur in the tail. -/
theorem head_notin_rest {l : List Entry} {c₀ : ECore} {r : List ECore}
    (hnd : seqNodup l) (hperm : List.Perm (l.map Entry.core) (c₀ :: r)) : c₀ ∉ r := by
  have h1 : (c₀ :: r).Nodup := hperm.nodup_iff.1 (coreNodup hnd)
  exact (List.nodup_cons.1 h1).1

/-- Entries at distinct positions have distinct sequence numbers. -/
theorem getElem_seq_ne {l : List Entry} (hnd : seqNodup l) {i j : Nat}
    (hi : i < l.length) (hj : j < l.length) (hne : i ≠ j) :
    l[i].m_sequence ≠ l[j].m_sequence := by
  have hpw := List.pairwise_iff_getElem.1 hnd
  rcases Nat.lt_or_ge i j with hlt | hge
  · exact hpw _ _ hi hj hlt
  · have hlt : j < i := by omega
    exact fun hc => (hpw _ _ hj hi hlt) hc.symm

/-- Two distinct members of a list both satisfying a predicate witness a
count of at least two. -/
theorem two_le_countP {m : List ECore} {a b : ECore} (ha : a ∈ m) (hb : b ∈ m)
    (hne : a ≠ b) {p : ECore → Bool} (hpa : p a = true) (hpb : p b = true) :
    2 ≤ m.countP p := by
  have h1 : List.Perm m (a :: m.erase a) := List.perm_cons_erase ha
  have hb2 : b ∈ m.erase a := (List.mem_erase_of_ne hne.symm).2 hb
  have h2 : 1 ≤ (m.erase a).countP p :=
    List.countP_pos_iff.2 ⟨b, hb2, hpb⟩
  rw [h1.countP_eq, List.countP_cons, hpa]
  simp only [if_true]
  omega

/-- `PromoteCandidateNew` satisfies its specification. -/
theorem promote_spec (t : Tracker) (hwf : WFcore t) {e : Entry} (he : e ∈ t.entries)
    (hst : e.m_state = State.CANDIDATE_DELAYED) :
    PromoteOut t e (t.promoteCandidateNew e.m_sequence) := by
  obtain ⟨r, hm1, hm2, hsort1, hnd1, hlen1⟩ :=
    t.modify_spec hwf.sorted hwf.snd he (fun x => { x with m_state := .CANDIDATE_READY }) rfl
  have hheadeq : (Entry.core ((fun x => { x with m_state := State.CANDIDATE_READY }) e))
      = setSt e.core .CANDIDATE_READY := rfl
  rw [hheadeq] at hm2
  have hcurcore_mem : setSt e.core .CANDIDATE_READY ∈
      (t.modify e.m_sequence (fun x =>
        { x with m_state := State.CANDIDATE_READY })).entries.map Entry.core :=
    hm2.mem_iff.2 (List.mem_cons_self _ _)
  obtain ⟨cur, hcur_mem, hcur_core⟩ := entry_of_core_mem hcurcore_mem
  have hcur_seq : cur.m_sequence = e.m_sequence := by
    rw [← Entry.core_seq, hcur_core]; rfl
  have hcur_st : cur.m_state = .CANDIDATE_READY := by
    rw [← Entry.core_st, hcur_core]; rfl
  have hcur_hash : cur.m_txhash = e.m_txhash := by
    rw [← Entry.core_txhash, hcur_core]; rfl
  have hcur_prio : cur.priority t.m_k0 t.m_k1 = e.priority t.m_k0 t.m_k1 := by
    rw [← core_prio, ← core_prio, hcur_core]; rfl
  obtain ⟨i, hfind, hi, hie⟩ := findSeq_spec hnd1 hcur_mem
  rw [hcur_seq] at hfind
  have hred : t.promoteCandidateNew e.m_sequence =
      (let t1 := t.modify e.m_sequence (fun x => { x with m_state := State.CANDIDATE_READY })
       let prev? : Option Entry := if i = 0 then none else t1.entries[i - 1]?
       match prev? with
       | none => t1.modify e.m_sequence (fun x => { x with m_state := .CANDIDATE_BEST })
       | some p =>
           if p.m_txhash ≠ cur.m_txhash ∨ p.m_state = .CANDIDATE_DELAYED then
             t1.modify e.m_sequence (fun x => { x with m_state := .CANDIDATE_BEST })
           else if p.m_state = .CANDIDATE_BEST then
             if cur.priority t.m_k0 t.m_k1 < p.priority t.m_k0 t.m_k1 then
               (t1.modify p.m_sequence
                   (fun x => { x with m_state := .CANDIDATE_READY })).modify e.m_sequence
                 (fun x => { x with m_state := .CANDIDATE_BEST })
             else t1
           else t1) := by
    unfold Tracker.promoteCandidateNew
    dsimp only
    rw [hfind]
    dsimp only
    rw [List.getElem?_eq_getElem hi]
    dsimp only
    rw [hie]
  set t1 : Tracker :=
    t.modify e.m_sequence (fun x => { x with m_state := State.CANDIDATE_READY }) with ht1def
  have hnotin : setSt e.core .CANDIDATE_READY ∉ r := head_notin_rest hnd1 hm2
  have hlift : ∀ c ∈ r, ∃ y ∈ t1.entries, y.core = c ∧ y ≠ cur := by
    intro c hc
    have hcm : c ∈ t1.entries.map Entry.core := hm2.mem_iff.2 (List.mem_cons_of_mem _ hc)
    obtain ⟨y, hy, hyc⟩ := entry_of_core_mem hcm
    refine ⟨y, hy, hyc, ?_⟩
    intro heq
    subst heq
    rw [hcur_core] at hyc
    exact hnotin (hyc ▸ hc)
  have hidx : ∀ y ∈ t1.entries, y ≠ cur →
      ∃ j, ∃ hj : j < t1.entries.length, t1.entries[j] = y ∧ j ≠ i := by
    intro y hy hne
    rcases List.mem_iff_getElem.1 hy with ⟨j, hj, hjy⟩
    refine ⟨j, hj, hjy, ?_⟩
    intro heq
    subst heq
    rw [hie] at hjy
    exact hne hjy.symm
  have hafter : ∀ j, ∀ hj : j < t1.entries.length, i < j →
      t1.entries[j].m_txhash = e.m_txhash →
      t1.entries[j].m_state.isSelected = false ∧
        (t1.entries[j].m_state = .CANDIDATE_READY →
          e.priority t.m_k0 t.m_k1 ≤ t1.entries[j].priority t.m_k0 t.m_k1) := by
    intro j hj hij hhash
    have hk := hsort1.le_of_le (le_of_lt hij) hj
    rw [hie] at hk
    rw [keyN_le_iff] at hk
    rcases hk with hlt | ⟨hheq, hcode⟩
    · exfalso
      rw [hcur_hash, hhash] at hlt
      omega
    · rw [hcur_hash, hhash] at hheq
      have hcc : cur.m_state.code = 3 := by rw [hcur_st, State.code_R]
      rcases State.code_cases (t1.entries[j].m_state) with
        ⟨hs, hc⟩ | ⟨hs, hc⟩ | ⟨hs, hc⟩ | ⟨hs, hc⟩ | ⟨hs, hc⟩
      · exfalso; rw [hc, hcc] at hcode
        rcases hcode with h | ⟨h, _⟩ <;> omega
      · exfalso; rw [hc, hcc] at hcode
        rcases hcode with h | ⟨h, _⟩ <;> omega
      · exfalso; rw [hc, hcc] at hcode
        rcases hcode with h | ⟨h, _⟩ <;> omega
      · constructor
        · rw [hs]; rfl
        · intro _
          rcases hcode with h | ⟨_, hp⟩
          · exfalso; rw [hc, hcc] at h; omega
          · rw [prioR_of_ready hcur_st, prioR_of_ready hs] at hp
            rw [hcur_prio] at hp
            exact hp
      · constructor
        · rw [hs]; rfl
        · intro hcon; rw [hs] at hcon; exact absurd hcon (by simp)
  have hy_core_in_r : ∀ y ∈ t1.entries, y ≠ cur → y.core ∈ r := by
    intro y hy hne
    have hcm : y.core ∈ t1.entries.map Entry.core := List.mem_map_of_mem _ hy
    rcases List.mem_cons.1 (hm2.mem_iff.1 hcm) with h2 | h2
    · exfalso
      rcases hidx y hy hne with ⟨j, hj, hjy, hjne⟩
      have hseqne : t1.entries[j].m_sequence ≠ t1.entries[i].m_sequence :=
        getElem_seq_ne hnd1 hj hi hjne
      rw [hjy, hie] at hseqne
      apply hseqne
      have h3 : y.core.seq = cur.core.seq := by rw [h2, hcur_core]
      exact h3
    · exact h2
  -- symbolic execution of the definition
  have hred : t.promoteCandidateNew e.m_sequence =
      (let prev? : Option Entry := if i = 0 then none else t1.entries[i - 1]?
       match prev? with
       | none => t1.modify e.m_sequence (fun x => { x with m_state := .CANDIDATE_BEST })
       | some p =>
           if p.m_txhash ≠ cur.m_txhash ∨ p.m_state = .CANDIDATE_DELAYED then
             t1.modify e.m_sequence (fun x => { x with m_state := .CANDIDATE_BEST })
           else if p.m_state = .CANDIDATE_BEST then
             if cur.priority t.m_k0 t.m_k1 < p.priority t.m_k0 t.m_k1 then
               (t1.modify p.m_sequence
                   (fun x => { x with m_state := .CANDIDATE_READY })).modify e.m_sequence
                 (fun x => { x with m_state := .CANDIDATE_BEST })
             else t1
           else t1) := by
    unfold Tracker.promoteCandidateNew
    rw [← ht1def]
    dsimp only
    rw [hfind]
    dsimp only
    rw [List.getElem?_eq_getElem hi]
    dsimp only
    rw [hie]
  -- the CANDIDATE_BEST outcome, shared by two branches
  have hbestGoal : (∀ y ∈ t1.entries, y ≠ cur → y.m_txhash = e.m_txhash →
        y.m_state.isSelected = false ∧ (y.m_state = .CANDIDATE_READY →
          e.priority t.m_k0 t.m_k1 ≤ y.priority t.m_k0 t.m_k1)) →
      PromoteOut t e
        (t1.modify e.m_sequence (fun x => { x with m_state := .CANDIDATE_BEST })) := by
    intro hpos
    obtain ⟨r2, hn1, hn2, hsort2, hnd2, hlen2⟩ :=
      t1.modify_spec hsort1 hnd1 hcur_mem (fun x => { x with m_state := .CANDIDATE_BEST }) rfl
    nth_rewrite 1 [hcur_seq] at hn2
    rw [hcur_seq] at hsort2 hnd2 hlen2
    have hr2r : List.Perm r2 r := by
      have h3 := hn1.symm.trans hm2
      rw [hcur_core] at h3
      exact h3.cons_inv
    have hn2' : List.Perm ((t1.modify e.m_sequence (fun x =>
          { x with m_state := State.CANDIDATE_BEST })).entries.map Entry.core)
        (setSt e.core State.CANDIDATE_BEST :: r2) := by
      have hx : setSt cur.core State.CANDIDATE_BEST = setSt e.core State.CANDIDATE_BEST := by
        rw [hcur_core, setSt_setSt]
      rw [← hx]
      exact hn2
    refine ⟨hsort2, hnd2, by rw [hlen2, hlen1], rfl, rfl, rfl, r, hm1, Or.inr (Or.inl ⟨?_, ?_⟩)⟩
    · intro c hc hchash
      obtain ⟨y, hy, hyc, hyne⟩ := hlift c hc
      have hyhash : y.m_txhash = e.m_txhash := by
        rw [← Entry.core_txhash, hyc]; exact hchash
      have := hpos y hy hyne hyhash
      constructor
      · rw [← hyc]; exact this.1
      · intro hcR
        have hyR : y.m_state = .CANDIDATE_READY := by
          rw [← Entry.core_st, hyc]; exact hcR
        have h4 := this.2 hyR
        rw [← hyc]
        rw [core_prio, core_prio]
        exact h4
    · exact hn2'.trans (List.Perm.cons _ hr2r)
  rw [hred]
  by_cases hi0 : i = 0
  · rw [if_pos hi0]
    dsimp only
    apply hbestGoal
    intro y hy hyne hyhash
    rcases hidx y hy hyne with ⟨j, hj, hjy, hjne⟩
    have hij : i < j := by omega
    have := hafter j hj hij (by rw [hjy]; exact hyhash)
    rw [hjy] at this
    exact this
  · rw [if_neg hi0]
    have hi1 : i - 1 < t1.entries.length := by omega
    rw [List.getElem?_eq_getElem hi1]
    dsimp only
    have hprev_mem : t1.entries[i - 1] ∈ t1.entries := List.getElem_mem hi1
    have hprev_ne : t1.entries[i - 1] ≠ cur := by
      intro heq
      have hseqne := getElem_seq_ne hnd1 hi1 hi (by omega)
      rw [heq, hie] at hseqne
      exact hseqne rfl
    have hprev_key := hsort1.le_of_le (show i - 1 ≤ i by omega) hi
    rw [hie, keyN_le_iff] at hprev_key
    have hbefore : ∀ j, ∀ hj : j < t1.entries.length, j < i - 1 →
        (t1.entries[j]).keyN t.m_k0 t.m_k1 ≤ (t1.entries[i - 1]).keyN t.m_k0 t.m_k1 := by
      intro j hj hji
      exact hsort1.le_of_le (show j ≤ i - 1 by omega) hi1
    by_cases hc1 : t1.entries[i - 1].m_txhash ≠ cur.m_txhash ∨
        t1.entries[i - 1].m_state = .CANDIDATE_DELAYED
    · rw [if_pos hc1]
      apply hbestGoal
      intro y hy hyne hyhash
      rcases hidx y hy hyne with ⟨j, hj, hjy, hjne⟩
      rcases Nat.lt_or_ge i j with hij | hij
      · have := hafter j hj hij (by rw [hjy]; exact hyhash)
        rw [hjy] at this
        exact this
      · -- j < i: show this whole region is impossible or DELAYED
        have hji : j ≤ i - 1 := by omega
        have hk := hsort1.le_of_le hji hi1
        rw [hjy] at hk
        rcases hc1 with hq | hq
        · exfalso
          -- the predecessor has a different txhash, so nothing of this
          -- txhash can sit at or before it
          rcases hprev_key with hlt | ⟨hheq, _⟩
          · rw [keyN_le_iff] at hk
            rcases hk with hlt2 | ⟨hheq2, _⟩
            · rw [hyhash] at hlt2
              rw [hcur_hash] at hlt
              omega
            · rw [hyhash] at hheq2
              rw [hcur_hash] at hlt
              omega
          · exact hq hheq
        · -- the predecessor is CANDIDATE_DELAYED
          rcases Nat.eq_or_lt_of_le hji with hji2 | hji2
          · -- y is the predecessor itself
            subst hji2
            have hys : y.m_state = .CANDIDATE_DELAYED := by rw [← hjy]; exact hq
            constructor
            · rw [hys]; rfl
            · intro hcon; rw [hys] at hcon; simp at hcon
          · by_cases hyh : t1.entries[i - 1].m_txhash = cur.m_txhash
            · rw [keyN_le_iff] at hk
              rcases hk with hlt2 | ⟨hheq2, hcode2⟩
              · exfalso
                rw [hyhash] at hlt2
                rw [hcur_hash] at hyh
                omega
              · have hqc : (t1.entries[i - 1]).m_state.code = 0 := by rw [hq, State.code_D]
                have hycode : y.m_state.code = 0 := by
                  rcases hcode2 with hx | ⟨hx, _⟩
                  · rw [hqc] at hx; omega
                  · rw [hqc] at hx; exact hx
                have hys : y.m_state = .CANDIDATE_DELAYED := by
                  rcases State.code_cases y.m_state with
                    ⟨hs, hc⟩ | ⟨hs, hc⟩ | ⟨hs, hc⟩ | ⟨hs, hc⟩ | ⟨hs, hc⟩ <;>
                    first
                    | exact hs
                    | (exfalso; rw [hc] at hycode; omega)
                constructor
                · rw [hys]; rfl
                · intro hcon; rw [hys] at hcon; simp at hcon
            · exfalso
              rcases hprev_key with hlt | ⟨hheq, _⟩
              · rw [keyN_le_iff] at hk
                rcases hk with hlt2 | ⟨hheq2, _⟩
                · rw [hyhash] at hlt2
                  rw [hcur_hash] at hlt
                  omega
                · rw [hyhash] at hheq2
                  rw [hcur_hash] at hlt
                  omega
              · exact hyh hheq
    · rw [if_neg hc1]
      push_neg at hc1
      obtain ⟨hphash, hpnd⟩ := hc1
      have hpcode : (t1.entries[i - 1]).m_state.code ≤ 3 := by
        rcases hprev_key with hlt | ⟨_, hcode⟩
        · exfalso; rw [hphash] at hlt; omega
        · rcases hcode with h | ⟨h, _⟩
          · rw [hcur_st] at h
            rw [State.code_R] at h
            omega
          · rw [hcur_st] at h
            rw [State.code_R] at h
            omega
      by_cases hc2 : t1.entries[i - 1].m_state = .CANDIDATE_BEST
      · rw [if_pos hc2]
        by_cases hc3 : cur.priority t.m_k0 t.m_k1 <
            (t1.entries[i - 1]).priority t.m_k0 t.m_k1
        · rw [if_pos hc3]
          -- the displacement case
          have hpcore_r : (t1.entries[i - 1]).core ∈ r :=
            hy_core_in_r _ hprev_mem hprev_ne
          obtain ⟨rp, hp1, hp2, hsortp, hndp, hlenp⟩ :=
            t1.modify_spec hsort1 hnd1 hprev_mem
              (fun x => { x with m_state := .CANDIDATE_READY }) rfl
          have hr2perm : List.Perm r ((t1.entries[i - 1]).core ::
              r.erase (t1.entries[i - 1]).core) := List.perm_cons_erase hpcore_r
          have hrp : List.Perm rp
              (setSt e.core .CANDIDATE_READY :: r.erase (t1.entries[i - 1]).core) := by
            have h3 := hp1.symm.trans (hm2.trans (List.Perm.cons _ hr2perm))
            have h4 := h3.trans (List.Perm.swap _ _ _)
            exact h4.cons_inv
          have hp2' : List.Perm ((t1.modify (t1.entries[i - 1]).m_sequence
                (fun x => { x with m_state := .CANDIDATE_READY })).entries.map Entry.core)
              (setSt (t1.entries[i - 1]).core .CANDIDATE_READY ::
                setSt e.core .CANDIDATE_READY :: r.erase (t1.entries[i - 1]).core) := by
            exact hp2.trans (List.Perm.cons _ hrp)
          -- the final modify of the new entry to CANDIDATE_BEST
          have hcm2 : setSt e.core .CANDIDATE_READY ∈
              ((t1.modify (t1.entries[i - 1]).m_sequence
                (fun x => { x with m_state := .CANDIDATE_READY })).entries.map Entry.core) := by
            apply hp2'.mem_iff.2
            exact List.mem_cons_of_mem _ (List.mem_cons_self _ _)
          obtain ⟨cur2, hcur2_mem, hcur2_core⟩ := entry_of_core_mem hcm2
          have hcur2_seq : cur2.m_sequence = e.m_sequence := by
            rw [← Entry.core_seq, hcur2_core]; rfl
          obtain ⟨rq, hq1, hq2, hsortq, hndq, hlenq⟩ :=
            (t1.modify (t1.entries[i - 1]).m_sequence
              (fun x => { x with m_state := .CANDIDATE_READY })).modify_spec
              hsortp hndp hcur2_mem (fun x => { x with m_state := .CANDIDATE_BEST }) rfl
          nth_rewrite 1 [hcur2_seq] at hq2
          rw [hcur2_seq] at hsortq hndq hlenq
          have hrq : List.Perm rq (setSt (t1.entries[i - 1]).core .CANDIDATE_READY ::
              r.erase (t1.entries[i - 1]).core) := by
            have h3 := hq1.symm.trans hp2'
            rw [hcur2_core] at h3
            have h4 := h3.trans (List.Perm.swap _ _ _)
            exact h4.cons_inv
          have hq2' : List.Perm (((t1.modify (t1.entries[i - 1]).m_sequence
                (fun x => { x with m_state := .CANDIDATE_READY })).modify e.m_sequence
                (fun x => { x with m_state := .CANDIDATE_BEST })).entries.map Entry.core)
              (setSt e.core .CANDIDATE_BEST ::
                setSt (t1.entries[i - 1]).core .CANDIDATE_READY ::
                  r.erase (t1.entries[i - 1]).core) := by
            have hx : setSt cur2.core State.CANDIDATE_BEST
                = setSt e.core State.CANDIDATE_BEST := by
              rw [hcur2_core, setSt_setSt]
            rw [← hx]
            exact hq2.trans (List.Perm.cons _ hrq)
          refine ⟨hsortq, hndq, by rw [hlenq, hlenp, hlen1], rfl, rfl, rfl, r, hm1,
            Or.inr (Or.inr ⟨(t1.entries[i - 1]).core, r.erase (t1.entries[i - 1]).core,
              hr2perm, ?_, ?_, ?_, ?_, hq2'⟩)⟩
          · rw [Entry.core_txhash, hphash, hcur_hash]
          · rw [Entry.core_st]; exact hc2
          · rw [core_prio, core_prio]
            rw [← hcur_prio]
            exact hc3
          · -- no other selected announcement of this txhash
            intro c hc hchash
            have hcr : c ∈ r := List.mem_of_mem_erase hc
            have hcne : c ≠ (t1.entries[i - 1]).core := by
              have hnd_r : r.Nodup := by
                have h1 : (setSt e.core .CANDIDATE_READY :: r).Nodup :=
                  hm2.nodup_iff.1 (coreNodup hnd1)
                exact (List.nodup_cons.1 h1).2
              intro heq
              rw [heq] at hc
              exact (List.Nodup.mem_erase_iff hnd_r).1 hc |>.1 rfl
            obtain ⟨y, hy, hyc, hyne⟩ := hlift c hcr
            have hynep : y ≠ t1.entries[i - 1] := by
              intro heq
              apply hcne
              rw [← hyc, heq]
            rcases hidx y hy hyne with ⟨j, hj, hjy, hjne⟩
            have hyhash : y.m_txhash = e.m_txhash := by
              rw [← Entry.core_txhash, hyc]; exact hchash
            rcases Nat.lt_or_ge i j with hij | hij
            · have := hafter j hj hij (by rw [hjy]; exact hyhash)
              rw [hjy] at this
              rw [← hyc]
              exact this.1
            · have hji1 : j ≠ i - 1 := by
                intro heq
                subst heq
                exact hynep hjy.symm
              have hji : j < i - 1 := by omega
              have hk := hsort1.le_of_le (show j ≤ i - 1 by omega) hi1
              simp only [hjy] at hk
              rw [keyN_le_iff] at hk
              rcases hk with hlt2 | ⟨_, hcode2⟩
              · exfalso
                rw [hyhash, hphash, hcur_hash] at hlt2
                omega
              · have hqc : (t1.entries[i - 1]).m_state.code = 1 := by rw [hc2, State.code_B]
                rcases State.code_cases (y.m_state) with
                  ⟨hs, hcy⟩ | ⟨hs, hcy⟩ | ⟨hs, hcy⟩ | ⟨hs, hcy⟩ | ⟨hs, hcy⟩
                · rw [← hyc, Entry.core_st, hs]; rfl
                · -- a second CANDIDATE_BEST: impossible by the uniqueness
                  -- of selected announcements
                  exfalso
                  have hsel := hwf.sel e.m_txhash
                  have hyin : y.core ∈ t.entries.map Entry.core :=
                    hm1.mem_iff.2 (List.mem_cons_of_mem _ (hyc ▸ hcr))
                  have hpin : (t1.entries[i - 1]).core ∈ t.entries.map Entry.core :=
                    hm1.mem_iff.2 (List.mem_cons_of_mem _ hpcore_r)
                  have hynec : y.core ≠ (t1.entries[i - 1]).core := by
                    rw [hyc]; exact hcne
                  have h2 := two_le_countP hyin hpin hynec
                    (p := fun c => c.txhash == e.m_txhash && c.st.isSelected)
                    (by simp [Entry.core_txhash, Entry.core_st, hyhash, hs, State.isSelected])
                    (by simp [Entry.core_txhash, Entry.core_st, hphash, hcur_hash, hc2,
                      State.isSelected])
                  unfold InvSel selCount at hsel
                  omega
                · exfalso
                  rw [hcy, hqc] at hcode2
                  rcases hcode2 with h | ⟨h, _⟩ <;> omega
                · exfalso
                  rw [hcy, hqc] at hcode2
                  rcases hcode2 with h | ⟨h, _⟩ <;> omega
                · exfalso
                  rw [hcy, hqc] at hcode2
                  rcases hcode2 with h | ⟨h, _⟩ <;> omega
        · rw [if_neg hc3]
          -- the new entry stays CANDIDATE_READY behind the CANDIDATE_BEST
          refine ⟨hsort1, hnd1, hlen1, rfl, rfl, rfl, r, hm1,
            Or.inl ⟨(t1.entries[i - 1]).core, hy_core_in_r _ hprev_mem hprev_ne, ?_, ?_, ?_, hm2⟩⟩
          · rw [Entry.core_txhash, hphash, hcur_hash]
          · rw [Entry.core_st, hc2]; rfl
          · intro _
            rw [core_prio, core_prio]
            rw [← hcur_prio]
            omega
      · rw [if_neg hc2]
        -- the predecessor is REQUESTED or CANDIDATE_READY
        rcases State.code_cases (t1.entries[i - 1].m_state) with
          ⟨hs, _⟩ | ⟨hs, _⟩ | ⟨hs, _⟩ | ⟨hs, _⟩ | ⟨hs, hcode⟩
        · exact absurd hs hpnd
        · exact absurd hs hc2
        · -- REQUESTED: it is the selected announcement
          refine ⟨hsort1, hnd1, hlen1, rfl, rfl, rfl, r, hm1,
            Or.inl ⟨(t1.entries[i - 1]).core, hy_core_in_r _ hprev_mem hprev_ne, ?_, ?_, ?_, hm2⟩⟩
          · rw [Entry.core_txhash, hphash, hcur_hash]
          · rw [Entry.core_st, hs]; rfl
          · intro hcon
            rw [Entry.core_st, hs] at hcon
            exact absurd hcon (by simp)
        · -- CANDIDATE_READY: some selected announcement exists by the
          -- invariants, with priority at most the predecessor
          have hpin : (t1.entries[i - 1]).core ∈ t.entries.map Entry.core :=
            hm1.mem_iff.2 (List.mem_cons_of_mem _ (hy_core_in_r _ hprev_mem hprev_ne))
          have hready : 0 < readyCount e.m_txhash (t.entries.map Entry.core) := by
            unfold readyCount
            apply List.countP_pos_iff.2
            refine ⟨(t1.entries[i - 1]).core, hpin, ?_⟩
            simp [Entry.core_txhash, Entry.core_st, hphash, hcur_hash, hs]
          have hselc := hwf.rsel e.m_txhash hready
          unfold selCount at hselc
          have hexsel : ∃ x ∈ t.entries.map Entry.core,
              (x.txhash == e.m_txhash && x.st.isSelected) = true := by
            apply List.countP_pos_iff.1
            omega
          obtain ⟨x, hxin, hxp⟩ := hexsel
          simp only [Bool.and_eq_true, beq_iff_eq] at hxp
          have hxhash : x.txhash = e.m_txhash := hxp.1
          have hxsel : x.st.isSelected = true := hxp.2
          have hxner : x ∈ r := by
            rcases List.mem_cons.1 (hm1.mem_iff.1 hxin) with h | h
            · exfalso
              have : x.st = e.m_state := by rw [h, Entry.core_st]
              rw [this, hst] at hxsel
              exact absurd hxsel (by simp [State.isSelected])
            · exact h
          refine ⟨hsort1, hnd1, hlen1, rfl, rfl, rfl, r, hm1,
            Or.inl ⟨x, hxner, hxhash, hxsel, ?_, hm2⟩⟩
          intro hxB
          -- chain: prio x ≤ prio predecessor ≤ prio cur = prio e
          have hb := hwf.bprio x hxin ((t1.entries[i - 1]).core) hpin
            (by rw [Entry.core_txhash, hphash, hcur_hash, hxhash])
            hxB (by rw [Entry.core_st]; exact hs)
          have hpp : (t1.entries[i - 1]).priority t.m_k0 t.m_k1 ≤
              cur.priority t.m_k0 t.m_k1 := by
            rcases hprev_key with hlt | ⟨_, hcode2⟩
            · exfalso; rw [hphash] at hlt; omega
            · rcases hcode2 with h | ⟨_, hp⟩
              · exfalso
                rw [hcur_st] at h
                rw [hs] at h
                rw [State.code_R] at h
                omega
              · rw [prioR_of_ready hs, prioR_of_ready hcur_st] at hp
                exact hp
          rw [core_prio] at hb
          calc x.prio t.m_k0 t.m_k1 ≤ (t1.entries[i - 1]).priority t.m_k0 t.m_k1 := hb
            _ ≤ cur.priority t.m_k0 t.m_k1 := hpp
            _ = e.core.prio t.m_k0 t.m_k1 := by rw [hcur_prio, core_prio]
        · exfalso
          rw [hcode] at hpcode
          omega

/-- `ChangeAndReselect` satisfies its specification. -/
theorem changeAndReselect_spec (t : Tracker) (hwf : WFcore t) {e : Entry}
    (he : e ∈ t.entries) (ns : State) :
    ChangeOut t e ns (t.changeAndReselect e.m_sequence ns) := by
  obtain ⟨i, hfind, hi, hie⟩ := findSeq_spec hwf.snd he
  have hred : t.changeAndReselect e.m_sequence ns =
      (let t1 :=
        if e.m_state.isSelected then
          match t.entries[i + 1]? with
          | some nxt =>
              if nxt.m_txhash = e.m_txhash ∧ nxt.m_state = .CANDIDATE_READY then
                t.modify nxt.m_sequence (fun x => { x with m_state := .CANDIDATE_BEST })
              else t
          | none => t
        else t
       t1.modify e.m_sequence (fun x => { x with m_state := ns })) := by
    unfold Tracker.changeAndReselect
    rw [hfind]
    dsimp only
    rw [List.getElem?_eq_getElem hi]
    dsimp only
    rw [hie]
  rw [hred]
  by_cases hsel : e.m_state.isSelected
  · rw [if_pos hsel]
    cases hnx : t.entries[i + 1]? with
    | none =>
        dsimp only
        -- no successor: no CANDIDATE_READY of this txhash can exist
        obtain ⟨r, hm1, hm2, hsort1, hnd1, hlen1⟩ :=
          t.modify_spec hwf.sorted hwf.snd he (fun x => { x with m_state := ns }) rfl
        refine ⟨hsort1, hnd1, hlen1, rfl, rfl, rfl, r, hm1, Or.inl ⟨?_, hm2⟩⟩
        intro _ y hy hyh hyR
        have hlen : t.entries.length ≤ i + 1 := by
          by_contra hcon
          push_neg at hcon
          rw [List.getElem?_eq_getElem hcon] at hnx
          exact Option.noConfusion hnx
        -- every entry other than e sits at an index at most i, hence has a
        -- key at most that of e; a CANDIDATE_READY of the same txhash would
        -- have a greater key
        have hnotin : e.core ∉ r := head_notin_rest hwf.snd hm1
        have hcm : y ∈ t.entries.map Entry.core := hm1.mem_iff.2 (List.mem_cons_of_mem _ hy)
        obtain ⟨z, hz, hzc⟩ := entry_of_core_mem hcm
        rcases List.mem_iff_getElem.1 hz with ⟨j, hj, hjz⟩
        have hjne : j ≠ i := by
          intro heq
          subst heq
          rw [hie] at hjz
          rw [← hjz] at hzc
          exact hnotin (hzc ▸ hy)
        have hji : j < i := by omega
        have hk := hwf.sorted.le_of_le (le_of_lt hji) hi
        rw [hie] at hk
        have hzj : z.keyN t.m_k0 t.m_k1 ≤ e.keyN t.m_k0 t.m_k1 := by
          rw [← hjz]
          exact hk
        rw [keyN_le_iff] at hzj
        have hzhash : z.m_txhash = e.m_txhash := by
          rw [← Entry.core_txhash, hzc]; exact hyh
        have hzst : z.m_state = State.CANDIDATE_READY := by
          rw [← Entry.core_st, hzc]; exact hyR
        have hecode : e.m_state.code = 1 ∨ e.m_state.code = 2 :=
          State.isSelected_code.1 hsel
        rcases hzj with hlt | ⟨_, hcode⟩
        · rw [hzhash] at hlt; omega
        · rw [hzst, State.code_R] at hcode
          rcases hcode with hx | ⟨hx, _⟩ <;> omega
    | some nxt =>
        dsimp only
        have hi1 : i + 1 < t.entries.length := by
          by_contra hcon
          push_neg at hcon
          rw [List.getElem?_eq_none_iff.2 hcon] at hnx
          exact Option.noConfusion hnx
        have hnxt : t.entries[i + 1] = nxt := by
          rw [List.getElem?_eq_getElem hi1] at hnx
          exact Option.some.inj hnx
        by_cases hcnd : nxt.m_txhash = e.m_txhash ∧ nxt.m_state = .CANDIDATE_READY
        · rw [if_pos hcnd]
          obtain ⟨hnh, hnR⟩ := hcnd
          -- the reselect case: promote nxt, then change e
          have hnxt_mem : nxt ∈ t.entries := by rw [← hnxt]; exact List.getElem_mem hi1
          have hnxt_ne : nxt.m_sequence ≠ e.m_sequence := by
            have := getElem_seq_ne hwf.snd hi1 hi (by omega)
            rw [hnxt, hie] at this
            exact this
          obtain ⟨r, hm1, _, _, _, _⟩ :=
            t.modify_spec hwf.sorted hwf.snd he (fun x => { x with m_state := ns }) rfl
          have hnotin : e.core ∉ r := head_notin_rest hwf.snd hm1
          have hnc_in_r : nxt.core ∈ r := by
            have hcm : nxt.core ∈ t.entries.map Entry.core := List.mem_map_of_mem _ hnxt_mem
            rcases List.mem_cons.1 (hm1.mem_iff.1 hcm) with h2 | h2
            · exfalso
              apply hnxt_ne
              rw [← Entry.core_seq, h2, Entry.core_seq]
            · exact h2
          obtain ⟨rp, hp1, hp2, hsortp, hndp, hlenp⟩ :=
            t.modify_spec hwf.sorted hwf.snd hnxt_mem
              (fun x => { x with m_state := .CANDIDATE_BEST }) rfl
          have hr2perm : List.Perm r (nxt.core :: r.erase nxt.core) :=
            List.perm_cons_erase hnc_in_r
          have hrp : List.Perm rp (e.core :: r.erase nxt.core) := by
            have h3 := hp1.symm.trans (hm1.trans (List.Perm.cons _ hr2perm))
            have h4 := h3.trans (List.Perm.swap _ _ _)
            exact h4.cons_inv
          have hp2' : List.Perm ((t.modify nxt.m_sequence
                (fun x => { x with m_state := .CANDIDATE_BEST })).entries.map Entry.core)
              (setSt nxt.core .CANDIDATE_BEST :: e.core :: r.erase nxt.core) :=
            hp2.trans (List.Perm.cons _ hrp)
          -- now change e in the modified tracker
          have hecm : e.core ∈ (t.modify nxt.m_sequence
              (fun x => { x with m_state := .CANDIDATE_BEST })).entries.map Entry.core := by
            apply hp2'.mem_iff.2
            exact List.mem_cons_of_mem _ (List.mem_cons_self _ _)
          obtain ⟨e2, he2_mem, he2_core⟩ := entry_of_core_mem hecm
          have he2_seq : e2.m_sequence = e.m_sequence := by
            rw [← Entry.core_seq, he2_core, Entry.core_seq]
          obtain ⟨rq, hq1, hq2, hsortq, hndq, hlenq⟩ :=
            (t.modify nxt.m_sequence
              (fun x => { x with m_state := .CANDIDATE_BEST })).modify_spec
              hsortp hndp he2_mem (fun x => { x with m_state := ns }) rfl
          nth_rewrite 1 [he2_seq] at hq2
          rw [he2_seq] at hsortq hndq hlenq
          have hrq : List.Perm rq (setSt nxt.core .CANDIDATE_BEST :: r.erase nxt.core) := by
            have h3 := hq1.symm.trans hp2'
            rw [he2_core] at h3
            have h4 := h3.trans (List.Perm.swap _ _ _)
            exact h4.cons_inv
          have hq2' : List.Perm (((t.modify nxt.m_sequence
                (fun x => { x with m_state := .CANDIDATE_BEST })).modify e.m_sequence
                (fun x => { x with m_state := ns })).entries.map Entry.core)
              (setSt e.core ns :: setSt nxt.core .CANDIDATE_BEST ::
                r.erase nxt.core) := by
            have hx : setSt e2.core ns = setSt e.core ns := by
              rw [he2_core]
            rw [← hx]
            exact hq2.trans (List.Perm.cons _ hrq)
          refine ⟨hsortq, hndq, by rw [hlenq, hlenp], rfl, rfl, rfl, r, hm1,
            Or.inr ⟨hsel, nxt.core, r.erase nxt.core, hr2perm, ?_, ?_, ?_, hq2'⟩⟩
          · rw [Entry.core_txhash]; exact hnh
          · rw [Entry.core_st]; exact hnR
          · -- nxt is the best CANDIDATE_READY: all others come later in
            -- the ByTxHash order
            intro c hc hchash hcR
            have hcr : c ∈ r := List.mem_of_mem_erase hc
            have hcne : c ≠ nxt.core := by
              have hnd_r : r.Nodup := by
                have h1 : (e.core :: r).Nodup := hm1.nodup_iff.1 (coreNodup hwf.snd)
                exact (List.nodup_cons.1 h1).2
              intro heq
              rw [heq] at hc
              exact (List.Nodup.mem_erase_iff hnd_r).1 hc |>.1 rfl
            have hcm : c ∈ t.entries.map Entry.core :=
              hm1.mem_iff.2 (List.mem_cons_of_mem _ hcr)
            obtain ⟨z, hz, hzc⟩ := entry_of_core_mem hcm
            rcases List.mem_iff_getElem.1 hz with ⟨j, hj, hjz⟩
            have hzhash : z.m_txhash = e.m_txhash := by
              rw [← Entry.core_txhash, hzc]; exact hchash
            have hzst : z.m_state = State.CANDIDATE_READY := by
              rw [← Entry.core_st, hzc]; exact hcR
            have hjne : j ≠ i := by
              intro heq
              subst heq
              rw [hie] at hjz
              have : e.core ∈ r := by rw [hjz, hzc]; exact hcr
              exact (head_notin_rest hwf.snd hm1) this
            have hjne1 : j ≠ i + 1 := by
              intro heq
              subst heq
              rw [hnxt] at hjz
              apply hcne
              rw [← hzc, hjz]
            have hecode : e.m_state.code = 1 ∨ e.m_state.code = 2 :=
              State.isSelected_code.1 hsel
            have hji : i + 1 < j := by
              rcases Nat.lt_or_ge j i with hj2 | hj2
              · exfalso
                have hk := hwf.sorted.le_of_le (le_of_lt hj2) hi
                rw [hie] at hk
                have hzj : z.keyN t.m_k0 t.m_k1 ≤ e.keyN t.m_k0 t.m_k1 := by
                  rw [← hjz]; exact hk
                rw [keyN_le_iff] at hzj
                rcases hzj with hlt | ⟨_, hcode⟩
                · rw [hzhash] at hlt; omega
                · rw [hzst, State.code_R] at hcode
                  rcases hcode with hx | ⟨hx, _⟩ <;> omega
              · omega
            have hk := hwf.sorted.le_of_le (le_of_lt hji) hj
            have hzj : nxt.keyN t.m_k0 t.m_k1 ≤ z.keyN t.m_k0 t.m_k1 := by
              rw [← hnxt, ← hjz]
              exact hk
            rw [keyN_le_iff] at hzj
            rcases hzj with hlt | ⟨_, hcode⟩
            · exfalso
              rw [hzhash, hnh] at hlt
              omega
            · rcases hcode with hx | ⟨_, hp⟩
              · exfalso
                rw [hzst, hnR, State.code_R] at hx
                omega
              · rw [prioR_of_ready hnR, prioR_of_ready hzst] at hp
                rw [← hzc]
                rw [core_prio, core_prio]
                exact hp
        · rw [if_neg hcnd]
          -- the successor is not a CANDIDATE_READY of this txhash: no
          -- CANDIDATE_READY of this txhash exists at all
          obtain ⟨r, hm1, hm2, hsort1, hnd1, hlen1⟩ :=
            t.modify_spec hwf.sorted hwf.snd he (fun x => { x with m_state := ns }) rfl
          refine ⟨hsort1, hnd1, hlen1, rfl, rfl, rfl, r, hm1, Or.inl ⟨?_, hm2⟩⟩
          intro _ y hy hyh hyR
          have hnotin : e.core ∉ r := head_notin_rest hwf.snd hm1
          have hcm : y ∈ t.entries.map Entry.core :=
            hm1.mem_iff.2 (List.mem_cons_of_mem _ hy)
          obtain ⟨z, hz, hzc⟩ := entry_of_core_mem hcm
          rcases List.mem_iff_getElem.1 hz with ⟨j, hj, hjz⟩
          have hzhash : z.m_txhash = e.m_txhash := by
            rw [← Entry.core_txhash, hzc]; exact hyh
          have hzst : z.m_state = State.CANDIDATE_READY := by
            rw [← Entry.core_st, hzc]; exact hyR
          have hjne : j ≠ i := by
            intro heq
            subst heq
            rw [hie] at hjz
            rw [← hjz] at hzc
            exact hnotin (hzc ▸ hy)
          have hecode : e.m_state.code = 1 ∨ e.m_state.code = 2 :=
            State.isSelected_code.1 hsel
          have hji : i < j := by
            rcases Nat.lt_or_ge j i with hj2 | hj2
            · exfalso
              have hk := hwf.sorted.le_of_le (le_of_lt hj2) hi
              rw [hie] at hk
              have hzj : z.keyN t.m_k0 t.m_k1 ≤ e.keyN t.m_k0 t.m_k1 := by
                rw [← hjz]; exact hk
              rw [keyN_le_iff] at hzj
              rcases hzj with hlt | ⟨_, hcode⟩
              · rw [hzhash] at hlt; omega
              · rw [hzst, State.code_R] at hcode
                rcases hcode with hx | ⟨hx, _⟩ <;> omega
            · omega
          -- between e and z there is the successor: it must also belong to
          -- this txhash with a code between selected and READY, which
          -- either contradicts hcnd or the uniqueness of selected entries
          have hknx := hwf.sorted.le_of_le (show i ≤ i + 1 by omega)
            (show i + 1 < t.entries.length by omega)
          rw [hie, hnxt] at hknx
          have hkzx := hwf.sorted.le_of_le (show i + 1 ≤ j by omega) hj
          have hkzx' : nxt.keyN t.m_k0 t.m_k1 ≤ z.keyN t.m_k0 t.m_k1 := by
            rw [← hnxt, ← hjz]
            exact hkzx
          rw [keyN_le_iff] at hknx hkzx'
          exfalso
          have hnxh : nxt.m_txhash = e.m_txhash := by
            rcases hknx with hlt | ⟨hheq, _⟩
            · rcases hkzx' with hlt2 | ⟨hheq2, _⟩
              · rw [hzhash] at hlt2; omega
              · rw [hzhash] at hheq2; omega
            · exact hheq.symm
          have hnxcode : nxt.m_state.code ≤ 3 := by
            rcases hkzx' with hlt2 | ⟨_, hcode⟩
            · exfalso
              rw [hzhash, hnxh] at hlt2
              omega
            · rw [hzst, State.code_R] at hcode
              rcases hcode with hx | ⟨hx, _⟩ <;> omega
          have hnxcode2 : 1 ≤ nxt.m_state.code := by
            rcases hknx with hlt | ⟨_, hcode⟩
            · exfalso; rw [hnxh] at hlt; omega
            · rcases hcode with hx | ⟨hx, _⟩ <;> omega
          -- nxt is not CANDIDATE_READY of this hash (hcnd), so its code is
          -- 1 or 2: a second selected entry of this txhash
          have hnxsel : nxt.m_state.isSelected = true := by
            rcases State.code_cases nxt.m_state with
              ⟨hs, hc⟩ | ⟨hs, hc⟩ | ⟨hs, hc⟩ | ⟨hs, hc⟩ | ⟨hs, hc⟩
            · exfalso; rw [hc] at hnxcode2; omega
            · rw [hs]; rfl
            · rw [hs]; rfl
            · exact absurd ⟨hnxh, hs⟩ hcnd
            · exfalso; rw [hc] at hnxcode; omega
          have hnxt_mem : nxt ∈ t.entries := by rw [← hnxt]; exact List.getElem_mem _
          have hnxt_ne : nxt.core ≠ e.core := by
            intro heq
            have := getElem_seq_ne hwf.snd hi1 hi (by omega)
            rw [hnxt, hie] at this
            apply this
            rw [← Entry.core_seq, heq, Entry.core_seq]
          have h2 := two_le_countP (List.mem_map_of_mem Entry.core hnxt_mem)
            (List.mem_map_of_mem Entry.core he)
            (by exact fun hc => hnxt_ne hc)
            (p := fun c => c.txhash == e.m_txhash && c.st.isSelected)
            (by simp [Entry.core_txhash, Entry.core_st, hnxh, hnxsel])
            (by simp [Entry.core_txhash, Entry.core_st, hsel])
          have hsel1 := hwf.sel e.m_txhash
          unfold InvSel selCount at hsel1
          omega
  · rw [if_neg hsel]
    dsimp only
    obtain ⟨r, hm1, hm2, hsort1, hnd1, hlen1⟩ :=
      t.modify_spec hwf.sorted hwf.snd he (fun x => { x with m_state := ns }) rfl
    refine ⟨hsort1, hnd1, hlen1, rfl, rfl, rfl, r, hm1, Or.inl ⟨?_, hm2⟩⟩
    intro hcon
    exact absurd hcon hsel

theorem seqNodup_eraseAt {l : List Entry} (hnd : seqNodup l) (i : Nat) :
    seqNodup (eraseAt l i) := by
  unfold eraseAt
  exact (seqNodup_of_coreEq (propToPred_coreEq l i) hnd).sublist (List.eraseIdx_sublist _ i)

/-- Removing an element that fails the filter does not change the filter. -/
theorem filter_eraseIdx_of_neg {m : List ECore} {p : ECore → Bool} {i : Nat}
    (hi : i < m.length) (hP : p m[i] = false) :
    m.filter p = (m.eraseIdx i).filter p := by
  conv_lhs => rw [eq_take_cons_drop hi]
  rw [List.eraseIdx_eq_take_drop_succ]
  rw [List.filter_append, List.filter_append, List.filter_cons, hP]
  simp

set_option maxHeartbeats 1000000 in
/-- The erase loop of `MakeCompleted` removes exactly the txhash group:
starting at the first entry of the group, with enough fuel, the surviving
core views are those of the other txhashes. -/
theorem eraseGroupFrom_spec {k0 k1 hsh : Nat} :
    ∀ (fuel : Nat) (l : List Entry), SortedK k0 k1 l → seqNodup l →
    ∀ i, ∀ hi : i < l.length, l[i].m_txhash = hsh →
    (∀ j, ∀ hj : j < l.length, j < i → l[j].m_txhash ≠ hsh) →
    l.length ≤ fuel →
    (eraseGroupFrom hsh i fuel l).map Entry.core =
      (l.map Entry.core).filter (fun c => c.txhash != hsh) ∧
    SortedK k0 k1 (eraseGroupFrom hsh i fuel l) ∧
    seqNodup (eraseGroupFrom hsh i fuel l) := by
  intro fuel
  induction fuel with
  | zero =>
      intro l _ _ i hi _ _ hfuel
      omega
  | succ fuel ih =>
      intro l hs hnd i hi hhash hbefore hfuel
      have hstep : (l.map Entry.core).filter (fun c => c.txhash != hsh)
          = ((eraseAt l i).map Entry.core).filter (fun c => c.txhash != hsh) := by
        rw [eraseAt_map_core]
        apply filter_eraseIdx_of_neg (by simpa using hi)
        have him : i < (l.map Entry.core).length := by simpa using hi
        have h9 : (l.map Entry.core)[i] = l[i].core := List.getElem_map _
        rw [h9]
        simp [Entry.core_txhash, hhash]
      have hsort' : SortedK k0 k1 (eraseAt l i) := hs.eraseAt i
      have hnd' : seqNodup (eraseAt l i) := seqNodup_eraseAt hnd i
      have hlen' : (eraseAt l i).length = l.length - 1 := eraseAt_length hi
      have hA : ∀ j, j < i → ∀ hj1 : j < (eraseAt l i).length, ∀ hj0 : j < l.length,
          ((eraseAt l i)[j]).core = l[j].core := by
        intro j hji hj1 hj0
        have h2 := eraseAt_map_core (l := l) i
        have hj2 : j < ((l.map Entry.core).eraseIdx i).length := by
          rw [← h2]
          simpa using hj1
        have hjm1 : j < ((eraseAt l i).map Entry.core).length := by simpa using hj1
        have hjm2 : j < (l.map Entry.core).length := by simpa using hj0
        calc ((eraseAt l i)[j]).core
            = ((eraseAt l i).map Entry.core)[j] :=
              (List.getElem_map _).symm
          _ = ((l.map Entry.core).eraseIdx i)[j] := by simp only [h2]
          _ = (l.map Entry.core)[j] :=
              List.getElem_eraseIdx_of_lt _ _ _ _ hji
          _ = l[j].core := List.getElem_map _
      have hB : ∀ j, i ≤ j → ∀ hj1 : j < (eraseAt l i).length, ∀ hj0 : j + 1 < l.length,
          ((eraseAt l i)[j]).core = l[j + 1].core := by
        intro j hji hj1 hj0
        have h2 := eraseAt_map_core (l := l) i
        have hj2 : j < ((l.map Entry.core).eraseIdx i).length := by
          rw [← h2]
          simpa using hj1
        have hjm1 : j < ((eraseAt l i).map Entry.core).length := by simpa using hj1
        have hjm2 : j + 1 < (l.map Entry.core).length := by simpa using hj0
        calc ((eraseAt l i)[j]).core
            = ((eraseAt l i).map Entry.core)[j] :=
              (List.getElem_map _).symm
          _ = ((l.map Entry.core).eraseIdx i)[j] := by simp only [h2]
          _ = (l.map Entry.core)[j + 1] :=
              List.getElem_eraseIdx_of_ge _ _ _ _ hji
          _ = l[j + 1].core := List.getElem_map _
      have hnoh : ∀ e', (eraseAt l i)[i]? = some e' → e'.m_txhash ≠ hsh →
          ∀ c ∈ (eraseAt l i).map Entry.core, (c.txhash != hsh) = true := by
        intro e' hnx hh c hc
        have hi' : i < (eraseAt l i).length := (List.getElem?_eq_some_iff.1 hnx).1
        have hie' : (eraseAt l i)[i] = e' := (List.getElem?_eq_some_iff.1 hnx).2
        have hgt : hsh < e'.m_txhash := by
          have hi1 : i + 1 < l.length := by omega
          have hce := hB i (le_refl i) hi' hi1
          rw [hie'] at hce
          have h5 : e'.m_txhash = l[i + 1].m_txhash :=
            congrArg ECore.txhash hce
          have hk := hs.le_of_le (show i ≤ i + 1 by omega) (by omega)
          rw [keyN_le_iff] at hk
          rcases hk with hlt | ⟨hheq, _⟩
          · rw [hhash] at hlt
            omega
          · rw [hhash] at hheq
            omega
        obtain ⟨z, hz, hzc⟩ := entry_of_core_mem hc
        rcases List.mem_iff_getElem.1 hz with ⟨j, hj, hjz⟩
        rcases Nat.lt_or_ge j i with hji | hji
        · have hj0 : j < l.length := by omega
          have hce := hA j hji hj hj0
          have hzt : z.m_txhash = l[j].m_txhash := by
            have := (congrArg Entry.core hjz).symm.trans hce
            exact congrArg ECore.txhash this
          have hbj := hbefore j hj0 hji
          rw [← hzc, Entry.core_txhash]
          simp only [bne_iff_ne, ne_eq]
          rw [hzt]
          exact hbj
        · have hk := hsort'.le_of_le hji hj
          rw [hie'] at hk
          rw [keyN_le_iff] at hk
          have hzh : hsh < z.m_txhash := by
            rw [← hjz]
            rcases hk with hlt | ⟨hheq, _⟩ <;>
              [skip; skip] <;> omega
          rw [← hzc, Entry.core_txhash]
          simp only [bne_iff_ne, ne_eq]
          omega
      unfold eraseGroupFrom
      dsimp only
      cases hnx : (eraseAt l i)[i]? with
      | some e' =>
          dsimp only
          have hi' : i < (eraseAt l i).length := (List.getElem?_eq_some_iff.1 hnx).1
          have hie' : (eraseAt l i)[i] = e' := (List.getElem?_eq_some_iff.1 hnx).2
          by_cases hh : e'.m_txhash = hsh
          · rw [if_pos hh]
            have hres := ih (eraseAt l i) hsort' hnd' i hi' (by rw [hie']; exact hh)
              (by
                intro j hj hji
                have hj0 : j < l.length := by omega
                have hce := hA j hji hj hj0
                have hzt : ((eraseAt l i)[j]).m_txhash = l[j].m_txhash :=
                  congrArg ECore.txhash hce
                rw [hzt]
                exact hbefore j hj0 hji)
              (by omega)
            refine ⟨?_, hres.2.1, hres.2.2⟩
            rw [hres.1, hstep]
          · rw [if_neg hh]
            refine ⟨?_, hsort', hnd'⟩
            rw [hstep]
            symm
            exact List.filter_eq_self.2 (hnoh e' hnx hh)
      | none =>
          dsimp only
          refine ⟨?_, hsort', hnd'⟩
          rw [hstep]
          symm
          apply List.filter_eq_self.2
          intro c hc
          obtain ⟨z, hz, hzc⟩ := entry_of_core_mem hc
          rcases List.mem_iff_getElem.1 hz with ⟨j, hj, hjz⟩
          have hji : j < i := by
            have := List.getElem?_eq_none_iff.1 hnx
            omega
          have hj0 : j < l.length := by omega
          have hce := hA j hji hj hj0
          have hzt : z.m_txhash = l[j].m_txhash := by
            have := (congrArg Entry.core hjz).symm.trans hce
            exact congrArg ECore.txhash this
          rw [← hzc, Entry.core_txhash]
          simp only [bne_iff_ne, ne_eq]
          rw [hzt]
          exact hbefore j hj0 hji

/-- Txhashes are monotone along the ByTxHash-sorted entry list. -/
theorem SortedK.hash_mono {k0 k1 : Nat} {l : List Entry} (hs : SortedK k0 k1 l)
    {i j : Nat} (hij : i ≤ j) (hj : j < l.length) :
    l[i].m_txhash ≤ l[j].m_txhash := by
  have hk := hs.le_of_le hij hj
  rw [keyN_le_iff] at hk
  rcases hk with h | ⟨h, _⟩ <;> omega

/-- `MakeCompleted` satisfies its specification. -/
theorem makeCompleted_spec (t : Tracker) (hwf : WFcore t) {e : Entry}
    (he : e ∈ t.entries) :
    CompletedOut t e (t.makeCompleted e.m_sequence) := by
  obtain ⟨i, hfind, hi, hie⟩ := findSeq_spec hwf.snd he
  by_cases hC : e.m_state = State.COMPLETED
  · have hred : t.makeCompleted e.m_sequence = (t, true) := by
      unfold Tracker.makeCompleted
      rw [hfind]
      dsimp only
      rw [List.getElem?_eq_getElem hi]
      dsimp only
      rw [hie]
      rw [if_pos hC]
    rw [hred]
    exact Or.inl ⟨hC, rfl⟩
  · unfold Tracker.makeCompleted
    rw [hfind]
    dsimp only
    rw [List.getElem?_eq_getElem hi]
    dsimp only
    rw [hie]
    rw [if_neg hC]
    split
    · next hFR =>
        rw [Bool.and_eq_true] at hFR
        obtain ⟨h1, _⟩ := hFR
        have hhash : t.entries[i].m_txhash = e.m_txhash := by rw [hie]
        have hbefore : ∀ j, ∀ hj : j < t.entries.length, j < i →
            t.entries[j].m_txhash ≠ e.m_txhash := by
          intro j hj hji
          have hi1 : i - 1 < t.entries.length := by omega
          have hi0 : (i == 0) = false := by
            simp only [beq_eq_false_iff_ne, ne_eq]
            omega
          rw [hi0, Bool.false_or] at h1
          rw [List.getElem?_eq_getElem hi1] at h1
          simp only [bne_iff_ne, ne_eq, decide_eq_true_eq] at h1
          have hm1 : t.entries[j].m_txhash ≤ t.entries[i - 1].m_txhash :=
            hwf.sorted.hash_mono (by omega) hi1
          have hm2 : t.entries[i - 1].m_txhash ≤ e.m_txhash := by
            have h := hwf.sorted.hash_mono (show i - 1 ≤ i by omega) hi
            rw [hie] at h
            exact h
          intro hje
          exact h1 (by omega)
        obtain ⟨hfilt, hsort', hnd'⟩ :=
          eraseGroupFrom_spec t.entries.length t.entries
            hwf.sorted hwf.snd i hi hhash hbefore (le_refl _)
        exact Or.inr (Or.inl ⟨rfl, rfl, rfl, rfl, hfilt, hsort', hnd'⟩)
    · next hFR =>
        have hco := changeAndReselect_spec t hwf he State.COMPLETED
        refine Or.inr (Or.inr ⟨rfl, hC, hco, ?_⟩)
        have hFR' : ¬((i == 0 ||
            match t.entries[i - 1]? with
            | some p => p.m_txhash != e.m_txhash
            | none => true) = true ∧
            (match t.entries[i + 1]? with
            | none => true
            | some nxt =>
                nxt.m_txhash != e.m_txhash || nxt.m_state == State.COMPLETED) = true) := by
          intro hcon
          exact hFR (by rw [Bool.and_eq_true]; exact hcon)
        have hw : ∃ w ∈ t.entries, w.m_sequence ≠ e.m_sequence ∧
            w.m_txhash = e.m_txhash ∧ w.m_state ≠ State.COMPLETED := by
          rcases Decidable.not_and_iff_or_not .. |>.1 hFR' with hb1 | hb2
          · have hb1' := Bool.or_eq_false_iff.1 ((Bool.not_eq_true _).mp hb1)
            rcases hb1' with ⟨hz, hp⟩
            have hipos : 0 < i := by
              rcases Nat.eq_zero_or_pos i with h0 | h0
              · rw [h0] at hz
                simp at hz
              · exact h0
            have hi1 : i - 1 < t.entries.length := by omega
            rw [List.getElem?_eq_getElem hi1] at hp
            simp only [bne_eq_false_iff_eq] at hp
            refine ⟨t.entries[i - 1], List.getElem_mem _, ?_, hp, ?_⟩
            · have := getElem_seq_ne hwf.snd hi1 hi (by omega)
              rw [hie] at this
              exact this
            · intro hcomp
              have hk : t.entries[i - 1].keyN t.m_k0 t.m_k1 ≤
                  e.keyN t.m_k0 t.m_k1 := by
                have h := hwf.sorted.le_of_le (show i - 1 ≤ i by omega) hi
                rw [hie] at h
                exact h
              rw [keyN_le_iff] at hk
              have hce : e.m_state.code ≤ 3 := by
                rcases State.code_cases e.m_state with
                  ⟨h, hc⟩ | ⟨h, hc⟩ | ⟨h, hc⟩ | ⟨h, hc⟩ | ⟨h, hc⟩
                · omega
                · omega
                · omega
                · omega
                · exact absurd h hC
              have hcp : t.entries[i - 1].m_state.code = 4 := by
                rw [hcomp, State.code_C]
              rcases hk with hlt | ⟨hheq, hcd⟩
              · omega
              · rcases hcd with hcd | ⟨hcd, _⟩ <;> omega
          · cases hnx : t.entries[i + 1]? with
            | none =>
                rw [hnx] at hb2
                simp at hb2
            | some nxt =>
                rw [hnx] at hb2
                have hb2' := Bool.or_eq_false_iff.1 ((Bool.not_eq_true _).mp hb2)
                rcases hb2' with ⟨hh, hst⟩
                simp only [bne_eq_false_iff_eq] at hh
                have hi1 : i + 1 < t.entries.length :=
                  (List.getElem?_eq_some_iff.1 hnx).1
                have hnxe : t.entries[i + 1] = nxt :=
                  (List.getElem?_eq_some_iff.1 hnx).2
                refine ⟨nxt, ?_, ?_, hh, ?_⟩
                · rw [← hnxe]
                  exact List.getElem_mem _
                · have := getElem_seq_ne hwf.snd hi1 hi (by omega)
                  rw [hie, hnxe] at this
                  exact this
                · intro hcomp
                  rw [hcomp] at hst
                  simp at hst
        obtain ⟨w, hwin, hwseq, hwh, hwst⟩ := hw
        obtain ⟨_, _, _, _, _, _, r, hp1, hbr⟩ := hco
        have hwmem : w.core ∈ t.entries.map Entry.core :=
          List.mem_map_of_mem _ hwin
        have hwr : w.core ∈ r := by
          rcases List.mem_cons.1 (hp1.mem_iff.1 hwmem) with heq | hr
          · exfalso
            apply hwseq
            have : w.core.seq = e.core.seq := by rw [heq]
            rw [Entry.core_seq, Entry.core_seq] at this
            exact this
          · exact hr
        rcases hbr with ⟨_, hp2⟩ | ⟨_, x, r₂, hrx, hxh, hxst, _, hp2⟩
        · refine ⟨w.core, hp2.mem_iff.2 (List.mem_cons_of_mem _ hwr), ?_, ?_⟩
          · rw [Entry.core_txhash]
            exact hwh
          · rw [Entry.core_st]
            exact hwst
        · rcases List.mem_cons.1 (hrx.mem_iff.1 hwr) with heq | hr2
          · refine ⟨setSt x State.CANDIDATE_BEST,
              hp2.mem_iff.2 (List.mem_cons_of_mem _ (List.mem_cons_self _ _)), ?_, ?_⟩
            · rw [setSt_txhash, hxh]
            · rw [setSt_st]
              intro h
              cases h
          · refine ⟨w.core,
              hp2.mem_iff.2 (List.mem_cons_of_mem _ (List.mem_cons_of_mem _ hr2)), ?_, ?_⟩
            · rw [Entry.core_txhash]
              exact hwh
            · rw [Entry.core_st]
              exact hwst

/-! ### Counting and transfer helpers for the invariants -/

theorem setSt_peer (c : ECore) (s : State) : (setSt c s).peer = c.peer := rfl

theorem setStTime_st (c : ECore) (s : State) (ti : Int) : (setStTime c s ti).st = s := rfl

theorem setStTime_seq (c : ECore) (s : State) (ti : Int) :
    (setStTime c s ti).seq = c.seq := rfl

theorem setStTime_txhash (c : ECore) (s : State) (ti : Int) :
    (setStTime c s ti).txhash = c.txhash := rfl

theorem setStTime_peer (c : ECore) (s : State) (ti : Int) :
    (setStTime c s ti).peer = c.peer := rfl

theorem setStTime_time (c : ECore) (s : State) (ti : Int) :
    (setStTime c s ti).time = ti := rfl

theorem setStTime_prio (k0 k1 : Nat) (c : ECore) (s : State) (ti : Int) :
    (setStTime c s ti).prio k0 k1 = c.prio k0 k1 := rfl

theorem selCount_cons (h : Nat) (c : ECore) (m : List ECore) :
    selCount h (c :: m) =
      selCount h m + (if c.txhash = h ∧ c.st.isSelected = true then 1 else 0) := by
  unfold selCount
  rw [List.countP_cons]
  by_cases hc : c.txhash = h ∧ c.st.isSelected = true
  · rw [if_pos hc, if_pos (by simp [hc.1, hc.2])]
  · rw [if_neg hc, if_neg (by
      simp only [Bool.and_eq_true, beq_iff_eq]
      exact fun hx => hc hx)]

theorem readyCount_cons (h : Nat) (c : ECore) (m : List ECore) :
    readyCount h (c :: m) =
      readyCount h m + (if c.txhash = h ∧ c.st = State.CANDIDATE_READY then 1 else 0) := by
  unfold readyCount
  rw [List.countP_cons]
  by_cases hc : c.txhash = h ∧ c.st = State.CANDIDATE_READY
  · rw [if_pos hc, if_pos (by simp [hc.1, hc.2])]
  · rw [if_neg hc, if_neg (by
      simp only [Bool.and_eq_true, beq_iff_eq]
      exact fun hx => hc hx)]

theorem selCount_perm {m₁ m₂ : List ECore} (hp : List.Perm m₁ m₂) (h : Nat) :
    selCount h m₁ = selCount h m₂ := hp.countP_eq _

theorem readyCount_perm {m₁ m₂ : List ECore} (hp : List.Perm m₁ m₂) (h : Nat) :
    readyCount h m₁ = readyCount h m₂ := hp.countP_eq _

theorem selCount_pos {h : Nat} {m : List ECore} {x : ECore} (hx : x ∈ m)
    (hh : x.txhash = h) (hs : x.st.isSelected = true) : 0 < selCount h m := by
  unfold selCount
  rw [List.countP_pos_iff]
  exact ⟨x, hx, by simp [hh, hs]⟩

theorem readyCount_pos {h : Nat} {m : List ECore} {x : ECore} (hx : x ∈ m)
    (hh : x.txhash = h) (hs : x.st = State.CANDIDATE_READY) : 0 < readyCount h m := by
  unfold readyCount
  rw [List.countP_pos_iff]
  exact ⟨x, hx, by simp [hh, hs]⟩

theorem selCount_eq_zero {h : Nat} {m : List ECore}
    (hnone : ∀ x ∈ m, x.txhash = h → x.st.isSelected = false) : selCount h m = 0 := by
  unfold selCount
  rw [List.countP_eq_zero]
  intro x hx
  simp only [Bool.and_eq_true, beq_iff_eq, not_and]
  intro hh
  rw [hnone x hx hh]
  exact Bool.false_ne_true

theorem countP_and_of_imp {p q : ECore → Bool} {l : List ECore}
    (h : ∀ a ∈ l, p a = true → q a = true) :
    l.countP (fun a => p a && q a) = l.countP p := by
  induction l with
  | nil => rfl
  | cons x xs ih =>
      rw [List.countP_cons, List.countP_cons,
        ih (fun a ha => h a (List.mem_cons_of_mem _ ha))]
      by_cases hx : p x = true
      · rw [h x (List.mem_cons_self _ _) hx] at *
        rw [hx]
        simp
      · rw [Bool.not_eq_true] at hx
        rw [hx]
        simp

theorem peerHashNodup_iff (m : List ECore) :
    PeerHashNodup m ↔ (m.map (fun c => (c.peer, c.txhash))).Nodup := by
  unfold PeerHashNodup List.Nodup
  rw [List.pairwise_map]
  constructor
  · refine fun h => h.imp ?_
    intro a b hab hc
    exact hab ⟨congrArg Prod.fst hc, congrArg Prod.snd hc⟩
  · refine fun h => h.imp ?_
    intro a b hab hc
    apply hab
    rw [Prod.ext_iff]
    exact ⟨hc.1, hc.2⟩

theorem PeerHashNodup.of_pairs_perm {m m' : List ECore}
    (hp : List.Perm (m'.map (fun c => (c.peer, c.txhash)))
      (m.map (fun c => (c.peer, c.txhash))))
    (h : PeerHashNodup m) : PeerHashNodup m' := by
  rw [peerHashNodup_iff] at h ⊢
  exact hp.nodup_iff.2 h

theorem sbound_transfer {t t' : Tracker}
    (hsb : ∀ x ∈ t.entries, x.m_sequence < t.m_sequence)
    (hseq : t'.m_sequence = t.m_sequence)
    (hsub : ∀ c ∈ t'.entries.map Entry.core,
      ∃ d ∈ t.entries.map Entry.core, c.seq = d.seq) :
    ∀ x ∈ t'.entries, x.m_sequence < t'.m_sequence := by
  intro x hx
  rcases hsub x.core (List.mem_map_of_mem _ hx) with ⟨d, hd, hds⟩
  rcases entry_of_core_mem hd with ⟨y, hy, hyc⟩
  rw [hseq]
  have h1 : x.m_sequence = y.m_sequence := by
    have h2 : x.core.seq = d.seq := hds
    rw [← hyc, Entry.core_seq, Entry.core_seq] at h2
    exact h2
  rw [h1]
  exact hsb y hy

theorem invNoAll_head_subst {m m' r : List ECore} {c c' : ECore}
    (hp : List.Perm m (c :: r)) (hp' : List.Perm m' (c' :: r))
    (hh : c'.txhash = c.txhash) (hc' : c'.st ≠ State.COMPLETED)
    (h : InvNoAllCompleted m) : InvNoAllCompleted m' := by
  intro x hx
  rcases List.mem_cons.1 (hp'.mem_iff.1 hx) with hxc | hxr
  · exact ⟨c', hp'.mem_iff.2 (List.mem_cons_self _ _), by rw [hxc], hc'⟩
  · rcases h x (hp.mem_iff.2 (List.mem_cons_of_mem _ hxr)) with ⟨w, hw, hwh, hws⟩
    rcases List.mem_cons.1 (hp.mem_iff.1 hw) with hwc | hwr
    · refine ⟨c', hp'.mem_iff.2 (List.mem_cons_self _ _), ?_, hc'⟩
      rw [hh, ← hwc]
      exact hwh
    · exact ⟨w, hp'.mem_iff.2 (List.mem_cons_of_mem _ hwr), hwh, hws⟩

theorem foldl_choice_mem {g : Option Entry → Entry → Option Entry}
    (hg : ∀ acc x, g acc x = acc ∨ g acc x = some x) :
    ∀ (xs : List Entry) (acc : Option Entry) (e : Entry),
    List.foldl g acc xs = some e → acc = some e ∨ e ∈ xs := by
  intro xs
  induction xs with
  | nil =>
      intro acc e h
      exact Or.inl h
  | cons x xs ih =>
      intro acc e h
      rcases ih (g acc x) e h with h2 | h2
      · rcases hg acc x with hgx | hgx
        · rw [hgx] at h2
          exact Or.inl h2
        · rw [hgx] at h2
          exact Or.inr (by rw [← Option.some_inj.1 h2]; exact List.mem_cons_self _ _)
      · exact Or.inr (List.mem_cons_of_mem _ h2)

theorem byTimeMin_mem {l : List Entry} {e : Entry} (h : byTimeMin l = some e) :
    e ∈ l := by
  unfold byTimeMin at h
  rcases foldl_choice_mem (g := fun acc x =>
      match acc with
      | none => some x
      | some a => if byTimeLtB x a then some x else acc)
    (by
      intro acc x
      cases acc with
      | none => exact Or.inr rfl
      | some a =>
          dsimp only
          by_cases hlt : byTimeLtB x a = true
          · rw [if_pos hlt]
            exact Or.inr rfl
          · rw [if_neg hlt]
            exact Or.inl rfl)
    l none e h with h2 | h2
  · exact absurd h2 (by simp)
  · exact h2

theorem byTimeMax_mem {l : List Entry} {e : Entry} (h : byTimeMax l = some e) :
    e ∈ l := by
  unfold byTimeMax at h
  rcases foldl_choice_mem (g := fun acc x =>
      match acc with
      | none => some x
      | some a => if byTimeLtB x a then acc else some x)
    (by
      intro acc x
      cases acc with
      | none => exact Or.inr rfl
      | some a =>
          dsimp only
          by_cases hlt : byTimeLtB x a = true
          · rw [if_pos hlt]
            exact Or.inl rfl
          · rw [if_neg hlt]
            exact Or.inr rfl)
    l none e h with h2 | h2
  · exact absurd h2 (by simp)
  · exact h2

theorem byPeerMinOfPeer_mem {p : Nat} {l : List Entry} {e : Entry}
    (h : byPeerMinOfPeer p l = some e) : e ∈ l ∧ e.m_peer = p := by
  unfold byPeerMinOfPeer at h
  rcases foldl_choice_mem (g := fun acc x =>
      match acc with
      | none => some x
      | some a => if lex3Lt x.byPeerKey a.byPeerKey then some x else acc)
    (by
      intro acc x
      cases acc with
      | none => exact Or.inr rfl
      | some a =>
          dsimp only
          by_cases hlt : lex3Lt x.byPeerKey a.byPeerKey = true
          · rw [if_pos hlt]
            exact Or.inr rfl
          · rw [if_neg hlt]
            exact Or.inl rfl)
    (l.filter (fun e => e.m_peer == p)) none e h with h2 | h2
  · exact absurd h2 (by simp)
  · have hm := List.mem_filter.1 h2
    refine ⟨hm.1, ?_⟩
    have := hm.2
    simpa using this

theorem selCount_cons_sel {h : Nat} {c : ECore} (m : List ECore)
    (hh : c.txhash = h) (hs : c.st.isSelected = true) :
    selCount h (c :: m) = selCount h m + 1 := by
  rw [selCount_cons, if_pos ⟨hh, hs⟩]

theorem selCount_cons_nonsel {h : Nat} {c : ECore} (m : List ECore)
    (hs : c.st.isSelected = false) :
    selCount h (c :: m) = selCount h m := by
  rw [selCount_cons, if_neg (fun hx => by rw [hs] at hx; exact absurd hx.2 (by decide))]
  omega

theorem selCount_cons_ne {h : Nat} {c : ECore} (m : List ECore)
    (hh : c.txhash ≠ h) :
    selCount h (c :: m) = selCount h m := by
  rw [selCount_cons, if_neg (fun hx => hh hx.1)]
  omega

theorem readyCount_cons_ready {h : Nat} {c : ECore} (m : List ECore)
    (hh : c.txhash = h) (hs : c.st = State.CANDIDATE_READY) :
    readyCount h (c :: m) = readyCount h m + 1 := by
  rw [readyCount_cons, if_pos ⟨hh, hs⟩]

theorem readyCount_cons_nonready {h : Nat} {c : ECore} (m : List ECore)
    (hs : c.st ≠ State.CANDIDATE_READY) :
    readyCount h (c :: m) = readyCount h m := by
  rw [readyCount_cons, if_neg (fun hx => hs hx.2)]
  omega

theorem readyCount_cons_ne {h : Nat} {c : ECore} (m : List ECore)
    (hh : c.txhash ≠ h) :
    readyCount h (c :: m) = readyCount h m := by
  rw [readyCount_cons, if_neg (fun hx => hh hx.1)]
  omega

/-- `PromoteCandidateNew` preserves the full invariant. -/
theorem WF_promote (t : Tracker) (hwf : WF t) {e : Entry} (he : e ∈ t.entries)
    (hst : e.m_state = State.CANDIDATE_DELAYED) :
    WF (t.promoteCandidateNew e.m_sequence) := by
  obtain ⟨hwfc, hnac⟩ := hwf
  obtain ⟨hs', hnd', hlen', hk0', hk1', hseq', r, hp1, hbr⟩ :=
    promote_spec t hwfc he hst
  have heD : e.core.st.isSelected = false := by
    rw [Entry.core_st, hst]
    decide
  have heDR : e.core.st ≠ State.CANDIDATE_READY := by
    rw [Entry.core_st, hst]
    decide
  have hselm : ∀ h, selCount h (t.entries.map Entry.core) = selCount h r := by
    intro h
    rw [selCount_perm hp1, selCount_cons_nonsel _ heD]
  have hrdym : ∀ h, readyCount h (t.entries.map Entry.core) = readyCount h r := by
    intro h
    rw [readyCount_perm hp1, readyCount_cons_nonready _ heDR]
  rcases hbr with ⟨x, hxr, hxh, hxsel, hxbest, hp2⟩ | ⟨hnone, hp2⟩ |
    ⟨p, r₂, hrp, hph, hpst, hprio, hnone₂, hp2⟩
  · -- e stays CANDIDATE_READY; a selected announcement x exists
    have hsel1 : ∀ h, selCount h ((t.promoteCandidateNew e.m_sequence).entries.map
        Entry.core) = selCount h r := by
      intro h
      rw [selCount_perm hp2, selCount_cons_nonsel _ (by rw [setSt_st]; decide)]
    have hrdy1 : ∀ h, readyCount h ((t.promoteCandidateNew e.m_sequence).entries.map
        Entry.core) = readyCount h r + (if e.m_txhash = h then 1 else 0) := by
      intro h
      by_cases hh : e.m_txhash = h
      · rw [readyCount_perm hp2, readyCount_cons_ready _
          (by rw [setSt_txhash, Entry.core_txhash]; exact hh) (by rw [setSt_st]),
          if_pos hh]
      · rw [readyCount_perm hp2, readyCount_cons_ne _ (fun hx => hh (by
          rw [setSt_txhash, Entry.core_txhash] at hx
          exact hx)), if_neg hh]
        omega
    refine ⟨⟨by rw [hk0', hk1']; exact hs', hnd', ?_, ?_, ?_, ?_, ?_⟩, ?_⟩
    · apply sbound_transfer hwfc.sbound hseq'
      intro c hc
      rcases List.mem_cons.1 (hp2.mem_iff.1 hc) with hch | hcr
      · exact ⟨e.core, hp1.mem_iff.2 (List.mem_cons_self _ _), by rw [hch, setSt_seq]⟩
      · exact ⟨c, hp1.mem_iff.2 (List.mem_cons_of_mem _ hcr), rfl⟩
    · apply PeerHashNodup.of_pairs_perm ?_ hwfc.phnd
      refine ((hp2.map _).trans ?_).trans ((hp1.map _).symm)
      simp only [List.map_cons, setSt_peer, setSt_txhash]
      exact List.Perm.refl _
    · intro h
      rw [hsel1 h, ← hselm h]
      exact hwfc.sel h
    · intro h hr
      rw [hrdy1 h] at hr
      rw [hsel1 h]
      by_cases hh : e.m_txhash = h
      · have hpos : 0 < selCount h r := selCount_pos hxr (hxh.trans hh) hxsel
        have hle : selCount h r ≤ 1 := by
          rw [← hselm h]
          exact hwfc.sel h
        omega
      · rw [if_neg hh] at hr
        have h2 := hwfc.rsel h (by rw [hrdym h]; omega)
        rw [hselm h] at h2
        exact h2
    · rw [hk0', hk1']
      intro b hb q hq hbq hbB hqR
      rcases List.mem_cons.1 (hp2.mem_iff.1 hb) with hbh | hbr2
      · rw [hbh, setSt_st] at hbB
        exact absurd hbB (by decide)
      · rcases List.mem_cons.1 (hp2.mem_iff.1 hq) with hqh | hqr2
        · have hbhash : b.txhash = e.m_txhash := by
            rw [hbq, hqh, setSt_txhash, Entry.core_txhash]
          have hbm : b ∈ t.entries.map Entry.core :=
            hp1.mem_iff.2 (List.mem_cons_of_mem _ hbr2)
          have hxm : x ∈ t.entries.map Entry.core :=
            hp1.mem_iff.2 (List.mem_cons_of_mem _ hxr)
          have hbx : b = x := by
            by_contra hne
            have h2 : 2 ≤ selCount e.m_txhash (t.entries.map Entry.core) :=
              two_le_countP hbm hxm hne
                (by simp [hbhash, hbB]; decide) (by simp [hxh, hxsel])
            have := hwfc.sel e.m_txhash
            omega
          rw [hqh, setSt_prio, hbx]
          exact hxbest (by rw [← hbx]; exact hbB)
        · exact hwfc.bprio b (hp1.mem_iff.2 (List.mem_cons_of_mem _ hbr2)) q
            (hp1.mem_iff.2 (List.mem_cons_of_mem _ hqr2)) hbq hbB hqR
    · exact invNoAll_head_subst hp1 hp2 (by rw [setSt_txhash])
        (by rw [setSt_st]; decide) hnac
  · -- e becomes CANDIDATE_BEST, nothing else of its txhash is selected
    have hzero : selCount e.m_txhash r = 0 :=
      selCount_eq_zero (fun y hy hh => (hnone y hy hh).1)
    have hsel2 : ∀ h, selCount h ((t.promoteCandidateNew e.m_sequence).entries.map
        Entry.core) = selCount h r + (if e.m_txhash = h then 1 else 0) := by
      intro h
      by_cases hh : e.m_txhash = h
      · rw [selCount_perm hp2, selCount_cons_sel _
          (by rw [setSt_txhash, Entry.core_txhash]; exact hh) (by rw [setSt_st]; decide),
          if_pos hh]
      · rw [selCount_perm hp2, selCount_cons_ne _ (fun hx => hh (by
          rw [setSt_txhash, Entry.core_txhash] at hx
          exact hx)), if_neg hh]
        omega
    have hrdy2 : ∀ h, readyCount h ((t.promoteCandidateNew e.m_sequence).entries.map
        Entry.core) = readyCount h r := by
      intro h
      rw [readyCount_perm hp2, readyCount_cons_nonready _ (by rw [setSt_st]; decide)]
    refine ⟨⟨by rw [hk0', hk1']; exact hs', hnd', ?_, ?_, ?_, ?_, ?_⟩, ?_⟩
    · apply sbound_transfer hwfc.sbound hseq'
      intro c hc
      rcases List.mem_cons.1 (hp2.mem_iff.1 hc) with hch | hcr
      · exact ⟨e.core, hp1.mem_iff.2 (List.mem_cons_self _ _), by rw [hch, setSt_seq]⟩
      · exact ⟨c, hp1.mem_iff.2 (List.mem_cons_of_mem _ hcr), rfl⟩
    · apply PeerHashNodup.of_pairs_perm ?_ hwfc.phnd
      refine ((hp2.map _).trans ?_).trans ((hp1.map _).symm)
      simp only [List.map_cons, setSt_peer, setSt_txhash]
      exact List.Perm.refl _
    · intro h
      rw [hsel2 h]
      by_cases hh : e.m_txhash = h
      · rw [if_pos hh]
        have h0 : selCount h r = 0 := by
          rw [← hh]
          exact hzero
        omega
      · rw [if_neg hh]
        have := hwfc.sel h
        rw [hselm h] at this
        omega
    · intro h hr
      rw [hrdy2 h] at hr
      rw [hsel2 h]
      by_cases hh : e.m_txhash = h
      · rw [if_pos hh]
        have h0 : selCount h r = 0 := by
          rw [← hh]
          exact hzero
        omega
      · rw [if_neg hh]
        have h2 := hwfc.rsel h (by rw [hrdym h]; omega)
        rw [hselm h] at h2
        omega
    · rw [hk0', hk1']
      intro b hb q hq hbq hbB hqR
      rcases List.mem_cons.1 (hp2.mem_iff.1 hb) with hbh | hbr2
      · rcases List.mem_cons.1 (hp2.mem_iff.1 hq) with hqh | hqr2
        · rw [hqh, setSt_st] at hqR
          exact absurd hqR (by decide)
        · have hqhash : q.txhash = e.m_txhash := by
            rw [← hbq, hbh, setSt_txhash, Entry.core_txhash]
          rw [hbh, setSt_prio]
          exact (hnone q hqr2 hqhash).2 hqR
      · by_cases hbhash : b.txhash = e.m_txhash
        · have h3 := (hnone b hbr2 hbhash).1
          rw [hbB] at h3
          exact absurd h3 (by decide)
        · rcases List.mem_cons.1 (hp2.mem_iff.1 hq) with hqh | hqr2
          · exfalso
            apply hbhash
            rw [hbq, hqh, setSt_txhash, Entry.core_txhash]
          · exact hwfc.bprio b (hp1.mem_iff.2 (List.mem_cons_of_mem _ hbr2)) q
              (hp1.mem_iff.2 (List.mem_cons_of_mem _ hqr2)) hbq hbB hqR
    · exact invNoAll_head_subst hp1 hp2 (by rw [setSt_txhash])
        (by rw [setSt_st]; decide) hnac
  · -- e becomes CANDIDATE_BEST, displacing the previous best p
    have hp1' : List.Perm (t.entries.map Entry.core) (e.core :: p :: r₂) :=
      hp1.trans (hrp.cons _)
    have hzero₂ : selCount e.m_txhash r₂ = 0 := selCount_eq_zero hnone₂
    have hpm : p ∈ t.entries.map Entry.core :=
      hp1'.mem_iff.2 (List.mem_cons_of_mem _ (List.mem_cons_self _ _))
    have hselm3 : ∀ h, selCount h (t.entries.map Entry.core) =
        selCount h r₂ + (if e.m_txhash = h then 1 else 0) := by
      intro h
      rw [selCount_perm hp1', selCount_cons_nonsel _ heD]
      by_cases hh : e.m_txhash = h
      · rw [selCount_cons_sel _ (hph.trans hh) (by rw [hpst]; decide), if_pos hh]
      · rw [selCount_cons_ne _ (fun hx => hh (by rw [← hph]; exact hx)), if_neg hh]
        omega
    have hrdym3 : ∀ h, readyCount h (t.entries.map Entry.core) = readyCount h r₂ := by
      intro h
      rw [readyCount_perm hp1', readyCount_cons_nonready _ heDR,
        readyCount_cons_nonready _ (by rw [hpst]; decide)]
    have hsel3 : ∀ h, selCount h ((t.promoteCandidateNew e.m_sequence).entries.map
        Entry.core) = selCount h r₂ + (if e.m_txhash = h then 1 else 0) := by
      intro h
      rw [selCount_perm hp2]
      by_cases hh : e.m_txhash = h
      · rw [selCount_cons_sel _
          (by rw [setSt_txhash, Entry.core_txhash]; exact hh) (by rw [setSt_st]; decide),
          selCount_cons_nonsel _ (by rw [setSt_st]; decide), if_pos hh]
      · rw [selCount_cons_ne _ (fun hx => hh (by
          rw [setSt_txhash, Entry.core_txhash] at hx
          exact hx)),
          selCount_cons_nonsel _ (by rw [setSt_st]; decide), if_neg hh]
        omega
    have hrdy3 : ∀ h, readyCount h ((t.promoteCandidateNew e.m_sequence).entries.map
        Entry.core) = readyCount h r₂ + (if e.m_txhash = h then 1 else 0) := by
      intro h
      rw [readyCount_perm hp2, readyCount_cons_nonready _ (by rw [setSt_st]; decide)]
      by_cases hh : e.m_txhash = h
      · rw [readyCount_cons_ready _ (by rw [setSt_txhash, hph]; exact hh)
          (by rw [setSt_st]), if_pos hh]
      · rw [readyCount_cons_ne _ (fun hx => hh (by
          rw [setSt_txhash, hph] at hx
          exact hx)), if_neg hh]
        omega
    refine ⟨⟨by rw [hk0', hk1']; exact hs', hnd', ?_, ?_, ?_, ?_, ?_⟩, ?_⟩
    · apply sbound_transfer hwfc.sbound hseq'
      intro c hc
      rcases List.mem_cons.1 (hp2.mem_iff.1 hc) with hch | hcr
      · exact ⟨e.core, hp1'.mem_iff.2 (List.mem_cons_self _ _), by rw [hch, setSt_seq]⟩
      · rcases List.mem_cons.1 hcr with hcp | hcr₂
        · exact ⟨p, hpm, by rw [hcp, setSt_seq]⟩
        · exact ⟨c, hp1'.mem_iff.2
            (List.mem_cons_of_mem _ (List.mem_cons_of_mem _ hcr₂)), rfl⟩
    · apply PeerHashNodup.of_pairs_perm ?_ hwfc.phnd
      refine ((hp2.map _).trans ?_).trans ((hp1'.map _).symm)
      simp only [List.map_cons, setSt_peer, setSt_txhash]
      exact List.Perm.refl _
    · intro h
      rw [hsel3 h]
      by_cases hh : e.m_txhash = h
      · rw [if_pos hh]
        have h0 : selCount h r₂ = 0 := by
          rw [← hh]
          exact hzero₂
        omega
      · rw [if_neg hh]
        have h2 := hwfc.sel h
        rw [hselm3 h, if_neg hh] at h2
        omega
    · intro h hr
      rw [hrdy3 h] at hr
      rw [hsel3 h]
      by_cases hh : e.m_txhash = h
      · rw [if_pos hh]
        have h0 : selCount h r₂ = 0 := by
          rw [← hh]
          exact hzero₂
        omega
      · rw [if_neg hh] at hr ⊢
        have h2 := hwfc.rsel h (by rw [hrdym3 h]; omega)
        rw [hselm3 h, if_neg hh] at h2
        omega
    · rw [hk0', hk1']
      intro b hb q hq hbq hbB hqR
      rcases List.mem_cons.1 (hp2.mem_iff.1 hb) with hbh | hbr'
      · rcases List.mem_cons.1 (hp2.mem_iff.1 hq) with hqh | hqr'
        · rw [hqh, setSt_st] at hqR
          exact absurd hqR (by decide)
        · rcases List.mem_cons.1 hqr' with hqp | hqr₂
          · rw [hbh, hqp, setSt_prio, setSt_prio]
            omega
          · have hqhash : q.txhash = e.m_txhash := by
              rw [← hbq, hbh, setSt_txhash, Entry.core_txhash]
            have hqm : q ∈ t.entries.map Entry.core :=
              hp1'.mem_iff.2 (List.mem_cons_of_mem _ (List.mem_cons_of_mem _ hqr₂))
            have h2 := hwfc.bprio p hpm q hqm (by rw [hph, hqhash]) hpst hqR
            rw [hbh, setSt_prio]
            omega
      · rcases List.mem_cons.1 hbr' with hbp | hbr₂
        · rw [hbp, setSt_st] at hbB
          exact absurd hbB (by decide)
        · by_cases hbhash : b.txhash = e.m_txhash
          · have h3 := hnone₂ b hbr₂ hbhash
            rw [hbB] at h3
            exact absurd h3 (by decide)
          · rcases List.mem_cons.1 (hp2.mem_iff.1 hq) with hqh | hqr'
            · exfalso
              apply hbhash
              rw [hbq, hqh, setSt_txhash, Entry.core_txhash]
            · rcases List.mem_cons.1 hqr' with hqp | hqr₂
              · exfalso
                apply hbhash
                rw [hbq, hqp, setSt_txhash, hph]
              · exact hwfc.bprio b
                  (hp1'.mem_iff.2
                    (List.mem_cons_of_mem _ (List.mem_cons_of_mem _ hbr₂))) q
                  (hp1'.mem_iff.2
                    (List.mem_cons_of_mem _ (List.mem_cons_of_mem _ hqr₂)))
                  hbq hbB hqR
    · have h1 : InvNoAllCompleted (e.core :: setSt p State.CANDIDATE_READY :: r₂) :=
        invNoAll_head_subst (hp1'.trans (List.Perm.swap _ _ _))
          (List.Perm.swap _ _ _) (by rw [setSt_txhash]) (by rw [setSt_st]; decide) hnac
      exact invNoAll_head_subst (List.Perm.refl _) hp2 (by rw [setSt_txhash])
        (by rw [setSt_st]; decide) h1

theorem readyCount_eq_zero {h : Nat} {m : List ECore}
    (hno : ∀ x ∈ m, x.txhash = h → x.st ≠ State.CANDIDATE_READY) :
    readyCount h m = 0 := by
  unfold readyCount
  rw [List.countP_eq_zero]
  intro x hx
  simp only [Bool.and_eq_true, beq_iff_eq, not_and]
  intro hh hs
  exact hno x hx hh hs

/-- Any tracker of `ChangeOut` shape (the effect of `ChangeAndReselect`),
with an unselected, non-READY new state, satisfies all the structural
invariants (the no-all-COMPLETED invariant is dealt with separately, since
the new state may be COMPLETED). -/
theorem WFcore_change {t t' : Tracker} (hwf : WFcore t) {e : Entry}
    {ns : State} (hnsel : ns.isSelected = false) (hnsR : ns ≠ State.CANDIDATE_READY)
    (hco : ChangeOut t e ns t') :
    WFcore t' := by
  have hnsB : ns ≠ State.CANDIDATE_BEST := fun h => by
    rw [h] at hnsel
    exact absurd hnsel (by decide)
  obtain ⟨hs', hnd', hlen', hk0', hk1', hseq', r, hp1, hbr⟩ := hco
  rcases hbr with ⟨hnoready, hp2⟩ | ⟨hesel, x, r₂, hrx, hxh, hxst, hxmin, hp2⟩
  · -- no reselection
    have hselm : ∀ h, selCount h (t.entries.map Entry.core) = selCount h r +
        (if e.core.txhash = h ∧ e.core.st.isSelected = true then 1 else 0) := by
      intro h
      rw [selCount_perm hp1, selCount_cons]
    have hrdym : ∀ h, readyCount h (t.entries.map Entry.core) = readyCount h r +
        (if e.core.txhash = h ∧ e.core.st = State.CANDIDATE_READY then 1 else 0) := by
      intro h
      rw [readyCount_perm hp1, readyCount_cons]
    have hsel1 : ∀ h, selCount h (t'.entries.map Entry.core) = selCount h r := by
      intro h
      rw [selCount_perm hp2, selCount_cons_nonsel _ (by rw [setSt_st]; exact hnsel)]
    have hrdy1 : ∀ h, readyCount h (t'.entries.map Entry.core) = readyCount h r := by
      intro h
      rw [readyCount_perm hp2, readyCount_cons_nonready _ (by rw [setSt_st]; exact hnsR)]
    refine ⟨by rw [hk0', hk1']; exact hs', hnd', ?_, ?_, ?_, ?_, ?_⟩
    · apply sbound_transfer hwf.sbound hseq'
      intro c hc
      rcases List.mem_cons.1 (hp2.mem_iff.1 hc) with hch | hcr
      · exact ⟨e.core, hp1.mem_iff.2 (List.mem_cons_self _ _), by rw [hch, setSt_seq]⟩
      · exact ⟨c, hp1.mem_iff.2 (List.mem_cons_of_mem _ hcr), rfl⟩
    · apply PeerHashNodup.of_pairs_perm ?_ hwf.phnd
      refine ((hp2.map _).trans ?_).trans ((hp1.map _).symm)
      simp only [List.map_cons, setSt_peer, setSt_txhash]
      exact List.Perm.refl _
    · intro h
      rw [hsel1 h]
      have h2 := hwf.sel h
      rw [hselm h] at h2
      omega
    · intro h hr
      rw [hrdy1 h] at hr
      rw [hsel1 h]
      by_cases hh : e.m_txhash = h
      · by_cases hsel : e.m_state.isSelected = true
        · exfalso
          have h0 : readyCount h r = 0 := readyCount_eq_zero (fun y hy hyh =>
            hnoready hsel y hy (by rw [hyh, ← hh]))
          omega
        · have h2 := hwf.rsel h (by rw [hrdym h]; omega)
          rw [hselm h, if_neg (fun hx => hsel (by
            rw [Entry.core_st] at hx
            exact hx.2))] at h2
          omega
      · have h2 := hwf.rsel h (by rw [hrdym h]; omega)
        rw [hselm h, if_neg (fun hx => hh (by
          rw [Entry.core_txhash] at hx
          exact hx.1))] at h2
        omega
    · rw [hk0', hk1']
      intro b hb q hq hbq hbB hqR
      rcases List.mem_cons.1 (hp2.mem_iff.1 hb) with hbh | hbr2
      · exfalso
        apply hnsB
        rw [hbh, setSt_st] at hbB
        exact hbB
      · rcases List.mem_cons.1 (hp2.mem_iff.1 hq) with hqh | hqr2
        · exfalso
          apply hnsR
          rw [hqh, setSt_st] at hqR
          exact hqR
        · exact hwf.bprio b (hp1.mem_iff.2 (List.mem_cons_of_mem _ hbr2)) q
            (hp1.mem_iff.2 (List.mem_cons_of_mem _ hqr2)) hbq hbB hqR
  · -- the best CANDIDATE_READY announcement x is promoted to CANDIDATE_BEST
    have hp1' : List.Perm (t.entries.map Entry.core) (e.core :: x :: r₂) :=
      hp1.trans (hrx.cons _)
    have heR : e.core.st ≠ State.CANDIDATE_READY := by
      rw [Entry.core_st]
      intro hx
      rw [hx] at hesel
      exact absurd hesel (by decide)
    have hselm2 : ∀ h, selCount h (t.entries.map Entry.core) =
        selCount h r₂ + (if e.m_txhash = h then 1 else 0) := by
      intro h
      rw [selCount_perm hp1', selCount_cons, selCount_cons_nonsel _ (by
        rw [hxst]; decide)]
      by_cases hh : e.m_txhash = h
      · rw [if_pos ⟨by rw [Entry.core_txhash]; exact hh,
          by rw [Entry.core_st]; exact hesel⟩, if_pos hh]
      · rw [if_neg (fun hx => hh (by
          rw [Entry.core_txhash] at hx
          exact hx.1)), if_neg hh]
    have hrdym2 : ∀ h, readyCount h (t.entries.map Entry.core) =
        readyCount h r₂ + (if e.m_txhash = h then 1 else 0) := by
      intro h
      rw [readyCount_perm hp1', readyCount_cons_nonready _ heR]
      by_cases hh : e.m_txhash = h
      · rw [readyCount_cons_ready _ (hxh.trans hh) hxst, if_pos hh]
      · rw [readyCount_cons_ne _ (fun hx => hh (by rw [← hxh]; exact hx)), if_neg hh]
        omega
    have hsel2 : ∀ h, selCount h (t'.entries.map Entry.core) = selCount h r₂ + (if e.m_txhash = h then 1 else 0) := by
      intro h
      rw [selCount_perm hp2, selCount_cons_nonsel _ (by rw [setSt_st]; exact hnsel)]
      by_cases hh : e.m_txhash = h
      · rw [selCount_cons_sel _ (by rw [setSt_txhash, hxh]; exact hh)
          (by rw [setSt_st]; decide), if_pos hh]
      · rw [selCount_cons_ne _ (fun hx => hh (by
          rw [setSt_txhash, hxh] at hx
          exact hx)), if_neg hh]
        omega
    have hrdy2 : ∀ h, readyCount h (t'.entries.map Entry.core) = readyCount h r₂ := by
      intro h
      rw [readyCount_perm hp2, readyCount_cons_nonready _ (by rw [setSt_st]; exact hnsR),
        readyCount_cons_nonready _ (by rw [setSt_st]; decide)]
    refine ⟨by rw [hk0', hk1']; exact hs', hnd', ?_, ?_, ?_, ?_, ?_⟩
    · apply sbound_transfer hwf.sbound hseq'
      intro c hc
      rcases List.mem_cons.1 (hp2.mem_iff.1 hc) with hch | hcr
      · exact ⟨e.core, hp1'.mem_iff.2 (List.mem_cons_self _ _), by rw [hch, setSt_seq]⟩
      · rcases List.mem_cons.1 hcr with hcx | hcr₂
        · exact ⟨x, hp1'.mem_iff.2 (List.mem_cons_of_mem _ (List.mem_cons_self _ _)),
            by rw [hcx, setSt_seq]⟩
        · exact ⟨c, hp1'.mem_iff.2
            (List.mem_cons_of_mem _ (List.mem_cons_of_mem _ hcr₂)), rfl⟩
    · apply PeerHashNodup.of_pairs_perm ?_ hwf.phnd
      refine ((hp2.map _).trans ?_).trans ((hp1'.map _).symm)
      simp only [List.map_cons, setSt_peer, setSt_txhash]
      exact List.Perm.refl _
    · intro h
      rw [hsel2 h]
      have h2 := hwf.sel h
      rw [hselm2 h] at h2
      omega
    · intro h hr
      rw [hrdy2 h] at hr
      rw [hsel2 h]
      by_cases hh : e.m_txhash = h
      · rw [if_pos hh]
        have h2 := hwf.sel h
        rw [hselm2 h, if_pos hh] at h2
        omega
      · rw [if_neg hh]
        have h2 := hwf.rsel h (by rw [hrdym2 h, if_neg hh]; omega)
        rw [hselm2 h, if_neg hh] at h2
        omega
    · rw [hk0', hk1']
      intro b hb q hq hbq hbB hqR
      rcases List.mem_cons.1 (hp2.mem_iff.1 hb) with hbh | hbr'
      · exfalso
        apply hnsB
        rw [hbh, setSt_st] at hbB
        exact hbB
      · rcases List.mem_cons.1 hbr' with hbx | hbr₂
        · rcases List.mem_cons.1 (hp2.mem_iff.1 hq) with hqh | hqr'
          · exfalso
            apply hnsR
            rw [hqh, setSt_st] at hqR
            exact hqR
          · rcases List.mem_cons.1 hqr' with hqx | hqr₂
            · exfalso
              rw [hqx, setSt_st] at hqR
              exact absurd hqR (by decide)
            · have hqhash : q.txhash = e.m_txhash := by
                rw [← hbq, hbx, setSt_txhash, hxh]
              rw [hbx, setSt_prio]
              exact hxmin q hqr₂ hqhash hqR
        · by_cases hbhash : b.txhash = e.m_txhash
          · exfalso
            have hpos : 0 < selCount e.m_txhash r₂ :=
              selCount_pos hbr₂ hbhash (by rw [hbB]; decide)
            have h2 := hwf.sel e.m_txhash
            rw [hselm2 e.m_txhash, if_pos rfl] at h2
            omega
          · rcases List.mem_cons.1 (hp2.mem_iff.1 hq) with hqh | hqr'
            · exfalso
              apply hnsR
              rw [hqh, setSt_st] at hqR
              exact hqR
            · rcases List.mem_cons.1 hqr' with hqx | hqr₂
              · exfalso
                apply hbhash
                rw [hbq, hqx, setSt_txhash, hxh]
              · exact hwf.bprio b
                  (hp1'.mem_iff.2
                    (List.mem_cons_of_mem _ (List.mem_cons_of_mem _ hbr₂))) q
                  (hp1'.mem_iff.2
                    (List.mem_cons_of_mem _ (List.mem_cons_of_mem _ hqr₂)))
                  hbq hbB hqR

/-- A `ChangeOut`-shaped transition to a state other than COMPLETED also
preserves the no-all-COMPLETED invariant. -/
theorem WF_change {t t' : Tracker} (hwf : WF t) {e : Entry}
    {ns : State} (hnsel : ns.isSelected = false) (hnsR : ns ≠ State.CANDIDATE_READY)
    (hnsC : ns ≠ State.COMPLETED) (hco : ChangeOut t e ns t') :
    WF t' := by
  refine ⟨WFcore_change hwf.1 hnsel hnsR hco, ?_⟩
  obtain ⟨hs', hnd', hlen', hk0', hk1', hseq', r, hp1, hbr⟩ := hco
  rcases hbr with ⟨hnoready, hp2⟩ | ⟨hesel, x, r₂, hrx, hxh, hxst, hxmin, hp2⟩
  · exact invNoAll_head_subst hp1 hp2 (by rw [setSt_txhash]) (by rw [setSt_st]; exact hnsC)
      hwf.2
  · have hp1' : List.Perm (t.entries.map Entry.core) (e.core :: x :: r₂) :=
      hp1.trans (hrx.cons _)
    have h1 : InvNoAllCompleted (e.core :: setSt x State.CANDIDATE_BEST :: r₂) :=
      invNoAll_head_subst (hp1'.trans (List.Perm.swap _ _ _))
        (List.Perm.swap _ _ _) (by rw [setSt_txhash]) (by rw [setSt_st]; decide) hwf.2
    exact invNoAll_head_subst (List.Perm.refl _) hp2 (by rw [setSt_txhash])
      (by rw [setSt_st]; exact hnsC) h1

theorem selCount_filter_ne {h hsh : Nat} {m : List ECore} (hne : h ≠ hsh) :
    selCount h (m.filter (fun c => c.txhash != hsh)) = selCount h m := by
  unfold selCount
  rw [List.countP_filter]
  apply countP_and_of_imp
  intro a _ hp
  simp only [Bool.and_eq_true, beq_iff_eq] at hp
  simp only [bne_iff_ne, ne_eq]
  rw [hp.1]
  exact hne

theorem readyCount_filter_ne {h hsh : Nat} {m : List ECore} (hne : h ≠ hsh) :
    readyCount h (m.filter (fun c => c.txhash != hsh)) = readyCount h m := by
  unfold readyCount
  rw [List.countP_filter]
  apply countP_and_of_imp
  intro a _ hp
  simp only [Bool.and_eq_true, beq_iff_eq] at hp
  simp only [bne_iff_ne, ne_eq]
  rw [hp.1]
  exact hne

theorem selCount_filter_self {hsh : Nat} {m : List ECore} :
    selCount hsh (m.filter (fun c => c.txhash != hsh)) = 0 := by
  unfold selCount
  rw [List.countP_eq_zero]
  intro c hc
  have h2 := (List.mem_filter.1 hc).2
  simp only [bne_iff_ne, ne_eq] at h2
  simp only [Bool.and_eq_true, beq_iff_eq, not_and]
  intro hh
  exact absurd hh h2

theorem readyCount_filter_self {hsh : Nat} {m : List ECore} :
    readyCount hsh (m.filter (fun c => c.txhash != hsh)) = 0 := by
  unfold readyCount
  rw [List.countP_eq_zero]
  intro c hc
  have h2 := (List.mem_filter.1 hc).2
  simp only [bne_iff_ne, ne_eq] at h2
  simp only [Bool.and_eq_true, beq_iff_eq, not_and]
  intro hh
  exact absurd hh h2

/-- Deleting a whole txhash group (the core views of the result are the
filter of the original ones) preserves the full invariant. -/
theorem WF_of_filter {t t' : Tracker} (hwf : WF t) (hsh : Nat)
    (hk0 : t'.m_k0 = t.m_k0) (hk1 : t'.m_k1 = t.m_k1)
    (hseq : t'.m_sequence = t.m_sequence)
    (hfil : t'.entries.map Entry.core =
      (t.entries.map Entry.core).filter (fun c => c.txhash != hsh))
    (hs' : SortedK t.m_k0 t.m_k1 t'.entries) (hnd' : seqNodup t'.entries) :
    WF t' := by
  obtain ⟨hwfc, hnac⟩ := hwf
  refine ⟨⟨by rw [hk0, hk1]; exact hs', hnd', ?_, ?_, ?_, ?_, ?_⟩, ?_⟩
  · apply sbound_transfer hwfc.sbound hseq
    intro c hc
    rw [hfil] at hc
    exact ⟨c, (List.mem_filter.1 hc).1, rfl⟩
  · rw [peerHashNodup_iff, hfil]
    exact ((List.filter_sublist _).map _).nodup ((peerHashNodup_iff _).1 hwfc.phnd)
  · intro h
    show selCount h (t'.entries.map Entry.core) ≤ 1
    rw [hfil]
    by_cases hh : h = hsh
    · rw [hh, selCount_filter_self]
      omega
    · rw [selCount_filter_ne hh]
      exact hwfc.sel h
  · intro h hr
    rw [hfil] at hr ⊢
    by_cases hh : h = hsh
    · rw [hh, readyCount_filter_self] at hr
      omega
    · rw [readyCount_filter_ne hh] at hr
      rw [selCount_filter_ne hh]
      exact hwfc.rsel h hr
  · rw [hk0, hk1]
    intro b hb q hq hbq hbB hqR
    rw [hfil] at hb hq
    have hb2 := List.mem_filter.1 hb
    have hq2 := List.mem_filter.1 hq
    exact hwfc.bprio b hb2.1 q hq2.1 hbq hbB hqR
  · intro c hc
    rw [hfil] at hc
    have hc2 := List.mem_filter.1 hc
    rcases hnac c hc2.1 with ⟨w, hw, hwh, hws⟩
    refine ⟨w, ?_, hwh, hws⟩
    rw [hfil]
    refine List.mem_filter.2 ⟨hw, ?_⟩
    rw [hwh]
    exact hc2.2

/-- `MakeCompleted` preserves the full invariant. -/
theorem WF_makeCompleted (t : Tracker) (hwf : WF t) {e : Entry} (he : e ∈ t.entries) :
    WF (t.makeCompleted e.m_sequence).1 := by
  have hco := makeCompleted_spec t hwf.1 he
  rcases hco with ⟨hC, heq⟩ | ⟨hfl, hk0, hk1, hseq, hfil, hs', hnd'⟩ |
    ⟨hfl, hC, hch, hsurv⟩
  · rw [heq]
    exact hwf
  · exact WF_of_filter hwf e.m_txhash hk0 hk1 hseq hfil hs' hnd'
  · refine ⟨WFcore_change hwf.1 (by decide) (by decide) hch, ?_⟩
    obtain ⟨hs', hnd', hlen', hk0', hk1', hseq', r, hp1, hbr⟩ := hch
    intro c hcm
    by_cases hh : c.txhash = e.m_txhash
    · obtain ⟨w, hwm, hwh, hwst⟩ := hsurv
      exact ⟨w, hwm, by rw [hwh, hh], hwst⟩
    · rcases hbr with ⟨_, hp2⟩ | ⟨_, x, r₂, hrx, hxh, hxst, _, hp2⟩
      · rcases List.mem_cons.1 (hp2.mem_iff.1 hcm) with hce | hcr
        · exfalso
          apply hh
          rw [hce, setSt_txhash, Entry.core_txhash]
        · rcases hwf.2 c (hp1.mem_iff.2 (List.mem_cons_of_mem _ hcr)) with
            ⟨w, hwm, hwh, hwst⟩
          rcases List.mem_cons.1 (hp1.mem_iff.1 hwm) with hwe | hwr
          · exfalso
            apply hh
            rw [← hwh, hwe, Entry.core_txhash]
          · exact ⟨w, hp2.mem_iff.2 (List.mem_cons_of_mem _ hwr), hwh, hwst⟩
      · have hp1' : List.Perm (t.entries.map Entry.core) (e.core :: x :: r₂) :=
          hp1.trans (hrx.cons _)
        rcases List.mem_cons.1 (hp2.mem_iff.1 hcm) with hce | hcr'
        · exfalso
          apply hh
          rw [hce, setSt_txhash, Entry.core_txhash]
        · rcases List.mem_cons.1 hcr' with hcx | hcr₂
          · exfalso
            apply hh
            rw [hcx, setSt_txhash, hxh]
          · rcases hwf.2 c (hp1'.mem_iff.2
              (List.mem_cons_of_mem _ (List.mem_cons_of_mem _ hcr₂))) with
              ⟨w, hwm, hwh, hwst⟩
            rcases List.mem_cons.1 (hp1'.mem_iff.1 hwm) with hwe | hwr'
            · exfalso
              apply hh
              rw [← hwh, hwe, Entry.core_txhash]
            · rcases List.mem_cons.1 hwr' with hwx | hwr₂
              · exfalso
                apply hh
                rw [← hwh, hwx, hxh]
              · exact ⟨w, hp2.mem_iff.2
                  (List.mem_cons_of_mem _ (List.mem_cons_of_mem _ hwr₂)), hwh, hwst⟩

/-- Erasing a COMPLETED entry (by its sequence number) preserves the full
invariant. -/
theorem WF_eraseSeq_completed (t : Tracker) (hwf : WF t) {e : Entry}
    (he : e ∈ t.entries) (hst : e.m_state = State.COMPLETED) :
    WF (t.eraseSeq e.m_sequence) := by
  obtain ⟨hwfc, hnac⟩ := hwf
  obtain ⟨i, hfind, hi, hie⟩ := findSeq_spec hwfc.snd he
  have hred : t.eraseSeq e.m_sequence = { t with entries := eraseAt t.entries i } := by
    unfold Tracker.eraseSeq
    rw [hfind]
  rw [hred]
  have hperm : List.Perm (t.entries.map Entry.core)
      (e.core :: (eraseAt t.entries i).map Entry.core) := by
    have h2 := eraseAt_perm_core hi
    rw [hie] at h2
    exact h2
  have heC : e.core.st.isSelected = false := by
    rw [Entry.core_st, hst]
    decide
  have heCR : e.core.st ≠ State.CANDIDATE_READY := by
    rw [Entry.core_st, hst]
    decide
  refine ⟨⟨hwfc.sorted.eraseAt i, seqNodup_eraseAt hwfc.snd i, ?_, ?_, ?_, ?_, ?_⟩, ?_⟩
  · refine sbound_transfer hwfc.sbound rfl ?_
    intro c hc
    exact ⟨c, hperm.mem_iff.2 (List.mem_cons_of_mem _ hc), rfl⟩
  · rw [peerHashNodup_iff]
    have h2 := ((hperm.map (fun c => (c.peer, c.txhash))).nodup_iff).1
      ((peerHashNodup_iff _).1 hwfc.phnd)
    rw [List.map_cons] at h2
    exact (List.nodup_cons.1 h2).2
  · intro h
    have h2 := hwfc.sel h
    rw [selCount_perm hperm, selCount_cons_nonsel _ heC] at h2
    exact h2
  · intro h hr
    have h2 := hwfc.rsel h (by
      rw [readyCount_perm hperm, readyCount_cons_nonready _ heCR]
      exact hr)
    rw [selCount_perm hperm, selCount_cons_nonsel _ heC] at h2
    exact h2
  · intro b hb q hq hbq hbB hqR
    exact hwfc.bprio b (hperm.mem_iff.2 (List.mem_cons_of_mem _ hb)) q
      (hperm.mem_iff.2 (List.mem_cons_of_mem _ hq)) hbq hbB hqR
  · intro c hc
    rcases hnac c (hperm.mem_iff.2 (List.mem_cons_of_mem _ hc)) with ⟨w, hwm, hwh, hws⟩
    rcases List.mem_cons.1 (hperm.mem_iff.1 hwm) with hwe | hwr
    · exfalso
      apply hws
      rw [hwe, Entry.core_st, hst]
    · exact ⟨w, hwr, hwh, hws⟩

/-- Well-formedness only depends on the core views and the administrative
fields (the per-txhash flag byte is invisible to every invariant). -/
theorem WF_of_coreEq {t t' : Tracker} (hwf : WF t) (hk0 : t'.m_k0 = t.m_k0)
    (hk1 : t'.m_k1 = t.m_k1) (hseq : t'.m_sequence = t.m_sequence)
    (hce : CoreEq t'.entries t.entries) : WF t' := by
  obtain ⟨⟨hs, hnd, hsb, hph, hsel, hrsel, hbp⟩, hnac⟩ := hwf
  have hmap : t'.entries.map Entry.core = t.entries.map Entry.core := hce
  refine ⟨⟨?_, ?_, ?_, ?_, ?_, ?_, ?_⟩, ?_⟩
  · rw [hk0, hk1]
    exact SortedK_of_coreEq hce hs
  · exact seqNodup_of_coreEq hce hnd
  · refine sbound_transfer hsb hseq ?_
    intro c hc
    rw [hmap] at hc
    exact ⟨c, hc, rfl⟩
  · show PeerHashNodup (t'.entries.map Entry.core)
    rw [hmap]
    exact hph
  · show InvSel (t'.entries.map Entry.core)
    rw [hmap]
    exact hsel
  · show InvReadySel (t'.entries.map Entry.core)
    rw [hmap]
    exact hrsel
  · show InvBestPrio t'.m_k0 t'.m_k1 (t'.entries.map Entry.core)
    rw [hmap, hk0, hk1]
    exact hbp
  · show InvNoAllCompleted (t'.entries.map Entry.core)
    rw [hmap]
    exact hnac

/-- The `Modify` of `RequestedTx` (CANDIDATE_BEST to REQUESTED with a new
expiry time) preserves the full invariant. -/
theorem WF_modify_requested (t : Tracker) (hwf : WF t) {e : Entry} (he : e ∈ t.entries)
    (hst : e.m_state = State.CANDIDATE_BEST) (et : Int) :
    WF (t.modify e.m_sequence
      (fun x => { x with m_state := State.REQUESTED, m_time := et })) := by
  obtain ⟨hwfc, hnac⟩ := hwf
  obtain ⟨r, hp1, hp2, hs', hnd', hlen'⟩ := t.modify_spec hwfc.sorted hwfc.snd he
    (fun x => { x with m_state := State.REQUESTED, m_time := et }) rfl
  have hhead : (Entry.core ((fun x =>
      { x with m_state := State.REQUESTED, m_time := et }) e)) =
      setStTime e.core State.REQUESTED et := rfl
  rw [hhead] at hp2
  have heB : e.core.st = State.CANDIDATE_BEST := by
    rw [Entry.core_st]
    exact hst
  have hselm : ∀ h, selCount h (t.entries.map Entry.core) =
      selCount h r + (if e.m_txhash = h then 1 else 0) := by
    intro h
    by_cases hh : e.m_txhash = h
    · rw [selCount_perm hp1, selCount_cons_sel _ (by rw [Entry.core_txhash]; exact hh)
        (by rw [heB]; decide), if_pos hh]
    · rw [selCount_perm hp1, selCount_cons_ne _ (fun hx => hh (by
        rw [Entry.core_txhash] at hx
        exact hx)), if_neg hh]
      omega
  have hsel' : ∀ h, selCount h ((t.modify e.m_sequence (fun x =>
      { x with m_state := State.REQUESTED, m_time := et })).entries.map Entry.core) =
      selCount h r + (if e.m_txhash = h then 1 else 0) := by
    intro h
    by_cases hh : e.m_txhash = h
    · rw [selCount_perm hp2, selCount_cons_sel _
        (by rw [setStTime_txhash, Entry.core_txhash]; exact hh)
        (by rw [setStTime_st]; decide), if_pos hh]
    · rw [selCount_perm hp2, selCount_cons_ne _ (fun hx => hh (by
        rw [setStTime_txhash, Entry.core_txhash] at hx
        exact hx)), if_neg hh]
      omega
  have hrdym : ∀ h, readyCount h (t.entries.map Entry.core) = readyCount h r := by
    intro h
    rw [readyCount_perm hp1, readyCount_cons_nonready _ (by rw [heB]; decide)]
  have hrdy' : ∀ h, readyCount h ((t.modify e.m_sequence (fun x =>
      { x with m_state := State.REQUESTED, m_time := et })).entries.map Entry.core) =
      readyCount h r := by
    intro h
    rw [readyCount_perm hp2, readyCount_cons_nonready _ (by rw [setStTime_st]; decide)]
  refine ⟨⟨hs', hnd', ?_, ?_, ?_, ?_, ?_⟩, ?_⟩
  · refine sbound_transfer hwfc.sbound rfl ?_
    intro c hc
    rcases List.mem_cons.1 (hp2.mem_iff.1 hc) with hch | hcr
    · exact ⟨e.core, hp1.mem_iff.2 (List.mem_cons_self _ _), by rw [hch, setStTime_seq]⟩
    · exact ⟨c, hp1.mem_iff.2 (List.mem_cons_of_mem _ hcr), rfl⟩
  · apply PeerHashNodup.of_pairs_perm ?_ hwfc.phnd
    refine ((hp2.map _).trans ?_).trans ((hp1.map _).symm)
    simp only [List.map_cons, setStTime_peer, setStTime_txhash]
    exact List.Perm.refl _
  · intro h
    rw [hsel' h, ← hselm h]
    exact hwfc.sel h
  · intro h hr
    rw [hrdy' h] at hr
    rw [hsel' h, ← hselm h]
    exact hwfc.rsel h (by rw [hrdym h]; omega)
  · intro b hb q hq hbq hbB hqR
    rcases List.mem_cons.1 (hp2.mem_iff.1 hb) with hbh | hbr
    · rw [hbh, setStTime_st] at hbB
      exact absurd hbB (by decide)
    · rcases List.mem_cons.1 (hp2.mem_iff.1 hq) with hqh | hqr
      · rw [hqh, setStTime_st] at hqR
        exact absurd hqR (by decide)
      · exact hwfc.bprio b (hp1.mem_iff.2 (List.mem_cons_of_mem _ hbr)) q
          (hp1.mem_iff.2 (List.mem_cons_of_mem _ hqr)) hbq hbB hqR
  · exact invNoAll_head_subst hp1 hp2 (by rw [setStTime_txhash])
      (by rw [setStTime_st]; decide) hnac

/-- `RequestedTx` preserves the full invariant when it succeeds. -/
theorem WF_requestedTx (t : Tracker) (hwf : WF t) (peer : Nat) (g : Bool × Nat)
    (et : Int) {t' : Tracker} (hr : t.requestedTx peer g et = some t') : WF t' := by
  unfold Tracker.requestedTx at hr
  dsimp only at hr
  cases hfind : t.entries.find? (fun e =>
      e.m_peer == peer && e.m_state == State.CANDIDATE_BEST && e.m_txhash == g.2) with
  | none =>
      rw [hfind] at hr
      exact absurd hr (by simp)
  | some e =>
      rw [hfind] at hr
      dsimp only at hr
      have he : e ∈ t.entries := List.mem_of_find?_eq_some hfind
      have hpred := List.find?_some hfind
      simp only [Bool.and_eq_true, beq_iff_eq] at hpred
      have hst : e.m_state = State.CANDIDATE_BEST := hpred.1.2
      have hwf1 := WF_modify_requested t hwf he hst et
      rw [← Option.some_inj.1 hr]
      exact WF_of_coreEq hwf1 rfl rfl rfl (orFlagsAt_coreEq _ _ _)

/-- Inserting a fresh CANDIDATE_DELAYED announcement (with the next
sequence number and a previously untracked `(peer, txhash)` pair)
preserves the full invariant. -/
theorem WF_insert (t : Tracker) (hwf : WF t) (newE : Entry)
    (hseqE : newE.m_sequence = t.m_sequence)
    (hstE : newE.m_state = State.CANDIDATE_DELAYED)
    (hfresh : ∀ x ∈ t.entries, ¬(x.m_peer = newE.m_peer ∧ x.m_txhash = newE.m_txhash)) :
    WF { t with
         entries := insertUB t.m_k0 t.m_k1 newE t.entries
         m_sequence := t.m_sequence + 1 } := by
  obtain ⟨hwfc, hnac⟩ := hwf
  have hperm := insertUB_perm t.m_k0 t.m_k1 newE t.entries
  have hpermc : List.Perm ((insertUB t.m_k0 t.m_k1 newE t.entries).map Entry.core)
      (newE.core :: t.entries.map Entry.core) := hperm.map _
  have heD : newE.core.st.isSelected = false := by
    rw [Entry.core_st, hstE]
    decide
  have heDR : newE.core.st ≠ State.CANDIDATE_READY := by
    rw [Entry.core_st, hstE]
    decide
  refine ⟨⟨hwfc.sorted.insertUB newE, ?_, ?_, ?_, ?_, ?_, ?_⟩, ?_⟩
  · have h1 : seqNodup (newE :: t.entries) := by
      refine List.pairwise_cons.2 ⟨?_, hwfc.snd⟩
      intro y hy
      have := hwfc.sbound y hy
      omega
    exact (hperm.pairwise_iff (fun {a b} hab => hab.symm)).2 h1
  · intro x hx
    rcases List.mem_cons.1 (hperm.mem_iff.1 hx) with hxe | hxm
    · rw [hxe]
      show newE.m_sequence < t.m_sequence + 1
      omega
    · have := hwfc.sbound x hxm
      show x.m_sequence < t.m_sequence + 1
      omega
  · rw [peerHashNodup_iff]
    have h2 : ((newE.core :: t.entries.map Entry.core).map
        (fun c => (c.peer, c.txhash))).Nodup := by
      rw [List.map_cons]
      refine List.nodup_cons.2 ⟨?_, (peerHashNodup_iff _).1 hwfc.phnd⟩
      intro hmem
      rcases List.mem_map.1 hmem with ⟨c, hc, hcp⟩
      rcases entry_of_core_mem hc with ⟨y, hy, hyc⟩
      apply hfresh y hy
      rw [← hyc] at hcp
      exact ⟨congrArg Prod.fst hcp, congrArg Prod.snd hcp⟩
    exact ((hpermc.map _).nodup_iff).2 h2
  · intro h
    show selCount h _ ≤ 1
    rw [selCount_perm hpermc, selCount_cons_nonsel _ heD]
    exact hwfc.sel h
  · intro h hr
    rw [show readyCount h ((insertUB t.m_k0 t.m_k1 newE t.entries).map Entry.core) =
      readyCount h (t.entries.map Entry.core) from by
        rw [readyCount_perm hpermc, readyCount_cons_nonready _ heDR]] at hr
    show selCount h _ = 1
    rw [selCount_perm hpermc, selCount_cons_nonsel _ heD]
    exact hwfc.rsel h hr
  · intro b hb q hq hbq hbB hqR
    rcases List.mem_cons.1 (hpermc.mem_iff.1 hb) with hbh | hbm
    · rw [hbh, Entry.core_st, hstE] at hbB
      exact absurd hbB (by decide)
    · rcases List.mem_cons.1 (hpermc.mem_iff.1 hq) with hqh | hqm
      · rw [hqh, Entry.core_st, hstE] at hqR
        exact absurd hqR (by decide)
      · exact hwfc.bprio b hbm q hqm hbq hbB hqR
  · intro c hc
    rcases List.mem_cons.1 (hpermc.mem_iff.1 hc) with hch | hcm
    · refine ⟨newE.core, hpermc.mem_iff.2 (List.mem_cons_self _ _), by rw [hch], ?_⟩
      rw [Entry.core_st, hstE]
      decide
    · rcases hnac c hcm with ⟨w, hw, hwh, hws⟩
      exact ⟨w, hpermc.mem_iff.2 (List.mem_cons_of_mem _ hw), hwh, hws⟩

/-- Inserting a fresh announcement and then ORing flags into some entry
preserves the full invariant. -/
theorem WF_insert_orFlags (t : Tracker) (hwf : WF t) (newE : Entry) (tgt fl : Nat)
    (hseqE : newE.m_sequence = t.m_sequence)
    (hstE : newE.m_state = State.CANDIDATE_DELAYED)
    (hfresh : ∀ x ∈ t.entries, ¬(x.m_peer = newE.m_peer ∧ x.m_txhash = newE.m_txhash)) :
    WF { t with
         entries := orFlagsAt (insertUB t.m_k0 t.m_k1 newE t.entries) tgt fl
         m_sequence := t.m_sequence + 1 } := by
  have h1 := WF_insert t hwf newE hseqE hstE hfresh
  exact WF_of_coreEq h1 rfl rfl rfl (orFlagsAt_coreEq _ _ _)

/-- `ReceivedInv` preserves the full invariant. -/
theorem WF_receivedInv (t : Tracker) (hwf : WF t) (peer : Nat) (g : Bool × Nat)
    (pref ov : Bool) (rt : Int) : WF (t.receivedInv peer g pref ov rt) := by
  unfold Tracker.receivedInv
  dsimp only
  by_cases h1 : (t.entries.any fun e =>
      e.m_peer == peer && e.m_state == State.CANDIDATE_BEST && e.m_txhash == g.2) = true
  · rw [if_pos h1]
    exact hwf
  · rw [if_neg h1]
    by_cases h2 : (t.entries.any fun e =>
        e.m_peer == peer && !(e.m_state == State.CANDIDATE_BEST) &&
          e.m_txhash == g.2) = true
    · rw [if_pos h2]
      exact hwf
    · rw [if_neg h2]
      have hfresh : ∀ x ∈ t.entries, ¬(x.m_peer = peer ∧ x.m_txhash = g.2) := by
        intro x hx hcon
        by_cases hB : x.m_state = State.CANDIDATE_BEST
        · apply h1
          rw [List.any_eq_true]
          exact ⟨x, hx, by simp [hcon.1, hcon.2, hB]⟩
        · apply h2
          rw [List.any_eq_true]
          exact ⟨x, hx, by simp [hcon.1, hcon.2, hB]⟩
      refine WF_insert_orFlags t hwf _ _ _ ?_ ?_ ?_
      · rfl
      · rfl
      · exact hfresh

/-- `ReceivedResponse` preserves the full invariant. -/
theorem WF_receivedResponse (t : Tracker) (hwf : WF t) (peer : Nat)
    (g : Bool × Nat) : WF (t.receivedResponse peer g) := by
  unfold Tracker.receivedResponse
  dsimp only
  cases hf1 : t.entries.find? (fun e =>
      e.m_peer == peer && !(e.m_state == State.CANDIDATE_BEST) && e.m_txhash == g.2) with
  | some e =>
      dsimp only
      exact WF_makeCompleted t hwf (List.mem_of_find?_eq_some hf1)
  | none =>
      dsimp only
      cases hf2 : t.entries.find? (fun e =>
          e.m_peer == peer && e.m_state == State.CANDIDATE_BEST &&
            e.m_txhash == g.2) with
      | some e =>
          dsimp only
          exact WF_makeCompleted t hwf (List.mem_of_find?_eq_some hf2)
      | none =>
          exact hwf

/-- The characterisation of `lowerBoundIdx` on a sorted list: entries
before it have keys below the search key, entries from it on have keys at
least the search key. -/
theorem lowerBoundIdx_spec {k0 k1 : Nat} (key : Nat) :
    ∀ {l : List Entry}, SortedK k0 k1 l →
    lowerBoundIdx k0 k1 key l ≤ l.length ∧
    (∀ j, ∀ hj : j < l.length, j < lowerBoundIdx k0 k1 key l →
      l[j].keyN k0 k1 < key) ∧
    (∀ j, ∀ hj : j < l.length, lowerBoundIdx k0 k1 key l ≤ j →
      key ≤ l[j].keyN k0 k1) := by
  intro l
  induction l with
  | nil =>
      intro _
      refine ⟨by simp [lowerBoundIdx], ?_, ?_⟩ <;> (intro j hj; simp at hj)
  | cons x xs ih =>
      intro hs
      have hx : ∀ y ∈ xs, x.keyN k0 k1 ≤ y.keyN k0 k1 := (List.pairwise_cons.1 hs).1
      have hs2 : SortedK k0 k1 xs := (List.pairwise_cons.1 hs).2
      obtain ⟨ih1, ih2, ih3⟩ := ih hs2
      by_cases hxk : x.keyN k0 k1 < key
      · have hlb : lowerBoundIdx k0 k1 key (x :: xs) =
            lowerBoundIdx k0 k1 key xs + 1 := by
          unfold lowerBoundIdx
          rw [List.countP_cons, if_pos (by simpa using hxk)]
        refine ⟨by rw [hlb]; simpa using ih1, ?_, ?_⟩
        · intro j hj hjlt
          cases j with
          | zero => simpa using hxk
          | succ j' =>
              rw [hlb] at hjlt
              have h2 := ih2 j' (by simpa using hj) (by omega)
              simpa using h2
        · intro j hj hge
          rw [hlb] at hge
          cases j with
          | zero => omega
          | succ j' =>
              have h2 := ih3 j' (by simpa using hj) (by omega)
              simpa using h2
      · have hall : ∀ y ∈ x :: xs, ¬(y.keyN k0 k1 < key) := by
          intro y hy
          rcases List.mem_cons.1 hy with h | h
          · rw [h]
            exact hxk
          · have := hx y h
            omega
        have hlb : lowerBoundIdx k0 k1 key (x :: xs) = 0 := by
          unfold lowerBoundIdx
          rw [List.countP_eq_zero]
          intro a ha
          simpa using hall a ha
        refine ⟨by omega, ?_, ?_⟩
        · intro j hj hjlt
          omega
        · intro j hj _
          have hmem : (x :: xs)[j] ∈ x :: xs := List.getElem_mem _
          have := hall _ hmem
          omega

/-- The first loop of `SetTimePoint` preserves the full invariant. -/
theorem WF_timeLoop1 (now : Int) : ∀ (fuel : Nat) (t : Tracker), WF t →
    WF (Tracker.timeLoop1 now fuel t) := by
  intro fuel
  induction fuel with
  | zero =>
      intro t h
      exact h
  | succ fuel ih =>
      intro t hwf
      unfold Tracker.timeLoop1
      cases hmin : byTimeMin t.entries with
      | none => exact hwf
      | some e =>
          dsimp only
          have he := byTimeMin_mem hmin
          by_cases h1 : e.m_state = State.CANDIDATE_DELAYED ∧ e.m_time ≤ now
          · rw [if_pos h1]
            exact ih _ (WF_promote t hwf he h1.1)
          · rw [if_neg h1]
            by_cases h2 : e.m_state = State.REQUESTED ∧ e.m_time ≤ now
            · rw [if_pos h2]
              exact ih _ (WF_makeCompleted t hwf he)
            · rw [if_neg h2]
              exact hwf

/-- The second loop of `SetTimePoint` preserves the full invariant. -/
theorem WF_timeLoop2 (now : Int) : ∀ (fuel : Nat) (t : Tracker), WF t →
    WF (Tracker.timeLoop2 now fuel t) := by
  intro fuel
  induction fuel with
  | zero =>
      intro t h
      exact h
  | succ fuel ih =>
      intro t hwf
      unfold Tracker.timeLoop2
      cases hmax : byTimeMax t.entries with
      | none => exact hwf
      | some e =>
          dsimp only
          have he := byTimeMax_mem hmax
          by_cases h1 : e.m_state.isSelectable = true ∧ now < e.m_time
          · rw [if_pos h1]
            exact ih _ (WF_change hwf (by decide) (by decide) (by decide)
              (changeAndReselect_spec t hwf.1 he State.CANDIDATE_DELAYED))
          · rw [if_neg h1]
            exact hwf

/-- `SetTimePoint` preserves the full invariant. -/
theorem WF_setTimePoint (t : Tracker) (hwf : WF t) (now : Int) :
    WF (t.setTimePoint now) :=
  WF_timeLoop2 now _ _ (WF_timeLoop1 now _ t hwf)

/-- The erase loop of `AlreadyHaveTx` removes exactly the entries of the
txhash and preserves sortedness, sequence distinctness and the
administrative fields. -/
theorem alreadyHaveLoop_spec (hsh : Nat) : ∀ (fuel : Nat) (t : Tracker),
    SortedK t.m_k0 t.m_k1 t.entries → seqNodup t.entries →
    t.entries.length ≤ fuel →
    (t.alreadyHaveLoop hsh fuel).entries.map Entry.core =
      (t.entries.map Entry.core).filter (fun c => c.txhash != hsh) ∧
    SortedK t.m_k0 t.m_k1 (t.alreadyHaveLoop hsh fuel).entries ∧
    seqNodup (t.alreadyHaveLoop hsh fuel).entries ∧
    (t.alreadyHaveLoop hsh fuel).m_k0 = t.m_k0 ∧
    (t.alreadyHaveLoop hsh fuel).m_k1 = t.m_k1 ∧
    (t.alreadyHaveLoop hsh fuel).m_sequence = t.m_sequence := by
  intro fuel
  induction fuel with
  | zero =>
      intro t hs hnd hlen
      have h0 : t.entries = [] := List.length_eq_zero.1 (by omega)
      unfold Tracker.alreadyHaveLoop
      refine ⟨by rw [h0]; simp, hs, hnd, rfl, rfl, rfl⟩
  | succ fuel ih =>
      intro t hs hnd hlen
      obtain ⟨hlb1, hlb2, hlb3⟩ := lowerBoundIdx_spec (searchKeyN hsh 0) hs
      unfold Tracker.alreadyHaveLoop
      dsimp only
      cases hnx : t.entries[lowerBoundIdx t.m_k0 t.m_k1 (searchKeyN hsh 0) t.entries]? with
      | none =>
          dsimp only
          have hilen : t.entries.length ≤
              lowerBoundIdx t.m_k0 t.m_k1 (searchKeyN hsh 0) t.entries := by
            have := List.getElem?_eq_none_iff.1 hnx
            omega
          refine ⟨?_, hs, hnd, rfl, rfl, rfl⟩
          symm
          apply List.filter_eq_self.2
          intro c hc
          obtain ⟨z, hz, hzc⟩ := entry_of_core_mem hc
          rcases List.mem_iff_getElem.1 hz with ⟨j, hj, hjz⟩
          have hk := hlb2 j hj (by omega)
          rw [hjz] at hk
          rw [keyN_lt_searchKeyN_iff _ _ _ _ (by norm_num)] at hk
          rw [← hzc, Entry.core_txhash]
          simp only [bne_iff_ne, ne_eq]
          rcases hk with hlt | ⟨_, hcode⟩ <;> omega
      | some e =>
          dsimp only
          have hi : lowerBoundIdx t.m_k0 t.m_k1 (searchKeyN hsh 0) t.entries <
              t.entries.length := (List.getElem?_eq_some_iff.1 hnx).1
          have hie : t.entries[lowerBoundIdx t.m_k0 t.m_k1 (searchKeyN hsh 0)
              t.entries] = e := (List.getElem?_eq_some_iff.1 hnx).2
          by_cases hh : e.m_txhash = hsh
          · rw [if_pos hh]
            have hlen2 : (eraseAt t.entries (lowerBoundIdx t.m_k0 t.m_k1 (searchKeyN hsh 0) t.entries)).length = t.entries.length - 1 :=
              eraseAt_length hi
            obtain ⟨ihf, ihs, ihnd, ihk0, ihk1, ihsq⟩ := ih { t with entries := eraseAt t.entries (lowerBoundIdx t.m_k0 t.m_k1 (searchKeyN hsh 0) t.entries) }
              (hs.eraseAt _) (seqNodup_eraseAt hnd _) (by dsimp only; omega)
            refine ⟨?_, ihs, ihnd, ihk0, ihk1, ihsq⟩
            rw [ihf]
            dsimp only
            rw [eraseAt_map_core]
            symm
            apply filter_eraseIdx_of_neg (by simpa using hi)
            have him : lowerBoundIdx t.m_k0 t.m_k1 (searchKeyN hsh 0) t.entries <
                (t.entries.map Entry.core).length := by simpa using hi
            have h2 : (t.entries.map Entry.core)[lowerBoundIdx t.m_k0 t.m_k1
                (searchKeyN hsh 0) t.entries] =
                t.entries[lowerBoundIdx t.m_k0 t.m_k1 (searchKeyN hsh 0)
                  t.entries].core := List.getElem_map _
            rw [h2, hie]
            simp [Entry.core_txhash, hh]
          · rw [if_neg hh]
            refine ⟨?_, hs, hnd, rfl, rfl, rfl⟩
            symm
            apply List.filter_eq_self.2
            intro c hc
            obtain ⟨z, hz, hzc⟩ := entry_of_core_mem hc
            rcases List.mem_iff_getElem.1 hz with ⟨j, hj, hjz⟩
            rw [← hzc, Entry.core_txhash]
            simp only [bne_iff_ne, ne_eq]
            rcases Nat.lt_or_ge j (lowerBoundIdx t.m_k0 t.m_k1 (searchKeyN hsh 0)
                t.entries) with hji | hji
            · have hk := hlb2 j hj hji
              rw [hjz] at hk
              rw [keyN_lt_searchKeyN_iff _ _ _ _ (by norm_num)] at hk
              rcases hk with hlt | ⟨_, hcode⟩ <;> omega
            · have hke : searchKeyN hsh 0 ≤ e.keyN t.m_k0 t.m_k1 := by
                have h3 := hlb3 _ hi (le_refl _)
                rw [hie] at h3
                exact h3
              rw [searchKeyN_le_keyN_iff _ _ _ _ (by norm_num)] at hke
              have hgt : hsh < e.m_txhash := by
                rcases hke with h3 | ⟨h3, _⟩
                · exact h3
                · omega
              have hmono := hs.hash_mono hji hj
              rw [hie] at hmono
              rw [hjz] at hmono
              omega

/-- `AlreadyHaveTx` preserves the full invariant. -/
theorem WF_alreadyHaveTx (t : Tracker) (hwf : WF t) (g : Bool × Nat) :
    WF (t.alreadyHaveTx g) := by
  obtain ⟨hf, hs', hnd', hk0, hk1, hsq⟩ := alreadyHaveLoop_spec g.2
    (t.entries.length + 1) t hwf.1.sorted hwf.1.snd (by omega)
  unfold Tracker.alreadyHaveTx
  exact WF_of_filter hwf g.2 hk0 hk1 hsq hf hs' hnd'

/-- The loop of `DeletedPeer` preserves the full invariant. -/
theorem WF_deletedPeerLoop (p : Nat) : ∀ (fuel : Nat) (t : Tracker), WF t →
    WF (Tracker.deletedPeerLoop p fuel t) := by
  intro fuel
  induction fuel with
  | zero =>
      intro t h
      exact h
  | succ fuel ih =>
      intro t hwf
      unfold Tracker.deletedPeerLoop
      cases hmin : byPeerMinOfPeer p t.entries with
      | none => exact hwf
      | some e =>
          dsimp only
          obtain ⟨he, hep⟩ := byPeerMinOfPeer_mem hmin
          have hwf1 := WF_makeCompleted t hwf he
          by_cases hb : (t.makeCompleted e.m_sequence).2 = true
          · rw [if_pos hb]
            apply ih
            have hco := makeCompleted_spec t hwf.1 he
            rcases hco with ⟨hC, heq⟩ | ⟨hfl, _⟩ | ⟨_, _, hch, _⟩
            · rw [heq]
              exact WF_eraseSeq_completed t hwf he hC
            · rw [hfl] at hb
              exact absurd hb (by decide)
            · obtain ⟨hs', hnd', hlen', hk0', hk1', hseq', rr, hp1, hbr⟩ := hch
              have hcm : setSt e.core State.COMPLETED ∈
                  (t.makeCompleted e.m_sequence).1.entries.map Entry.core := by
                rcases hbr with ⟨_, hp2⟩ | ⟨_, x, r₂, _, _, _, _, hp2⟩
                · exact hp2.mem_iff.2 (List.mem_cons_self _ _)
                · exact hp2.mem_iff.2 (List.mem_cons_self _ _)
              obtain ⟨e', he', hec⟩ := entry_of_core_mem hcm
              have hseq2 : e'.m_sequence = e.m_sequence := by
                have h3 := congrArg ECore.seq hec
                rw [Entry.core_seq, setSt_seq, Entry.core_seq] at h3
                exact h3
              have hst2 : e'.m_state = State.COMPLETED := by
                have h3 := congrArg ECore.st hec
                rw [Entry.core_st, setSt_st] at h3
                exact h3
              have h4 := WF_eraseSeq_completed _ hwf1 he' hst2
              rw [hseq2] at h4
              exact h4
          · rw [if_neg hb]
            exact ih _ hwf1

/-- `DeletedPeer` preserves the full invariant. -/
theorem WF_deletedPeer (t : Tracker) (hwf : WF t) (p : Nat) :
    WF (t.deletedPeer p) :=
  WF_deletedPeerLoop p _ t hwf

/-- Every public operation preserves the full invariant. -/
theorem WF_applyOp (t : Tracker) (hwf : WF t) (o : Op) : WF (t.applyOp o) := by
  cases o with
  | recvInv p w h pref ov rt => exact WF_receivedInv t hwf p (w, h) pref ov rt
  | delPeer p => exact WF_deletedPeer t hwf p
  | haveTx w h => exact WF_alreadyHaveTx t hwf (w, h)
  | recvResponse p w h => exact WF_receivedResponse t hwf p (w, h)
  | reqTx p w h et =>
      show WF (t.applyOpOut (Op.reqTx p w h et)).1
      unfold Tracker.applyOpOut
      dsimp only
      cases hr : t.requestedTx p (w, h) et with
      | some t' =>
          exact WF_requestedTx t hwf p (w, h) et hr
      | none =>
          exact hwf
  | getReq p now => exact WF_setTimePoint t hwf now
  | qInFlight p => exact hwf
  | qTracked p => exact hwf
  | qSize => exact hwf

/-- A freshly constructed tracker satisfies the full invariant. -/
theorem WF_init (k0 k1 : Nat) : WF (initTracker k0 k1) := by
  refine ⟨⟨List.Pairwise.nil, List.Pairwise.nil, ?_, List.Pairwise.nil, ?_, ?_, ?_⟩, ?_⟩
  · intro e he
    exact absurd he (List.not_mem_nil e)
  · intro h
    simp [initTracker, selCount]
  · intro h hr
    simp [initTracker, readyCount] at hr
  · intro b hb
    exact absurd hb (List.not_mem_nil b)
  · intro c hc
    exact absurd hc (List.not_mem_nil c)

/-- Every state reachable by a sequence of public operations satisfies the
full invariant. -/
theorem WF_runOps (k0 k1 : Nat) (ops : List Op) : WF (runOps k0 k1 ops) := by
  unfold runOps
  have h : ∀ (os : List Op) (t : Tracker), WF t → WF (os.foldl Tracker.applyOp t) := by
    intro os
    induction os with
    | nil =>
        intro t h
        exact h
    | cons o os ih =>
        intro t h
        exact ih _ (WF_applyOp t h o)
  exact h ops _ (WF_init k0 k1)

/-! ### The administrative fields are never changed by the operations -/

theorem modify_k0k1 (t : Tracker) (s : Nat) (f : Entry → Entry) :
    (t.modify s f).m_k0 = t.m_k0 ∧ (t.modify s f).m_k1 = t.m_k1 := ⟨rfl, rfl⟩

theorem promoteCandidateNew_k0k1 (t : Tracker) (s : Nat) :
    (t.promoteCandidateNew s).m_k0 = t.m_k0 ∧
    (t.promoteCandidateNew s).m_k1 = t.m_k1 := by
  unfold Tracker.promoteCandidateNew
  dsimp only
  repeat' split
  all_goals exact ⟨rfl, rfl⟩

theorem changeAndReselect_k0k1 (t : Tracker) (s : Nat) (ns : State) :
    (t.changeAndReselect s ns).m_k0 = t.m_k0 ∧
    (t.changeAndReselect s ns).m_k1 = t.m_k1 := by
  unfold Tracker.changeAndReselect
  dsimp only
  repeat' split
  all_goals exact ⟨rfl, rfl⟩

theorem makeCompleted_k0k1 (t : Tracker) (s : Nat) :
    (t.makeCompleted s).1.m_k0 = t.m_k0 ∧ (t.makeCompleted s).1.m_k1 = t.m_k1 := by
  unfold Tracker.makeCompleted
  dsimp only
  repeat' split
  all_goals first
    | exact ⟨rfl, rfl⟩
    | exact changeAndReselect_k0k1 t s State.COMPLETED

theorem eraseSeq_k0k1 (t : Tracker) (s : Nat) :
    (t.eraseSeq s).m_k0 = t.m_k0 ∧ (t.eraseSeq s).m_k1 = t.m_k1 := by
  unfold Tracker.eraseSeq
  repeat' split
  all_goals exact ⟨rfl, rfl⟩

theorem timeLoop1_k0k1 (now : Int) : ∀ (fuel : Nat) (t : Tracker),
    (Tracker.timeLoop1 now fuel t).m_k0 = t.m_k0 ∧
    (Tracker.timeLoop1 now fuel t).m_k1 = t.m_k1 := by
  intro fuel
  induction fuel with
  | zero => exact fun t => ⟨rfl, rfl⟩
  | succ fuel ih =>
      intro t
      unfold Tracker.timeLoop1
      split
      · exact ⟨rfl, rfl⟩
      · split
        · exact ⟨(ih _).1.trans (promoteCandidateNew_k0k1 t _).1,
            (ih _).2.trans (promoteCandidateNew_k0k1 t _).2⟩
        · split
          · exact ⟨(ih _).1.trans (makeCompleted_k0k1 t _).1,
              (ih _).2.trans (makeCompleted_k0k1 t _).2⟩
          · exact ⟨rfl, rfl⟩

theorem timeLoop2_k0k1 (now : Int) : ∀ (fuel : Nat) (t : Tracker),
    (Tracker.timeLoop2 now fuel t).m_k0 = t.m_k0 ∧
    (Tracker.timeLoop2 now fuel t).m_k1 = t.m_k1 := by
  intro fuel
  induction fuel with
  | zero => exact fun t => ⟨rfl, rfl⟩
  | succ fuel ih =>
      intro t
      unfold Tracker.timeLoop2
      split
      · exact ⟨rfl, rfl⟩
      · split
        · exact ⟨(ih _).1.trans (changeAndReselect_k0k1 t _ _).1,
            (ih _).2.trans (changeAndReselect_k0k1 t _ _).2⟩
        · exact ⟨rfl, rfl⟩

theorem setTimePoint_k0k1 (t : Tracker) (now : Int) :
    (t.setTimePoint now).m_k0 = t.m_k0 ∧ (t.setTimePoint now).m_k1 = t.m_k1 := by
  unfold Tracker.setTimePoint
  exact ⟨(timeLoop2_k0k1 now _ _).1.trans (timeLoop1_k0k1 now _ t).1,
    (timeLoop2_k0k1 now _ _).2.trans (timeLoop1_k0k1 now _ t).2⟩

theorem alreadyHaveLoop_k0k1 (hsh : Nat) : ∀ (fuel : Nat) (t : Tracker),
    (t.alreadyHaveLoop hsh fuel).m_k0 = t.m_k0 ∧
    (t.alreadyHaveLoop hsh fuel).m_k1 = t.m_k1 := by
  intro fuel
  induction fuel with
  | zero => exact fun t => ⟨rfl, rfl⟩
  | succ fuel ih =>
      intro t
      unfold Tracker.alreadyHaveLoop
      dsimp only
      split
      · split
        · exact ⟨(ih _).1, (ih _).2⟩
        · exact ⟨rfl, rfl⟩
      · exact ⟨rfl, rfl⟩

theorem deletedPeerLoop_k0k1 (p : Nat) : ∀ (fuel : Nat) (t : Tracker),
    (Tracker.deletedPeerLoop p fuel t).m_k0 = t.m_k0 ∧
    (Tracker.deletedPeerLoop p fuel t).m_k1 = t.m_k1 := by
  intro fuel
  induction fuel with
  | zero => exact fun t => ⟨rfl, rfl⟩
  | succ fuel ih =>
      intro t
      unfold Tracker.deletedPeerLoop
      split
      · exact ⟨rfl, rfl⟩
      · dsimp only
        split
        · exact ⟨(ih _).1.trans ((eraseSeq_k0k1 _ _).1.trans (makeCompleted_k0k1 t _).1),
            (ih _).2.trans ((eraseSeq_k0k1 _ _).2.trans (makeCompleted_k0k1 t _).2)⟩
        · exact ⟨(ih _).1.trans (makeCompleted_k0k1 t _).1,
            (ih _).2.trans (makeCompleted_k0k1 t _).2⟩

theorem receivedInv_k0k1 (t : Tracker) (peer : Nat) (g : Bool × Nat)
    (pref ov : Bool) (rt : Int) :
    (t.receivedInv peer g pref ov rt).m_k0 = t.m_k0 ∧
    (t.receivedInv peer g pref ov rt).m_k1 = t.m_k1 := by
  unfold Tracker.receivedInv
  dsimp only
  repeat' split
  all_goals exact ⟨rfl, rfl⟩

theorem requestedTx_k0k1 (t : Tracker) (peer : Nat) (g : Bool × Nat) (et : Int)
    {t' : Tracker} (h : t.requestedTx peer g et = some t') :
    t'.m_k0 = t.m_k0 ∧ t'.m_k1 = t.m_k1 := by
  unfold Tracker.requestedTx at h
  dsimp only at h
  cases hf : t.entries.find? (fun e =>
      e.m_peer == peer && e.m_state == State.CANDIDATE_BEST && e.m_txhash == g.2) with
  | none =>
      rw [hf] at h
      exact absurd h (by simp)
  | some e =>
      rw [hf] at h
      dsimp only at h
      rw [← Option.some_inj.1 h]
      exact ⟨rfl, rfl⟩

theorem receivedResponse_k0k1 (t : Tracker) (peer : Nat) (g : Bool × Nat) :
    (t.receivedResponse peer g).m_k0 = t.m_k0 ∧
    (t.receivedResponse peer g).m_k1 = t.m_k1 := by
  unfold Tracker.receivedResponse
  dsimp only
  repeat' split
  all_goals first
    | exact ⟨rfl, rfl⟩
    | exact makeCompleted_k0k1 t _

theorem applyOp_k0k1 (t : Tracker) (o : Op) :
    (t.applyOp o).m_k0 = t.m_k0 ∧ (t.applyOp o).m_k1 = t.m_k1 := by
  cases o with
  | recvInv p w h pref ov rt => exact receivedInv_k0k1 t p (w, h) pref ov rt
  | delPeer p => exact deletedPeerLoop_k0k1 p _ t
  | haveTx w h => exact alreadyHaveLoop_k0k1 h _ t
  | recvResponse p w h => exact receivedResponse_k0k1 t p (w, h)
  | reqTx p w h et =>
      show (t.applyOpOut (Op.reqTx p w h et)).1.m_k0 = t.m_k0 ∧
        (t.applyOpOut (Op.reqTx p w h et)).1.m_k1 = t.m_k1
      unfold Tracker.applyOpOut
      dsimp only
      cases hr : t.requestedTx p (w, h) et with
      | some t' => exact requestedTx_k0k1 t p (w, h) et hr
      | none => exact ⟨rfl, rfl⟩
  | getReq p now => exact setTimePoint_k0k1 t now
  | qInFlight p => exact ⟨rfl, rfl⟩
  | qTracked p => exact ⟨rfl, rfl⟩
  | qSize => exact ⟨rfl, rfl⟩

theorem runOps_k0k1 (k0 k1 : Nat) (ops : List Op) :
    (runOps k0 k1 ops).m_k0 = k0 ∧ (runOps k0 k1 ops).m_k1 = k1 := by
  unfold runOps
  have h : ∀ (os : List Op) (t : Tracker),
      (os.foldl Tracker.applyOp t).m_k0 = t.m_k0 ∧
      (os.foldl Tracker.applyOp t).m_k1 = t.m_k1 := by
    intro os
    induction os with
    | nil => exact fun t => ⟨rfl, rfl⟩
    | cons o os ih =>
        intro t
        have h1 := ih (t.applyOp o)
        have h2 := applyOp_k0k1 t o
        exact ⟨h1.1.trans h2.1, h1.2.trans h2.2⟩
  exact h ops _

theorem Entry.core_peer (e : Entry) : e.core.peer = e.m_peer := rfl

/-- C1: after every sequence of public operations, every txhash has at most
one announcement in a selected state (CANDIDATE_BEST or REQUESTED). -/
theorem claim_C1 (k0 k1 : Nat) (ops : List Op) (h : Nat) :
    selCount h ((runOps k0 k1 ops).entries.map Entry.core) ≤ 1 :=
  (WF_runOps k0 k1 ops).1.sel h

/-- C3: after every sequence of public operations, no txhash has only
COMPLETED announcements: every tracked announcement has a non-COMPLETED
announcement of the same txhash. -/
theorem claim_C3 (k0 k1 : Nat) (ops : List Op) (c : ECore)
    (hc : c ∈ (runOps k0 k1 ops).entries.map Entry.core) :
    ∃ w ∈ (runOps k0 k1 ops).entries.map Entry.core,
      w.txhash = c.txhash ∧ w.st ≠ State.COMPLETED :=
  (WF_runOps k0 k1 ops).2 c hc

theorem claim_C3_witness :
    ∃ w ∈ (runOps 0 0 [Op.recvInv 1 true 5 true false 0]).entries.map Entry.core,
      w.txhash = (⟨5, true, 1, 0, 0, true, true, State.CANDIDATE_DELAYED⟩ :
        ECore).txhash ∧ w.st ≠ State.COMPLETED :=
  claim_C3 0 0 [Op.recvInv 1 true 5 true false 0]
    ⟨5, true, 1, 0, 0, true, true, State.CANDIDATE_DELAYED⟩ (by decide)

/-- C10: in deterministic mode the priority salt is fixed to `(0, 0)`
whatever the entropy source produces, so the trace of observable outputs is
a function of the call sequence alone. -/
theorem claim_C10 (ent₁ ent₂ : Nat × Nat) (ops : List Op) :
    traceOps (mkTracker true ent₁) ops = traceOps (mkTracker true ent₂) ops := rfl

/-- C2 (counterexample): a REQUESTED announcement keeps its own priority,
which may exceed the priority of a CANDIDATE_READY announcement of the same
txhash, so the claim that THE selected announcement's priority is at most
every READY priority fails (it only holds for CANDIDATE_BEST). -/
theorem claim_C2_counterexample :
    ∃ c ∈ (runOps 0 0 [Op.recvInv 1 true 5 false false 0, Op.getReq 1 10,
        Op.reqTx 1 true 5 100, Op.recvInv 2 true 5 true false 0,
        Op.getReq 2 10]).entries.map Entry.core,
      ∃ q ∈ (runOps 0 0 [Op.recvInv 1 true 5 false false 0, Op.getReq 1 10,
          Op.reqTx 1 true 5 100, Op.recvInv 2 true 5 true false 0,
          Op.getReq 2 10]).entries.map Entry.core,
        c.txhash = q.txhash ∧ c.st.isSelected = true ∧
        q.st = State.CANDIDATE_READY ∧ q.prio 0 0 < c.prio 0 0 := by
  decide

/-- C2 (amended): after every sequence of public operations, a txhash with
a CANDIDATE_READY announcement has exactly one selected announcement, and
every CANDIDATE_BEST announcement's priority is at most the priority of
every CANDIDATE_READY announcement of the same txhash. -/
theorem claim_C2 (k0 k1 : Nat) (ops : List Op) (h : Nat)
    (hr : 0 < readyCount h ((runOps k0 k1 ops).entries.map Entry.core)) :
    selCount h ((runOps k0 k1 ops).entries.map Entry.core) = 1 ∧
    ∀ b ∈ (runOps k0 k1 ops).entries.map Entry.core,
      ∀ q ∈ (runOps k0 k1 ops).entries.map Entry.core,
        b.txhash = q.txhash → b.st = State.CANDIDATE_BEST →
          q.st = State.CANDIDATE_READY → b.prio k0 k1 ≤ q.prio k0 k1 :=
  ⟨(WF_runOps k0 k1 ops).1.rsel h hr,
   fun b hb q hq hbq hbB hqR => by
    have h2 := (WF_runOps k0 k1 ops).1.bprio b hb q hq hbq hbB hqR
    rw [(runOps_k0k1 k0 k1 ops).1, (runOps_k0k1 k0 k1 ops).2] at h2
    exact h2⟩

theorem claim_C2_witness :
    selCount 5 ((runOps 0 0 [Op.recvInv 1 true 5 true false 0,
        Op.recvInv 2 true 5 true false 0, Op.getReq 1 10]).entries.map Entry.core) = 1 ∧
    ∀ b ∈ (runOps 0 0 [Op.recvInv 1 true 5 true false 0,
        Op.recvInv 2 true 5 true false 0, Op.getReq 1 10]).entries.map Entry.core,
      ∀ q ∈ (runOps 0 0 [Op.recvInv 1 true 5 true false 0,
          Op.recvInv 2 true 5 true false 0, Op.getReq 1 10]).entries.map Entry.core,
        b.txhash = q.txhash → b.st = State.CANDIDATE_BEST →
          q.st = State.CANDIDATE_READY → b.prio 0 0 ≤ q.prio 0 0 :=
  claim_C2 0 0 [Op.recvInv 1 true 5 true false 0,
    Op.recvInv 2 true 5 true false 0, Op.getReq 1 10] 5 (by decide)

/-- C9 (counterexample): a `ReceivedInv` after `AlreadyHaveTx` re-creates
an announcement for the abandoned txhash, refuting the claim that further
operations involving it produce no entry. -/
theorem claim_C9_counterexample :
    ∃ e ∈ (runOps 0 0 [Op.recvInv 1 true 5 true false 0, Op.haveTx true 5,
      Op.recvInv 2 true 5 true false 0]).entries, e.m_txhash = 5 := by
  decide

/-- C9 (amended): immediately after `AlreadyHaveTx(gtxid)` no announcement
with that txhash exists (a later `ReceivedInv` can create one again). -/
theorem claim_C9 (t : Tracker) (hs : SortedK t.m_k0 t.m_k1 t.entries)
    (hnd : seqNodup t.entries) (g : Bool × Nat) :
    ∀ e ∈ (t.alreadyHaveTx g).entries, e.m_txhash ≠ g.2 := by
  obtain ⟨hf, _, _, _, _, _⟩ := alreadyHaveLoop_spec g.2 (t.entries.length + 1) t hs hnd
    (by omega)
  intro e he hcon
  have hc : e.core ∈ (t.alreadyHaveTx g).entries.map Entry.core :=
    List.mem_map_of_mem _ he
  have hc2 : e.core ∈ (t.alreadyHaveLoop g.2 (t.entries.length + 1)).entries.map
      Entry.core := hc
  rw [hf] at hc2
  have h2 := (List.mem_filter.1 hc2).2
  rw [Entry.core_txhash, hcon] at h2
  simp at h2

theorem claim_C9_witness :
    (((runOps 0 0 [Op.recvInv 1 true 5 true false 0,
        Op.recvInv 1 true 7 true false 0]).alreadyHaveTx
        (true, 5)).entries.getD 0 default).m_txhash ≠ 5 := by
  have h1 := claim_C9 (runOps 0 0 [Op.recvInv 1 true 5 true false 0,
      Op.recvInv 1 true 7 true false 0])
    (WF_runOps 0 0 [Op.recvInv 1 true 5 true false 0,
      Op.recvInv 1 true 7 true false 0]).1.sorted
    (WF_runOps 0 0 [Op.recvInv 1 true 5 true false 0,
      Op.recvInv 1 true 7 true false 0]).1.snd (true, 5)
  exact h1 _ (by decide)

/-- ORing the top bit into a value below `2 ^ 63` is addition. -/
theorem lor_two_pow_63 (a : Nat) (h : a < 2 ^ 63) : a ||| 2 ^ 63 = a + 2 ^ 63 := by
  apply Nat.eq_of_testBit_eq
  intro i
  rw [Nat.testBit_lor]
  rcases Nat.lt_trichotomy i 63 with hi | hi | hi
  · rw [Nat.testBit_two_pow_of_ne (by omega), Bool.or_false,
      Nat.testBit_to_div_mod, Nat.testBit_to_div_mod]
    have hdvd : 2 ∣ 2 ^ (63 - i) := dvd_pow_self 2 (by omega)
    have h2 : (a + 2 ^ 63) / 2 ^ i = a / 2 ^ i + 2 ^ (63 - i) := by
      have h3 : (2 : Nat) ^ 63 = 2 ^ (63 - i) * 2 ^ i := by
        rw [← pow_add]
        congr 1
        omega
      rw [h3, Nat.add_mul_div_right _ _ (Nat.two_pow_pos i)]
    rw [h2]
    simp only [decide_eq_decide]
    omega
  · subst hi
    rw [Nat.testBit_two_pow_self, Bool.or_true, Nat.testBit_to_div_mod]
    have h2 : (a + 2 ^ 63) / 2 ^ 63 = 1 := by omega
    rw [h2]
    decide
  · have hle : (2 : Nat) ^ 64 ≤ 2 ^ i := Nat.pow_le_pow_right (by norm_num) (by omega)
    have h64 : (2 : Nat) ^ 64 = 2 ^ 63 + 2 ^ 63 := by norm_num
    rw [Nat.testBit_two_pow_of_ne (by omega), Bool.or_false,
      Nat.testBit_lt_two_pow (by omega), Nat.testBit_lt_two_pow (by omega)]

/-- C4: the computed priority has the hash (or zero, when `first`) in its
low 63 bits and the negation of `preferred` as its top bit. -/
theorem claim_C4 (k0 k1 txhash peer : Nat) (preferred first : Bool) :
    priorityCompute k0 k1 txhash peer preferred first % 2 ^ 63 =
      (if first then 0 else hash64 k0 k1 txhash peer >>> 1) ∧
    priorityCompute k0 k1 txhash peer preferred first / 2 ^ 63 =
      (if preferred then 0 else 1) := by
  unfold priorityCompute
  dsimp only
  have hlow : (if first then 0 else hash64 k0 k1 txhash peer >>> 1) < 2 ^ 63 := by
    split
    · norm_num
    · have h1 := hash64_lt k0 k1 txhash peer
      rw [Nat.shiftRight_eq_div_pow]
      omega
  by_cases hp : preferred = true
  · rw [if_pos hp, Nat.zero_shiftLeft, Nat.or_zero]
    exact ⟨Nat.mod_eq_of_lt hlow, Nat.div_eq_of_lt hlow⟩
  · rw [if_neg hp]
    have h1 : (1 : Nat) <<< 63 = 2 ^ 63 := by
      rw [Nat.shiftLeft_eq, one_mul]
    rw [h1, lor_two_pow_63 _ hlow]
    constructor
    · omega
    · omega

theorem mem_core_orFlagsAt {l : List Entry} {i fl : Nat} {c : ECore}
    (h : c ∈ l.map Entry.core) : c ∈ (orFlagsAt l i fl).map Entry.core := by
  have hce := orFlagsAt_coreEq l i fl
  unfold CoreEq at hce
  rw [hce]
  exact h

/-- The insert branch of `ReceivedInv` leaves an announcement for the new
entry's peer and txhash behind. -/
theorem exists_peer_hash_insert (t : Tracker) (newE : Entry) (tgt fl : Nat) :
    ∃ e ∈ ({ t with
        entries := orFlagsAt (insertUB t.m_k0 t.m_k1 newE t.entries) tgt fl
        m_sequence := t.m_sequence + 1 } : Tracker).entries,
      e.m_peer = newE.m_peer ∧ e.m_txhash = newE.m_txhash := by
  have h1 : newE.core ∈ (insertUB t.m_k0 t.m_k1 newE t.entries).map Entry.core :=
    List.mem_map_of_mem _ (mem_insertUB.2 (Or.inl rfl))
  have h2 : newE.core ∈ (orFlagsAt (insertUB t.m_k0 t.m_k1 newE t.entries) tgt
      fl).map Entry.core := mem_core_orFlagsAt h1
  obtain ⟨z, hz, hzc⟩ := entry_of_core_mem h2
  refine ⟨z, hz, ?_, ?_⟩
  · have h3 := congrArg ECore.peer hzc
    rw [Entry.core_peer, Entry.core_peer] at h3
    exact h3
  · have h3 := congrArg ECore.txhash hzc
    rw [Entry.core_txhash, Entry.core_txhash] at h3
    exact h3

/-- `ReceivedInv` does nothing when any announcement for the peer and
txhash already exists. -/
theorem receivedInv_noop (t : Tracker) (peer : Nat) (g : Bool × Nat)
    (pref ov : Bool) (rt : Int)
    (hex : ∃ e ∈ t.entries, e.m_peer = peer ∧ e.m_txhash = g.2) :
    t.receivedInv peer g pref ov rt = t := by
  obtain ⟨e, he, hp, hh⟩ := hex
  unfold Tracker.receivedInv
  dsimp only
  by_cases h1 : (t.entries.any fun x =>
      x.m_peer == peer && x.m_state == State.CANDIDATE_BEST && x.m_txhash == g.2) = true
  · rw [if_pos h1]
  · rw [if_neg h1]
    have h2 : (t.entries.any fun x =>
        x.m_peer == peer && !(x.m_state == State.CANDIDATE_BEST) &&
          x.m_txhash == g.2) = true := by
      rw [List.any_eq_true]
      refine ⟨e, he, ?_⟩
      have hB : (e.m_state == State.CANDIDATE_BEST) = false := by
        by_contra hc
        apply h1
        rw [List.any_eq_true]
        refine ⟨e, he, ?_⟩
        simp only [Bool.not_eq_false] at hc
        simp [hp, hh, hc]
      simp [hp, hh, hB]
    rw [if_pos h2]

/-- After any `ReceivedInv` an announcement for the peer and txhash exists. -/
theorem receivedInv_mem_after (t : Tracker) (peer : Nat) (g : Bool × Nat)
    (pref ov : Bool) (rt : Int) :
    ∃ e ∈ (t.receivedInv peer g pref ov rt).entries,
      e.m_peer = peer ∧ e.m_txhash = g.2 := by
  unfold Tracker.receivedInv
  dsimp only
  by_cases h1 : (t.entries.any fun x =>
      x.m_peer == peer && x.m_state == State.CANDIDATE_BEST && x.m_txhash == g.2) = true
  · rw [if_pos h1]
    rcases List.any_eq_true.1 h1 with ⟨e, he, hpred⟩
    simp only [Bool.and_eq_true, beq_iff_eq] at hpred
    exact ⟨e, he, hpred.1.1, hpred.2⟩
  · rw [if_neg h1]
    by_cases h2 : (t.entries.any fun x =>
        x.m_peer == peer && !(x.m_state == State.CANDIDATE_BEST) &&
          x.m_txhash == g.2) = true
    · rw [if_pos h2]
      rcases List.any_eq_true.1 h2 with ⟨e, he, hpred⟩
      simp only [Bool.and_eq_true, beq_iff_eq] at hpred
      exact ⟨e, he, hpred.1.1, hpred.2⟩
    · rw [if_neg h2]
      exact exists_peer_hash_insert t _ _ _

/-- C5: `ReceivedInv` is a no-op when an announcement for `(peer, txhash)`
already exists in any state, and two consecutive `ReceivedInv` calls for
the same `(peer, txhash)` are indistinguishable from one. -/
theorem claim_C5 (t : Tracker) (peer : Nat) (g : Bool × Nat) (pref ov : Bool)
    (rt : Int) :
    ((∃ e ∈ t.entries, e.m_peer = peer ∧ e.m_txhash = g.2) →
      t.receivedInv peer g pref ov rt = t) ∧
    ∀ pref₂ ov₂ : Bool, ∀ rt₂ : Int,
      (t.receivedInv peer g pref ov rt).receivedInv peer g pref₂ ov₂ rt₂ =
        t.receivedInv peer g pref ov rt :=
  ⟨receivedInv_noop t peer g pref ov rt,
   fun pref₂ ov₂ rt₂ => receivedInv_noop _ peer g pref₂ ov₂ rt₂
     (receivedInv_mem_after t peer g pref ov rt)⟩

theorem lor_and_self (a b : Nat) : (a ||| b) &&& b = b := by
  apply Nat.eq_of_testBit_eq
  intro i
  rw [Nat.testBit_and, Nat.testBit_lor]
  cases a.testBit i <;> cases b.testBit i <;> rfl

/-- The ByTxHash key reads only the core view of an entry. -/
theorem keyN_of_core_eq {k0 k1 : Nat} {a b : Entry} (h : a.core = b.core) :
    a.keyN k0 k1 = b.keyN k0 k1 := by
  have h1 : a.m_txhash = b.m_txhash := congrArg ECore.txhash h
  have h2 : a.m_state = b.m_state := congrArg ECore.st h
  have h3 : a.m_peer = b.m_peer := congrArg ECore.peer h
  have h4 : a.m_preferred = b.m_preferred := congrArg ECore.preferred h
  have h5 : a.m_first = b.m_first := congrArg ECore.firstm h
  unfold Entry.keyN Entry.priority priorityCompute
  rw [h1, h2, h3, h4, h5]

theorem orFlagsAt_length (l : List Entry) (i fl : Nat) :
    (orFlagsAt l i fl).length = l.length := by
  have h := congrArg List.length (orFlagsAt_coreEq l i fl)
  rw [List.length_map, List.length_map] at h
  exact h

theorem orFlagsAt_getElem_ne (l : List Entry) (i fl j : Nat) (hne : i ≠ j) :
    (orFlagsAt l i fl)[j]? = l[j]? := by
  unfold orFlagsAt
  cases hg : l[i]? with
  | none => rfl
  | some e => exact List.getElem?_set_ne hne

theorem orFlagsAt_getElem_self (l : List Entry) (i fl : Nat) (hi : i < l.length) :
    (orFlagsAt l i fl)[i]? =
      some { l[i] with m_per_txhash := l[i].m_per_txhash ||| fl } := by
  unfold orFlagsAt
  rw [List.getElem?_eq_getElem hi]
  dsimp only
  exact List.getElem?_set_self hi

theorem State.code_le4 (s : State) : s.code ≤ 4 := by
  cases s <;> simp [State.code]

/-- The txhash of an entry is pinned by sandwiching its ByTxHash key
between the REQUESTED code and the TOO_LARGE sentinel code of a hash. -/
theorem keyN_txhash_sandwich {k0 k1 : Nat} (e : Entry) {h : Nat}
    (hlo : h * 2 ^ 67 + 2 * 2 ^ 64 ≤ e.keyN k0 k1)
    (hhi : e.keyN k0 k1 < h * 2 ^ 67 + 5 * 2 ^ 64) : e.m_txhash = h := by
  have hd := Entry.keyN_eq k0 k1 e
  have hc := State.code_le4 e.m_state
  have hp := Entry.prioR_lt k0 k1 e
  rw [hd] at hlo hhi
  rcases Nat.lt_trichotomy e.m_txhash h with hx | hx | hx
  · exfalso
    have h1 : e.m_txhash * 2 ^ 67 + 2 ^ 67 ≤ h * 2 ^ 67 := by
      have h2 := Nat.mul_le_mul_right (2 ^ 67) hx
      omega
    omega
  · exact hx
  · exfalso
    have h1 : h * 2 ^ 67 + 2 ^ 67 ≤ e.m_txhash * 2 ^ 67 := by
      have h2 := Nat.mul_le_mul_right (2 ^ 67) hx
      omega
    omega

/-- A ByTxHash key at or above the TOO_LARGE search key of a hash belongs
to a strictly larger txhash. -/
theorem keyN_txhash_gt {k0 k1 : Nat} (e : Entry) {h : Nat}
    (hlo : h * 2 ^ 67 + 5 * 2 ^ 64 ≤ e.keyN k0 k1) : h < e.m_txhash := by
  have hd := Entry.keyN_eq k0 k1 e
  have hc := State.code_le4 e.m_state
  have hp := Entry.prioR_lt k0 k1 e
  rw [hd] at hlo
  by_contra hx
  have h1 : e.m_txhash * 2 ^ 67 ≤ h * 2 ^ 67 :=
    Nat.mul_le_mul_right (2 ^ 67) (by omega)
  omega

/-- C6: `RequestedTx` aborts exactly when no CANDIDATE_BEST announcement
for `(peer, txhash)` exists; on success that announcement becomes
REQUESTED with time `exptime` (all other announcements untouched modulo
flag bytes), and both no-more-first bits are set in the last ByTxHash
entry for the txhash. -/
theorem claim_C6 (t : Tracker) (peer : Nat) (g : Bool × Nat) (exptime : Int)
    (hs : SortedK t.m_k0 t.m_k1 t.entries) (hnd : seqNodup t.entries) :
    (t.requestedTx peer g exptime = none ↔
      ¬ ∃ e ∈ t.entries, e.m_peer = peer ∧ e.m_state = State.CANDIDATE_BEST ∧
        e.m_txhash = g.2) ∧
    ∀ t', t.requestedTx peer g exptime = some t' →
      ∃ e ∈ t.entries, e.m_peer = peer ∧ e.m_state = State.CANDIDATE_BEST ∧
        e.m_txhash = g.2 ∧
        (∃ r, List.Perm (t.entries.map Entry.core) (e.core :: r) ∧
          List.Perm (t'.entries.map Entry.core)
            (({ e with m_state := State.REQUESTED, m_time := exptime }).core :: r)) ∧
        ∃ i, ∃ hi : i < t'.entries.length,
          t'.entries[i].m_txhash = g.2 ∧
          t'.entries[i].m_per_txhash &&&
              (TXHASHINFO_NO_MORE_PREFERRED_FIRST |||
                TXHASHINFO_NO_MORE_NONPREFERRED_FIRST) =
            TXHASHINFO_NO_MORE_PREFERRED_FIRST |||
              TXHASHINFO_NO_MORE_NONPREFERRED_FIRST ∧
          ∀ j, ∀ hj : j < t'.entries.length, i < j → t'.entries[j].m_txhash ≠ g.2 := by
  constructor
  · unfold Tracker.requestedTx
    dsimp only
    cases hfind : t.entries.find? (fun e =>
        e.m_peer == peer && e.m_state == State.CANDIDATE_BEST && e.m_txhash == g.2) with
    | none =>
        constructor
        · intro _
          rw [List.find?_eq_none] at hfind
          rintro ⟨e, he, h1, h2, h3⟩
          exact hfind e he (by simp [h1, h2, h3])
        · intro _
          rfl
    | some e =>
        constructor
        · intro h
          exact absurd h (by simp)
        · intro hne
          exfalso
          apply hne
          have hp := List.find?_some hfind
          simp only [Bool.and_eq_true, beq_iff_eq] at hp
          exact ⟨e, List.mem_of_find?_eq_some hfind, hp.1.1, hp.1.2, hp.2⟩
  · intro t' ht'
    unfold Tracker.requestedTx at ht'
    dsimp only at ht'
    cases hfind : t.entries.find? (fun e =>
        e.m_peer == peer && e.m_state == State.CANDIDATE_BEST && e.m_txhash == g.2) with
    | none =>
        rw [hfind] at ht'
        exact absurd ht' (by simp)
    | some e =>
        rw [hfind] at ht'
        dsimp only at ht'
        rw [Option.some.injEq] at ht'
        have hpe := List.find?_some hfind
        simp only [Bool.and_eq_true, beq_iff_eq] at hpe
        have he : e ∈ t.entries := List.mem_of_find?_eq_some hfind
        obtain ⟨r, hperm1, hperm2, hsorted', hlen⟩ := modifyBySeq_spec t.m_k0 t.m_k1
          hnd he (fun x => { x with m_state := .REQUESTED, m_time := exptime })
        set M : List Entry := modifyBySeq t.m_k0 t.m_k1 e.m_sequence
          (fun x => { x with m_state := .REQUESTED, m_time := exptime }) t.entries with hM
        set lb : Nat := lowerBoundIdx t.m_k0 t.m_k1 (searchKeyN g.2 5) M with hlb
        set bits : Nat := TXHASHINFO_NO_MORE_PREFERRED_FIRST |||
          TXHASHINFO_NO_MORE_NONPREFERRED_FIRST with hbits
        have ht'e : t'.entries = orFlagsAt M (lb - 1) bits := by
          rw [← ht']
          rfl
        refine ⟨e, he, hpe.1.1, hpe.1.2, hpe.2, ?_, ?_⟩
        · refine ⟨r, hperm1, ?_⟩
          have hce := orFlagsAt_coreEq M (lb - 1) bits
          unfold CoreEq at hce
          rw [ht'e, hce]
          exact hperm2
        · have hs1 : SortedK t.m_k0 t.m_k1 M := hsorted' hs
          obtain ⟨hlb_le, hltk, hgek⟩ := lowerBoundIdx_spec (searchKeyN g.2 5) hs1
          have hmemfe : ({ e with m_state := State.REQUESTED, m_time := exptime } :
              Entry).core ∈ M.map Entry.core :=
            hperm2.symm.subset (List.mem_cons_self _ _)
          obtain ⟨z, hz, hzc⟩ := entry_of_core_mem hmemfe
          obtain ⟨iz, hiz, hzeq⟩ := List.mem_iff_getElem.1 hz
          have hzkey : z.keyN t.m_k0 t.m_k1 = g.2 * 2 ^ 67 + 2 * 2 ^ 64 := by
            rw [keyN_of_core_eq hzc]
            have h1 : ({ e with m_state := State.REQUESTED, m_time := exptime } :
                Entry).keyN t.m_k0 t.m_k1 = e.m_txhash * 2 ^ 67 + 2 * 2 ^ 64 := by
              rw [Entry.keyN_eq]
              have h2 : ({ e with m_state := State.REQUESTED, m_time := exptime } :
                  Entry).m_state = State.REQUESTED := rfl
              have h3 : ({ e with m_state := State.REQUESTED, m_time := exptime } :
                  Entry).m_txhash = e.m_txhash := rfl
              have h4 : ({ e with m_state := State.REQUESTED, m_time := exptime } :
                  Entry).prioR t.m_k0 t.m_k1 = 0 := by
                unfold Entry.prioR
                rw [h2]
                rfl
              rw [h2, h3, h4]
              have h5 : State.REQUESTED.code = 2 := rfl
              rw [h5]
              omega
            rw [h1, hpe.2]
          have hzlt : z.keyN t.m_k0 t.m_k1 < searchKeyN g.2 5 := by
            rw [hzkey]
            unfold searchKeyN
            omega
          have hlb_pos : 0 < lb := by
            rw [hlb]
            unfold lowerBoundIdx
            rw [List.countP_pos_iff]
            exact ⟨z, hz, by simpa using hzlt⟩
          have hizlt : iz < lb := by
            by_contra hc
            have h2 := hgek iz hiz (by omega)
            rw [hzeq, hzkey] at h2
            unfold searchKeyN at h2
            omega
          have hlast : lb - 1 < M.length := by omega
          have hlastkey_lt := hltk (lb - 1) hlast (by omega)
          have hlastkey_ge : g.2 * 2 ^ 67 + 2 * 2 ^ 64 ≤ M[lb - 1].keyN t.m_k0 t.m_k1 := by
            rw [← hzkey, ← hzeq]
            exact hs1.le_of_le (by omega) hlast
          have hlasthash : M[lb - 1].m_txhash = g.2 := by
            apply keyN_txhash_sandwich M[lb - 1] hlastkey_ge
            have h3 := hlastkey_lt
            unfold searchKeyN at h3
            exact h3
          have hlen' : t'.entries.length = M.length := by
            rw [ht'e]
            exact orFlagsAt_length _ _ _
          have hlast' : lb - 1 < t'.entries.length := by omega
          have hsome : t'.entries[lb - 1]? =
              some { M[lb - 1] with
                m_per_txhash := M[lb - 1].m_per_txhash ||| bits } := by
            rw [ht'e]
            exact orFlagsAt_getElem_self M (lb - 1) bits hlast
          have hsome2 : t'.entries[lb - 1]? = some t'.entries[lb - 1] :=
            List.getElem?_eq_getElem hlast'
          rw [hsome] at hsome2
          have hval : t'.entries[lb - 1] =
              { M[lb - 1] with
                m_per_txhash := M[lb - 1].m_per_txhash ||| bits } :=
            (Option.some.inj hsome2).symm
          refine ⟨lb - 1, hlast', ?_, ?_, ?_⟩
          · rw [hval]
            exact hlasthash
          · rw [hval]
            exact lor_and_self _ _
          · intro j hj hjgt
            have hje : j < M.length := by omega
            have hq : t'.entries[j]? = M[j]? := by
              rw [ht'e]
              exact orFlagsAt_getElem_ne M (lb - 1) bits j (by omega)
            rw [List.getElem?_eq_getElem hje] at hq
            have hq2 : t'.entries[j]? = some t'.entries[j] :=
              List.getElem?_eq_getElem hj
            rw [hq] at hq2
            have hq3 : t'.entries[j] = M[j] := (Option.some.inj hq2).symm
            rw [hq3]
            have hkeyj := hgek j hje (by omega)
            intro hcon
            have h4 : g.2 < M[j].m_txhash := by
              apply keyN_txhash_gt M[j]
              unfold searchKeyN at hkeyj
              exact hkeyj
            omega

theorem claim_C6_witness :
    (runOps 0 0 [Op.recvInv 1 true 5 false false 0]).requestedTx 1 (true, 5) 100 =
      none := by
  have h1 := claim_C6 (runOps 0 0 [Op.recvInv 1 true 5 false false 0]) 1 (true, 5) 100
    (WF_runOps 0 0 [Op.recvInv 1 true 5 false false 0]).1.sorted
    (WF_runOps 0 0 [Op.recvInv 1 true 5 false false 0]).1.snd
  exact h1.1.mpr (by decide)

theorem byTimeLtB_iff (a b : Entry) : byTimeLtB a b = true ↔
    (a.m_state.timeClass < b.m_state.timeClass ∨
      (a.m_state.timeClass = b.m_state.timeClass ∧ a.m_time < b.m_time)) := by
  unfold byTimeLtB
  simp

theorem byTimeLtB_irrefl (a : Entry) : byTimeLtB a a = false := by
  rw [Bool.eq_false_iff]
  intro h
  rw [byTimeLtB_iff] at h
  omega

theorem byTimeLtB_trans {a b c : Entry} (h1 : byTimeLtB a b = true)
    (h2 : byTimeLtB b c = true) : byTimeLtB a c = true := by
  rw [byTimeLtB_iff] at h1 h2 ⊢
  omega

theorem byTimeLtB_neg_trans {a b c : Entry} (h1 : byTimeLtB a b = false)
    (h2 : byTimeLtB b c = false) : byTimeLtB a c = false := by
  rw [Bool.eq_false_iff]
  intro hac
  rw [byTimeLtB_iff] at hac
  have h1' : ¬(a.m_state.timeClass < b.m_state.timeClass ∨
      (a.m_state.timeClass = b.m_state.timeClass ∧ a.m_time < b.m_time)) := by
    intro hp
    rw [← byTimeLtB_iff] at hp
    rw [h1] at hp
    exact absurd hp (by simp)
  have h2' : ¬(b.m_state.timeClass < c.m_state.timeClass ∨
      (b.m_state.timeClass = c.m_state.timeClass ∧ b.m_time < c.m_time)) := by
    intro hp
    rw [← byTimeLtB_iff] at hp
    rw [h2] at hp
    exact absurd hp (by simp)
  omega

/-- The ByTime minimum fold: starting from `a`, the result is below `a`
and below every listed entry. -/
theorem byTimeMinFold : ∀ (l : List Entry) (a : Entry),
    ∃ e, l.foldl
        (fun acc x =>
          match acc with
          | none => some x
          | some a => if byTimeLtB x a then some x else acc)
        (some a) = some e ∧
      byTimeLtB a e = false ∧ ∀ x ∈ l, byTimeLtB x e = false := by
  intro l
  induction l with
  | nil =>
      intro a
      exact ⟨a, rfl, byTimeLtB_irrefl a, by simp⟩
  | cons x xs ih =>
      intro a
      rw [List.foldl_cons]
      dsimp only
      by_cases hx : byTimeLtB x a = true
      · rw [if_pos hx]
        obtain ⟨e, heq, hxe, hall⟩ := ih x
        refine ⟨e, heq, ?_, ?_⟩
        · rw [Bool.eq_false_iff]
          intro hae
          have h2 := byTimeLtB_trans hx hae
          rw [hxe] at h2
          exact absurd h2 (by simp)
        · intro y hy
          rcases List.mem_cons.1 hy with rfl | hyxs
          · exact hxe
          · exact hall y hyxs
      · rw [if_neg hx]
        obtain ⟨e, heq, hae, hall⟩ := ih a
        refine ⟨e, heq, hae, ?_⟩
        intro y hy
        rcases List.mem_cons.1 hy with rfl | hyxs
        · exact byTimeLtB_neg_trans (Bool.eq_false_iff.2 hx) hae
        · exact hall y hyxs

/-- The ByTime maximum fold: starting from `a`, the result is above `a`
and above every listed entry. -/
theorem byTimeMaxFold : ∀ (l : List Entry) (a : Entry),
    ∃ e, l.foldl
        (fun acc x =>
          match acc with
          | none => some x
          | some a => if byTimeLtB x a then acc else some x)
        (some a) = some e ∧
      byTimeLtB e a = false ∧ ∀ x ∈ l, byTimeLtB e x = false := by
  intro l
  induction l with
  | nil =>
      intro a
      exact ⟨a, rfl, byTimeLtB_irrefl a, by simp⟩
  | cons x xs ih =>
      intro a
      rw [List.foldl_cons]
      dsimp only
      by_cases hx : byTimeLtB x a = true
      · rw [if_pos hx]
        obtain ⟨e, heq, hea, hall⟩ := ih a
        refine ⟨e, heq, hea, ?_⟩
        intro y hy
        rcases List.mem_cons.1 hy with rfl | hyxs
        · rw [Bool.eq_false_iff]
          intro hey
          have h2 := byTimeLtB_trans hey hx
          rw [hea] at h2
          exact absurd h2 (by simp)
        · exact hall y hyxs
      · rw [if_neg hx]
        obtain ⟨e, heq, hex, hall⟩ := ih x
        refine ⟨e, heq, ?_, ?_⟩
        · exact byTimeLtB_neg_trans hex (Bool.eq_false_iff.2 hx)
        · intro y hy
          rcases List.mem_cons.1 hy with rfl | hyxs
          · exact hex
          · exact hall y hyxs

/-- The first ByTime entry is below every entry of the list. -/
theorem byTimeMin_notLt {l : List Entry} {e : Entry} (h : byTimeMin l = some e) :
    ∀ x ∈ l, byTimeLtB x e = false := by
  cases l with
  | nil =>
      unfold byTimeMin at h
      simp at h
  | cons x xs =>
      unfold byTimeMin at h
      rw [List.foldl_cons] at h
      dsimp only at h
      obtain ⟨e2, heq, hxe, hall⟩ := byTimeMinFold xs x
      rw [h] at heq
      have he2 : e2 = e := Option.some.inj heq.symm
      subst he2
      intro y hy
      rcases List.mem_cons.1 hy with rfl | hyxs
      · exact hxe
      · exact hall y hyxs

/-- The last ByTime entry is above every entry of the list. -/
theorem byTimeMax_notLt {l : List Entry} {e : Entry} (h : byTimeMax l = some e) :
    ∀ x ∈ l, byTimeLtB e x = false := by
  cases l with
  | nil =>
      unfold byTimeMax at h
      simp at h
  | cons x xs =>
      unfold byTimeMax at h
      rw [List.foldl_cons] at h
      dsimp only at h
      obtain ⟨e2, heq, hex, hall⟩ := byTimeMaxFold xs x
      rw [h] at heq
      have he2 : e2 = e := Option.some.inj heq.symm
      subst he2
      intro y hy
      rcases List.mem_cons.1 hy with rfl | hyxs
      · exact hex
      · exact hall y hyxs

theorem isWaiting_iff_timeClass (s : State) : s.isWaiting = true ↔ s.timeClass = 0 := by
  cases s <;> simp [State.isWaiting, State.timeClass]

theorem isSelectable_iff_timeClass (s : State) : s.isSelectable = true ↔ s.timeClass = 2 := by
  cases s <;> simp [State.isSelectable, State.timeClass]

theorem timeClass_le2 (s : State) : s.timeClass ≤ 2 := by
  cases s <;> simp [State.timeClass]

/-- Filtering away an element that the count predicate selects strictly
decreases the count. -/
theorem countP_filter_lt {p q : ECore → Bool} {l : List ECore} {x : ECore}
    (hx : x ∈ l) (hpx : p x = true) (hqx : q x = false) :
    (l.filter q).countP p < l.countP p := by
  have hperm : l.Perm (x :: l.erase x) := List.perm_cons_erase hx
  have h1 : l.countP p = (l.erase x).countP p + 1 := by
    rw [hperm.countP_eq]
    rw [List.countP_cons, if_pos hpx]
  have h2 : (l.filter q).countP p ≤ (l.erase x).countP p := by
    have h3 : (l.filter q).countP p = ((x :: l.erase x).filter q).countP p :=
      (hperm.filter q).countP_eq p
    rw [h3, List.filter_cons_of_neg (by simp [hqx])]
    calc ((l.erase x).filter q).countP p
        = (l.erase x).countP (fun a => p a && q a) := List.countP_filter _ _ _
      _ ≤ (l.erase x).countP p := by
          apply List.countP_mono_left
          intro a _ h
          rw [Bool.and_eq_true] at h
          exact h.1
  omega

/-- First `SetTimePoint` loop: with fuel above the number of ripe waiting
entries, afterwards every waiting announcement has a future time, and
the selectable-time bound is preserved. -/
theorem timeLoop1_spec (now : Int) : ∀ (fuel : Nat) (t : Tracker), WF t →
    (t.entries.map Entry.core).countP
        (fun c => c.st.isWaiting && decide (c.time ≤ now)) < fuel →
    (∀ c ∈ (Tracker.timeLoop1 now fuel t).entries.map Entry.core,
        c.st.isWaiting = true → now < c.time) ∧
    ((∀ c ∈ t.entries.map Entry.core, c.st.isSelectable = true → c.time ≤ now) →
      ∀ c ∈ (Tracker.timeLoop1 now fuel t).entries.map Entry.core,
        c.st.isSelectable = true → c.time ≤ now) := by
  intro fuel
  induction fuel with
  | zero =>
      intro t hwf hcnt
      exact absurd hcnt (by omega)
  | succ fuel ih =>
      intro t hwf hcnt
      unfold Tracker.timeLoop1
      cases hmin : byTimeMin t.entries with
      | none =>
          dsimp only
          have hnil : t.entries = [] := by
            cases hl : t.entries with
            | nil => rfl
            | cons x xs =>
                exfalso
                rw [hl] at hmin
                unfold byTimeMin at hmin
                rw [List.foldl_cons] at hmin
                dsimp only at hmin
                obtain ⟨e2, heq, _, _⟩ := byTimeMinFold xs x
                rw [heq] at hmin
                exact absurd hmin (by simp)
          refine ⟨?_, fun hS => hS⟩
          rw [hnil]
          intro c hc
          simp at hc
      | some e =>
          dsimp only
          have he := byTimeMin_mem hmin
          have hminall := byTimeMin_notLt hmin
          have hecm : e.core ∈ t.entries.map Entry.core := List.mem_map_of_mem _ he
          by_cases h1 : e.m_state = State.CANDIDATE_DELAYED ∧ e.m_time ≤ now
          · rw [if_pos h1]
            have hwf2 : WF (t.promoteCandidateNew e.m_sequence) := WF_promote t hwf he h1.1
            obtain ⟨hs2, hnd2, hlen2, hk02, hk12, hseq2, r, hperm, hbr⟩ :=
              promote_spec t hwf.1 he h1.1
            have hWe : (e.core.st.isWaiting && decide (e.core.time ≤ now)) = true := by
              rw [Entry.core_st, Entry.core_time, h1.1]
              simp [State.isWaiting, h1.2]
            have hct : (t.entries.map Entry.core).countP
                (fun c => c.st.isWaiting && decide (c.time ≤ now)) =
                r.countP (fun c => c.st.isWaiting && decide (c.time ≤ now)) + 1 := by
              rw [hperm.countP_eq, List.countP_cons, if_pos hWe]
            have hsub : ∀ c ∈ r, c ∈ t.entries.map Entry.core := by
              intro c hc
              exact hperm.symm.subset (List.mem_cons_of_mem _ hc)
            have hkey : ((t.promoteCandidateNew e.m_sequence).entries.map
                  Entry.core).countP
                  (fun c => c.st.isWaiting && decide (c.time ≤ now)) ≤
                r.countP (fun c => c.st.isWaiting && decide (c.time ≤ now)) ∧
                ((∀ c ∈ t.entries.map Entry.core, c.st.isSelectable = true →
                    c.time ≤ now) →
                  ∀ c ∈ (t.promoteCandidateNew e.m_sequence).entries.map Entry.core,
                    c.st.isSelectable = true → c.time ≤ now) := by
              rcases hbr with ⟨x, hxr, hxh, hxsel, hxb, hperm2⟩ | ⟨hall, hperm2⟩ |
                ⟨p, r₂, hpr, hph, hpst, hpp, hall2, hperm2⟩
              · constructor
                · rw [hperm2.countP_eq, List.countP_cons]
                  have h3 : ((setSt e.core State.CANDIDATE_READY).st.isWaiting &&
                      decide ((setSt e.core State.CANDIDATE_READY).time ≤ now)) =
                      false := rfl
                  rw [h3]
                  simp
                · intro hS c hc
                  have hc2 := hperm2.subset hc
                  rcases List.mem_cons.1 hc2 with rfl | hcr
                  · intro _
                    have h4 : (setSt e.core State.CANDIDATE_READY).time = e.m_time :=
                      rfl
                    rw [h4]
                    exact h1.2
                  · exact hS c (hsub c hcr)
              · constructor
                · rw [hperm2.countP_eq, List.countP_cons]
                  have h3 : ((setSt e.core State.CANDIDATE_BEST).st.isWaiting &&
                      decide ((setSt e.core State.CANDIDATE_BEST).time ≤ now)) =
                      false := rfl
                  rw [h3]
                  simp
                · intro hS c hc
                  have hc2 := hperm2.subset hc
                  rcases List.mem_cons.1 hc2 with rfl | hcr
                  · intro _
                    have h4 : (setSt e.core State.CANDIDATE_BEST).time = e.m_time :=
                      rfl
                    rw [h4]
                    exact h1.2
                  · exact hS c (hsub c hcr)
              · have hsub2 : ∀ c ∈ r₂, c ∈ t.entries.map Entry.core := by
                  intro c hc
                  exact hsub c (hpr.symm.subset (List.mem_cons_of_mem _ hc))
                have hpmem : p ∈ t.entries.map Entry.core :=
                  hsub p (hpr.symm.subset (List.mem_cons_self _ _))
                constructor
                · rw [hperm2.countP_eq, List.countP_cons, List.countP_cons]
                  have h3 : ((setSt e.core State.CANDIDATE_BEST).st.isWaiting &&
                      decide ((setSt e.core State.CANDIDATE_BEST).time ≤ now)) =
                      false := rfl
                  have h4 : ((setSt p State.CANDIDATE_READY).st.isWaiting &&
                      decide ((setSt p State.CANDIDATE_READY).time ≤ now)) =
                      false := rfl
                  rw [h3, h4]
                  have h5 : r.countP (fun c => c.st.isWaiting &&
                      decide (c.time ≤ now)) =
                      r₂.countP (fun c => c.st.isWaiting && decide (c.time ≤ now)) +
                        (if (p.st.isWaiting && decide (p.time ≤ now)) = true
                          then 1 else 0) := by
                    rw [hpr.countP_eq, List.countP_cons]
                  simp only [Bool.false_eq_true, reduceIte]
                  omega
                · intro hS c hc
                  have hc2 := hperm2.subset hc
                  rcases List.mem_cons.1 hc2 with rfl | hcr
                  · intro _
                    have h4 : (setSt e.core State.CANDIDATE_BEST).time = e.m_time :=
                      rfl
                    rw [h4]
                    exact h1.2
                  · rcases List.mem_cons.1 hcr with rfl | hcr2
                    · intro _
                      have h4 : (setSt p State.CANDIDATE_READY).time = p.time := rfl
                      rw [h4]
                      apply hS p hpmem
                      rw [hpst]
                      rfl
                    · exact hS c (hsub2 c hcr2)
            have hrec := ih (t.promoteCandidateNew e.m_sequence) hwf2 (by omega)
            refine ⟨hrec.1, ?_⟩
            intro hS
            exact hrec.2 (hkey.2 hS)
          · rw [if_neg h1]
            by_cases h2 : e.m_state = State.REQUESTED ∧ e.m_time ≤ now
            · rw [if_pos h2]
              have hwf2 : WF (t.makeCompleted e.m_sequence).1 :=
                WF_makeCompleted t hwf he
              have hWe : (e.core.st.isWaiting && decide (e.core.time ≤ now)) = true := by
                rw [Entry.core_st, Entry.core_time, h2.1]
                simp [State.isWaiting, h2.2]
              have hkey : ((t.makeCompleted e.m_sequence).1.entries.map
                    Entry.core).countP
                    (fun c => c.st.isWaiting && decide (c.time ≤ now)) <
                  (t.entries.map Entry.core).countP
                    (fun c => c.st.isWaiting && decide (c.time ≤ now)) ∧
                  ((∀ c ∈ t.entries.map Entry.core, c.st.isSelectable = true →
                      c.time ≤ now) →
                    ∀ c ∈ (t.makeCompleted e.m_sequence).1.entries.map Entry.core,
                      c.st.isSelectable = true → c.time ≤ now) := by
                rcases makeCompleted_spec t hwf.1 he with ⟨hC, _⟩ |
                  ⟨_, _, _, _, hfil, _, _⟩ | ⟨_, _, hco, _⟩
                · rw [h2.1] at hC
                  exact absurd hC (by decide)
                · constructor
                  · rw [hfil]
                    apply countP_filter_lt hecm hWe
                    rw [Entry.core_txhash]
                    simp
                  · intro hS c hc
                    rw [hfil] at hc
                    exact hS c (List.mem_filter.1 hc).1
                · obtain ⟨hs2, hnd2, hlen2, hk02, hk12, hseq2, r, hperm, hbr⟩ := hco
                  have hct : (t.entries.map Entry.core).countP
                      (fun c => c.st.isWaiting && decide (c.time ≤ now)) =
                      r.countP (fun c => c.st.isWaiting && decide (c.time ≤ now)) +
                        1 := by
                    rw [hperm.countP_eq, List.countP_cons, if_pos hWe]
                  have hsub : ∀ c ∈ r, c ∈ t.entries.map Entry.core := by
                    intro c hc
                    exact hperm.symm.subset (List.mem_cons_of_mem _ hc)
                  rcases hbr with ⟨_, hperm2⟩ | ⟨_, x, r₂, hxr, hxh, hxst, _, hperm2⟩
                  · constructor
                    · rw [hperm2.countP_eq, List.countP_cons]
                      have h3 : ((setSt e.core State.COMPLETED).st.isWaiting &&
                          decide ((setSt e.core State.COMPLETED).time ≤ now)) =
                          false := rfl
                      rw [h3]
                      simp only [Bool.false_eq_true, reduceIte]
                      omega
                    · intro hS c hc
                      have hc2 := hperm2.subset hc
                      rcases List.mem_cons.1 hc2 with rfl | hcr
                      · intro hsel
                        exact absurd hsel (by simp [setSt, State.isSelectable])
                      · exact hS c (hsub c hcr)
                  · have hsub2 : ∀ c ∈ r₂, c ∈ t.entries.map Entry.core := by
                      intro c hc
                      exact hsub c (hxr.symm.subset (List.mem_cons_of_mem _ hc))
                    have hxmem : x ∈ t.entries.map Entry.core :=
                      hsub x (hxr.symm.subset (List.mem_cons_self _ _))
                    constructor
                    · rw [hperm2.countP_eq, List.countP_cons, List.countP_cons]
                      have h3 : ((setSt e.core State.COMPLETED).st.isWaiting &&
                          decide ((setSt e.core State.COMPLETED).time ≤ now)) =
                          false := rfl
                      have h4 : ((setSt x State.CANDIDATE_BEST).st.isWaiting &&
                          decide ((setSt x State.CANDIDATE_BEST).time ≤ now)) =
                          false := rfl
                      have h5 : r.countP (fun c => c.st.isWaiting &&
                          decide (c.time ≤ now)) =
                          r₂.countP (fun c => c.st.isWaiting &&
                            decide (c.time ≤ now)) +
                            (if (x.st.isWaiting && decide (x.time ≤ now)) = true
                              then 1 else 0) := by
                        rw [hxr.countP_eq, List.countP_cons]
                      rw [h3, h4]
                      simp only [Bool.false_eq_true, reduceIte]
                      omega
                    · intro hS c hc
                      have hc2 := hperm2.subset hc
                      rcases List.mem_cons.1 hc2 with rfl | hcr
                      · intro hsel
                        exact absurd hsel (by simp [setSt, State.isSelectable])
                      · rcases List.mem_cons.1 hcr with rfl | hcr2
                        · intro _
                          have h4 : (setSt x State.CANDIDATE_BEST).time = x.time :=
                            rfl
                          rw [h4]
                          apply hS x hxmem
                          rw [hxst]
                          rfl
                        · exact hS c (hsub2 c hcr2)
              have hrec := ih (t.makeCompleted e.m_sequence).1 hwf2 (by omega)
              refine ⟨hrec.1, ?_⟩
              intro hS
              exact hrec.2 (hkey.2 hS)
            · rw [if_neg h2]
              refine ⟨?_, fun hS => hS⟩
              intro c hc hcw
              obtain ⟨x, hx, hxc⟩ := entry_of_core_mem hc
              by_contra hct
              have hxst : x.m_state = c.st := by
                rw [← hxc, Entry.core_st]
              have hxt : x.m_time = c.time := by
                rw [← hxc, Entry.core_time]
              have hxw : x.m_state.timeClass = 0 := by
                rw [hxst]
                exact (isWaiting_iff_timeClass c.st).1 hcw
              have hfx := hminall x hx
              rw [Bool.eq_false_iff] at hfx
              have hnlt : ¬(x.m_state.timeClass < e.m_state.timeClass ∨
                  (x.m_state.timeClass = e.m_state.timeClass ∧
                    x.m_time < e.m_time)) := by
                intro hp
                exact hfx ((byTimeLtB_iff x e).2 hp)
              have hce : e.m_state.timeClass = 0 := by omega
              have hte : e.m_time ≤ x.m_time := by omega
              have hxle : x.m_time ≤ now := by omega
              cases hst : e.m_state with
              | CANDIDATE_DELAYED => exact h1 ⟨hst, by omega⟩
              | REQUESTED => exact h2 ⟨hst, by omega⟩
              | CANDIDATE_BEST => rw [hst] at hce; simp [State.timeClass] at hce
              | CANDIDATE_READY => rw [hst] at hce; simp [State.timeClass] at hce
              | COMPLETED => rw [hst] at hce; simp [State.timeClass] at hce

/-- Second `SetTimePoint` loop: with fuel above the number of selectable
entries with future times, afterwards every selectable announcement has
time at most `now`, and the waiting-time bound is preserved. -/
theorem timeLoop2_spec (now : Int) : ∀ (fuel : Nat) (t : Tracker), WF t →
    (t.entries.map Entry.core).countP
        (fun c => c.st.isSelectable && decide (now < c.time)) < fuel →
    (∀ c ∈ (Tracker.timeLoop2 now fuel t).entries.map Entry.core,
        c.st.isSelectable = true → c.time ≤ now) ∧
    ((∀ c ∈ t.entries.map Entry.core, c.st.isWaiting = true → now < c.time) →
      ∀ c ∈ (Tracker.timeLoop2 now fuel t).entries.map Entry.core,
        c.st.isWaiting = true → now < c.time) := by
  intro fuel
  induction fuel with
  | zero =>
      intro t hwf hcnt
      exact absurd hcnt (by omega)
  | succ fuel ih =>
      intro t hwf hcnt
      unfold Tracker.timeLoop2
      cases hmax : byTimeMax t.entries with
      | none =>
          dsimp only
          have hnil : t.entries = [] := by
            cases hl : t.entries with
            | nil => rfl
            | cons x xs =>
                exfalso
                rw [hl] at hmax
                unfold byTimeMax at hmax
                rw [List.foldl_cons] at hmax
                dsimp only at hmax
                obtain ⟨e2, heq, _, _⟩ := byTimeMaxFold xs x
                rw [heq] at hmax
                exact absurd hmax (by simp)
          refine ⟨?_, fun hW => hW⟩
          rw [hnil]
          intro c hc
          simp at hc
      | some e =>
          dsimp only
          have he := byTimeMax_mem hmax
          have hmaxall := byTimeMax_notLt hmax
          by_cases h1 : e.m_state.isSelectable = true ∧ now < e.m_time
          · rw [if_pos h1]
            have hco := changeAndReselect_spec t hwf.1 he State.CANDIDATE_DELAYED
            have hwf2 : WF (t.changeAndReselect e.m_sequence State.CANDIDATE_DELAYED) :=
              WF_change hwf (by decide) (by decide) (by decide) hco
            obtain ⟨hs2, hnd2, hlen2, hk02, hk12, hseq2, r, hperm, hbr⟩ := hco
            have hSe : (e.core.st.isSelectable && decide (now < e.core.time)) = true := by
              rw [Entry.core_st, Entry.core_time, h1.1]
              simp [h1.2]
            have hct : (t.entries.map Entry.core).countP
                (fun c => c.st.isSelectable && decide (now < c.time)) =
                r.countP (fun c => c.st.isSelectable && decide (now < c.time)) + 1 := by
              rw [hperm.countP_eq, List.countP_cons, if_pos hSe]
            have hsub : ∀ c ∈ r, c ∈ t.entries.map Entry.core := by
              intro c hc
              exact hperm.symm.subset (List.mem_cons_of_mem _ hc)
            have hkey : ((t.changeAndReselect e.m_sequence
                  State.CANDIDATE_DELAYED).entries.map Entry.core).countP
                  (fun c => c.st.isSelectable && decide (now < c.time)) ≤
                r.countP (fun c => c.st.isSelectable && decide (now < c.time)) ∧
                ((∀ c ∈ t.entries.map Entry.core, c.st.isWaiting = true →
                    now < c.time) →
                  ∀ c ∈ (t.changeAndReselect e.m_sequence
                      State.CANDIDATE_DELAYED).entries.map Entry.core,
                    c.st.isWaiting = true → now < c.time) := by
              rcases hbr with ⟨_, hperm2⟩ | ⟨_, x, r₂, hxr, hxh, hxst, _, hperm2⟩
              · constructor
                · rw [hperm2.countP_eq, List.countP_cons]
                  have h3 : ((setSt e.core State.CANDIDATE_DELAYED).st.isSelectable &&
                      decide (now < (setSt e.core State.CANDIDATE_DELAYED).time)) =
                      false := by
                    have h4 : (setSt e.core State.CANDIDATE_DELAYED).st =
                        State.CANDIDATE_DELAYED := rfl
                    rw [h4]
                    rfl
                  rw [h3]
                  simp only [Bool.false_eq_true, reduceIte]
                  omega
                · intro hW c hc
                  have hc2 := hperm2.subset hc
                  rcases List.mem_cons.1 hc2 with rfl | hcr
                  · intro _
                    have h4 : (setSt e.core State.CANDIDATE_DELAYED).time = e.m_time :=
                      rfl
                    rw [h4]
                    exact h1.2
                  · exact hW c (hsub c hcr)
              · have hsub2 : ∀ c ∈ r₂, c ∈ t.entries.map Entry.core := by
                  intro c hc
                  exact hsub c (hxr.symm.subset (List.mem_cons_of_mem _ hc))
                constructor
                · rw [hperm2.countP_eq, List.countP_cons, List.countP_cons]
                  have h3 : ((setSt e.core State.CANDIDATE_DELAYED).st.isSelectable &&
                      decide (now < (setSt e.core State.CANDIDATE_DELAYED).time)) =
                      false := by
                    have h4 : (setSt e.core State.CANDIDATE_DELAYED).st =
                        State.CANDIDATE_DELAYED := rfl
                    rw [h4]
                    rfl
                  have h5 : ((setSt x State.CANDIDATE_BEST).st.isSelectable &&
                      decide (now < (setSt x State.CANDIDATE_BEST).time)) =
                      (x.st.isSelectable && decide (now < x.time)) := by
                    have h6 : (setSt x State.CANDIDATE_BEST).st =
                        State.CANDIDATE_BEST := rfl
                    have h7 : (setSt x State.CANDIDATE_BEST).time = x.time := rfl
                    rw [h6, h7, hxst]
                    rfl
                  have h8 : r.countP (fun c => c.st.isSelectable &&
                      decide (now < c.time)) =
                      r₂.countP (fun c => c.st.isSelectable &&
                        decide (now < c.time)) +
                        (if (x.st.isSelectable && decide (now < x.time)) = true
                          then 1 else 0) := by
                    rw [hxr.countP_eq, List.countP_cons]
                  rw [h3, h5]
                  simp only [Bool.false_eq_true, reduceIte]
                  omega
                · intro hW c hc
                  have hc2 := hperm2.subset hc
                  rcases List.mem_cons.1 hc2 with rfl | hcr
                  · intro _
                    have h4 : (setSt e.core State.CANDIDATE_DELAYED).time = e.m_time :=
                      rfl
                    rw [h4]
                    exact h1.2
                  · rcases List.mem_cons.1 hcr with rfl | hcr2
                    · intro hw
                      exact absurd hw (by simp [setSt, State.isWaiting])
                    · exact hW c (hsub2 c hcr2)
            have hrec := ih (t.changeAndReselect e.m_sequence State.CANDIDATE_DELAYED)
              hwf2 (by omega)
            refine ⟨hrec.1, ?_⟩
            intro hW
            exact hrec.2 (hkey.2 hW)
          · rw [if_neg h1]
            refine ⟨?_, fun hW => hW⟩
            intro c hc hcsel
            obtain ⟨x, hx, hxc⟩ := entry_of_core_mem hc
            by_contra hct
            have hxst : x.m_state = c.st := by
              rw [← hxc, Entry.core_st]
            have hxt : x.m_time = c.time := by
              rw [← hxc, Entry.core_time]
            have hxs : x.m_state.timeClass = 2 := by
              rw [hxst]
              exact (isSelectable_iff_timeClass c.st).1 hcsel
            have hfx := hmaxall x hx
            rw [Bool.eq_false_iff] at hfx
            have hnlt : ¬(e.m_state.timeClass < x.m_state.timeClass ∨
                (e.m_state.timeClass = x.m_state.timeClass ∧
                  e.m_time < x.m_time)) := by
              intro hp
              exact hfx ((byTimeLtB_iff e x).2 hp)
            have hle2 := timeClass_le2 e.m_state
            have hce : e.m_state.timeClass = 2 := by omega
            have hte : x.m_time ≤ e.m_time := by omega
            apply h1
            constructor
            · exact (isSelectable_iff_timeClass e.m_state).2 hce
            · omega

/-- `SetTimePoint` establishes the time invariant: waiting announcements
have future times, selectable ones have times at most `now`. -/
theorem setTimePoint_spec (t : Tracker) (hwf : WF t) (now : Int) :
    (∀ c ∈ (t.setTimePoint now).entries.map Entry.core,
        c.st.isWaiting = true → now < c.time) ∧
    (∀ c ∈ (t.setTimePoint now).entries.map Entry.core,
        c.st.isSelectable = true → c.time ≤ now) := by
  unfold Tracker.setTimePoint
  have hcnt1 : (t.entries.map Entry.core).countP
      (fun c => c.st.isWaiting && decide (c.time ≤ now)) < t.entries.length + 1 := by
    have h1 := List.countP_le_length
      (p := fun c : ECore => c.st.isWaiting && decide (c.time ≤ now))
      (l := t.entries.map Entry.core)
    rw [List.length_map] at h1
    omega
  obtain ⟨hW1, hS1⟩ := timeLoop1_spec now (t.entries.length + 1) t hwf hcnt1
  have hwf1 : WF (Tracker.timeLoop1 now (t.entries.length + 1) t) :=
    WF_timeLoop1 now _ t hwf
  have hcnt2 : ((Tracker.timeLoop1 now (t.entries.length + 1) t).entries.map
      Entry.core).countP (fun c => c.st.isSelectable && decide (now < c.time)) <
      (Tracker.timeLoop1 now (t.entries.length + 1) t).entries.length + 1 := by
    have h1 := List.countP_le_length
      (p := fun c : ECore => c.st.isSelectable && decide (now < c.time))
      (l := (Tracker.timeLoop1 now (t.entries.length + 1) t).entries.map Entry.core)
    rw [List.length_map] at h1
    omega
  obtain ⟨hS2, hW2⟩ := timeLoop2_spec now
    ((Tracker.timeLoop1 now (t.entries.length + 1) t).entries.length + 1)
    (Tracker.timeLoop1 now (t.entries.length + 1) t) hwf1 hcnt2
  exact ⟨hW2 hW1, hS2⟩

/-- C8: after `GetRequestable(peer, now)` every REQUESTED or
CANDIDATE_DELAYED announcement has time after `now`, and every
CANDIDATE_READY or CANDIDATE_BEST announcement has time at most `now`,
in every reachable tracker state (also when the clock moved backwards). -/
theorem claim_C8 (k0 k1 : Nat) (ops : List Op) (peer : Nat) (now : Int) :
    ∀ e ∈ ((runOps k0 k1 ops).getRequestable peer now).2.entries,
      (e.m_state.isWaiting = true → now < e.m_time) ∧
      (e.m_state.isSelectable = true → e.m_time ≤ now) := by
  obtain ⟨hW, hS⟩ := setTimePoint_spec (runOps k0 k1 ops) (WF_runOps k0 k1 ops) now
  intro e he
  have h2 : ((runOps k0 k1 ops).getRequestable peer now).2 =
      (runOps k0 k1 ops).setTimePoint now := rfl
  rw [h2] at he
  have hc : e.core ∈ ((runOps k0 k1 ops).setTimePoint now).entries.map Entry.core :=
    List.mem_map_of_mem _ he
  exact ⟨hW e.core hc, hS e.core hc⟩

theorem claim_C8_witness :
    ((((runOps 0 0 [Op.recvInv 1 true 5 true false 0]).getRequestable 1
          10).2.entries.getD 0 default).m_state.isWaiting = true →
        10 < (((runOps 0 0 [Op.recvInv 1 true 5 true false 0]).getRequestable 1
          10).2.entries.getD 0 default).m_time) ∧
      ((((runOps 0 0 [Op.recvInv 1 true 5 true false 0]).getRequestable 1
          10).2.entries.getD 0 default).m_state.isSelectable = true →
        (((runOps 0 0 [Op.recvInv 1 true 5 true false 0]).getRequestable 1
          10).2.entries.getD 0 default).m_time ≤ 10) :=
  claim_C8 0 0 [Op.recvInv 1 true 5 true false 0] 1 10 _ (by decide)

theorem lex3Lt_iff (a b : Nat × Nat × Nat) : lex3Lt a b = true ↔
    (a.1 < b.1 ∨ (a.1 = b.1 ∧ (a.2.1 < b.2.1 ∨ (a.2.1 = b.2.1 ∧ a.2.2 < b.2.2)))) := by
  unfold lex3Lt
  simp

theorem lex3Lt_false_iff (a b : Nat × Nat × Nat) : lex3Lt a b = false ↔
    ¬(a.1 < b.1 ∨ (a.1 = b.1 ∧ (a.2.1 < b.2.1 ∨ (a.2.1 = b.2.1 ∧ a.2.2 < b.2.2)))) := by
  rw [Bool.eq_false_iff]
  constructor
  · intro h hp
    exact h ((lex3Lt_iff a b).2 hp)
  · intro h hp
    exact h ((lex3Lt_iff a b).1 hp)

theorem lex3Lt_asymm {a b : Nat × Nat × Nat} (h : lex3Lt a b = true) :
    lex3Lt b a = false := by
  rw [lex3Lt_iff] at h
  rw [lex3Lt_false_iff]
  omega

theorem lex3Lt_neg_trans {a b c : Nat × Nat × Nat} (h1 : lex3Lt a b = false)
    (h2 : lex3Lt b c = false) : lex3Lt a c = false := by
  rw [lex3Lt_false_iff] at h1 h2 ⊢
  omega

theorem lex3Lt_lt_of_le_of_lt {a b k : Nat × Nat × Nat} (h1 : lex3Lt b a = false)
    (h2 : lex3Lt b k = true) : lex3Lt a k = true := by
  rw [lex3Lt_false_iff] at h1
  rw [lex3Lt_iff] at h2 ⊢
  omega

theorem byPeerLtB_asymm (a b : Entry) (h : byPeerLtB a b = true) :
    byPeerLtB b a = false := by
  unfold byPeerLtB at h ⊢
  exact lex3Lt_asymm h

theorem byPeerLtB_neg_trans (a b c : Entry) (h1 : byPeerLtB b a = false)
    (h2 : byPeerLtB c b = false) : byPeerLtB c a = false := by
  unfold byPeerLtB at h1 h2 ⊢
  exact lex3Lt_neg_trans h2 h1

theorem insL_perm (lt : α → α → Bool) (e : α) :
    ∀ l : List α, (insL lt e l).Perm (e :: l) := by
  intro l
  induction l with
  | nil => exact List.Perm.refl _
  | cons x xs ih =>
      unfold insL
      by_cases h : lt x e = true
      · rw [if_pos h]
        exact (ih.cons x).trans (List.Perm.swap e x xs)
      · rw [if_neg h]

theorem sortL_perm (lt : α → α → Bool) : ∀ l : List α, (sortL lt l).Perm l := by
  intro l
  induction l with
  | nil => exact List.Perm.refl _
  | cons x xs ih =>
      unfold sortL
      exact (insL_perm lt x (sortL lt xs)).trans (ih.cons x)

theorem insL_pairwise (lt : α → α → Bool)
    (hasym : ∀ a b, lt a b = true → lt b a = false)
    (hneg : ∀ a b c, lt b a = false → lt c b = false → lt c a = false)
    (e : α) : ∀ {l : List α}, l.Pairwise (fun a b => lt b a = false) →
      (insL lt e l).Pairwise (fun a b => lt b a = false) := by
  intro l
  induction l with
  | nil =>
      intro _
      exact List.pairwise_cons.2 ⟨by simp, List.Pairwise.nil⟩
  | cons x xs ih =>
      intro hl
      obtain ⟨hx_all, hxs⟩ := List.pairwise_cons.1 hl
      unfold insL
      by_cases hx : lt x e = true
      · rw [if_pos hx]
        refine List.pairwise_cons.2 ⟨?_, ih hxs⟩
        intro y hy
        have hy2 : y ∈ e :: xs := (insL_perm lt e xs).subset hy
        rcases List.mem_cons.1 hy2 with rfl | hyxs
        · exact hasym x y hx
        · exact hx_all y hyxs
      · have hx2 : lt x e = false := Bool.eq_false_iff.2 hx
        rw [if_neg hx]
        refine List.pairwise_cons.2 ⟨?_, hl⟩
        intro y hy
        rcases List.mem_cons.1 hy with rfl | hyxs
        · exact hx2
        · exact hneg e x y hx2 (hx_all y hyxs)

theorem sortL_pairwise (lt : α → α → Bool)
    (hasym : ∀ a b, lt a b = true → lt b a = false)
    (hneg : ∀ a b c, lt b a = false → lt c b = false → lt c a = false) :
    ∀ l : List α, (sortL lt l).Pairwise (fun a b => lt b a = false) := by
  intro l
  induction l with
  | nil => exact List.Pairwise.nil
  | cons x xs ih =>
      unfold sortL
      exact insL_pairwise lt hasym hneg x ih

/-- On a list sorted by a total preorder, dropping the downward-closed
prefix is filtering. -/
theorem dropWhile_eq_filter_of_sorted {S : α → α → Prop} {p : α → Bool}
    (hdc : ∀ a b, S a b → p b = true → p a = true) :
    ∀ {l : List α}, l.Pairwise S → l.dropWhile p = l.filter (fun x => !(p x)) := by
  intro l
  induction l with
  | nil =>
      intro _
      rfl
  | cons x xs ih =>
      intro hl
      obtain ⟨hx_all, hxs⟩ := List.pairwise_cons.1 hl
      by_cases hx : p x = true
      · rw [List.dropWhile_cons_of_pos hx, List.filter_cons_of_neg (by simp [hx])]
        exact ih hxs
      · have hx2 : p x = false := Bool.eq_false_iff.2 hx
        rw [List.dropWhile_cons_of_neg (by simp [hx2]),
          List.filter_cons_of_pos (by simp [hx2])]
        have h3 : xs.filter (fun x => !(p x)) = xs := by
          rw [List.filter_eq_self]
          intro y hy
          have h4 : p y = false := by
            rw [Bool.eq_false_iff]
            intro hpy
            have h5 := hdc x y (hx_all y hy) hpy
            rw [hx2] at h5
            exact absurd h5 (by simp)
          rw [h4]
          rfl
        rw [h3]

/-- On a list of in-range elements sorted by a total preorder, taking the
prefix of an upward-false predicate is filtering. -/
theorem takeWhile_eq_filter_of_sorted {S : α → α → Prop} {q r : α → Bool}
    (huc : ∀ a b, S a b → r a = true → r b = true → q a = false → q b = false) :
    ∀ {l : List α}, l.Pairwise S → (∀ x ∈ l, r x = true) →
      l.takeWhile q = l.filter q := by
  intro l
  induction l with
  | nil =>
      intro _ _
      rfl
  | cons x xs ih =>
      intro hl hr
      obtain ⟨hx_all, hxs⟩ := List.pairwise_cons.1 hl
      by_cases hx : q x = true
      · rw [List.takeWhile_cons_of_pos hx, List.filter_cons_of_pos hx]
        rw [ih hxs (fun y hy => hr y (List.mem_cons_of_mem x hy))]
      · have hx2 : q x = false := Bool.eq_false_iff.2 hx
        rw [List.takeWhile_cons_of_neg (by simp [hx2]),
          List.filter_cons_of_neg (by simp [hx2])]
        have h3 : xs.filter q = [] := by
          rw [List.filter_eq_nil_iff]
          intro y hy
          have h4 := huc x y (hx_all y hy) (hr x (List.mem_cons_self x xs))
            (hr y (List.mem_cons_of_mem x hy)) hx2
          rw [h4]
          simp
        rw [h3]

/-- A CANDIDATE_BEST announcement of the peer is at or after the ByPeer
search key `(peer, true, 0)`. -/
theorem bestKey_not_lt (peer : Nat) (e : Entry)
    (hq : (e.m_peer == peer && e.m_state == State.CANDIDATE_BEST) = true) :
    lex3Lt e.byPeerKey (peer, 1, 0) = false := by
  rw [Bool.and_eq_true, beq_iff_eq, beq_iff_eq] at hq
  rw [lex3Lt_false_iff]
  unfold Entry.byPeerKey
  rw [hq.1, if_pos hq.2]
  dsimp only
  omega

/-- Once the ByPeer walk of `GetRequestable` leaves the CANDIDATE_BEST
block of the peer, no later entry belongs to it. -/
theorem bestBlock_propagate (peer : Nat) {a b : Entry} (hS : byPeerLtB b a = false)
    (hra : (!(lex3Lt a.byPeerKey (peer, 1, 0))) = true)
    (hrb : (!(lex3Lt b.byPeerKey (peer, 1, 0))) = true)
    (hqa : (a.m_peer == peer && a.m_state == State.CANDIDATE_BEST) = false) :
    (b.m_peer == peer && b.m_state == State.CANDIDATE_BEST) = false := by
  rw [Bool.not_eq_true'] at hra hrb
  rw [Bool.eq_false_iff]
  intro hqb
  rw [Bool.and_eq_true, beq_iff_eq, beq_iff_eq] at hqb
  unfold byPeerLtB at hS
  rw [lex3Lt_false_iff] at hS hra
  unfold Entry.byPeerKey at hS hra
  rw [hqb.1, if_pos hqb.2] at hS
  dsimp only at hS hra
  by_cases haB : a.m_state = State.CANDIDATE_BEST
  · have hap : a.m_peer ≠ peer := by
      intro hp
      rw [Bool.eq_false_iff] at hqa
      apply hqa
      rw [Bool.and_eq_true, beq_iff_eq, beq_iff_eq]
      exact ⟨hp, haB⟩
    rw [if_pos haB] at hS hra
    omega
  · rw [if_neg haB] at hS hra
    omega

/-- `GetRequestable` returns exactly the `(is_wtxid, txhash)` pairs of the
peer announcements in CANDIDATE_BEST after the time advance, in strictly
increasing sequence order, and its returned state is the time-advanced
tracker. -/
theorem getRequestable_spec (t : Tracker) (hwf : WF t) (peer : Nat) (now : Int) :
    ∃ sel : List Entry,
      sel.Pairwise (fun a b => a.m_sequence < b.m_sequence) ∧
      sel.Perm ((t.setTimePoint now).entries.filter
        (fun e => e.m_peer == peer && e.m_state == State.CANDIDATE_BEST)) ∧
      (t.getRequestable peer now).1 = sel.map (fun e => (e.m_is_wtxid, e.m_txhash)) ∧
      (t.getRequestable peer now).2 = t.setTimePoint now := by
  have hwf2 : WF (t.setTimePoint now) := WF_setTimePoint t hwf now
  have hbp_pw : (sortL byPeerLtB (t.setTimePoint now).entries).Pairwise
      (fun a b => byPeerLtB b a = false) :=
    sortL_pairwise byPeerLtB byPeerLtB_asymm byPeerLtB_neg_trans
      (t.setTimePoint now).entries
  have hdrop : (sortL byPeerLtB (t.setTimePoint now).entries).dropWhile
      (fun e => lex3Lt e.byPeerKey (peer, 1, 0)) =
      (sortL byPeerLtB (t.setTimePoint now).entries).filter
        (fun x => !(lex3Lt x.byPeerKey (peer, 1, 0))) :=
    dropWhile_eq_filter_of_sorted
      (fun a b hS hpb => lex3Lt_lt_of_le_of_lt hS hpb) hbp_pw
  have hrest_pw : ((sortL byPeerLtB (t.setTimePoint now).entries).dropWhile
      (fun e => lex3Lt e.byPeerKey (peer, 1, 0))).Pairwise
      (fun a b => byPeerLtB b a = false) := by
    rw [hdrop]
    exact hbp_pw.filter _
  have hrest_r : ∀ x ∈ (sortL byPeerLtB (t.setTimePoint now).entries).dropWhile
      (fun e => lex3Lt e.byPeerKey (peer, 1, 0)),
      (!(lex3Lt x.byPeerKey (peer, 1, 0))) = true := by
    rw [hdrop]
    intro x hx
    exact (List.mem_filter.1 hx).2
  have htake : ((sortL byPeerLtB (t.setTimePoint now).entries).dropWhile
      (fun e => lex3Lt e.byPeerKey (peer, 1, 0))).takeWhile
      (fun e => e.m_peer == peer && e.m_state == State.CANDIDATE_BEST) =
      ((sortL byPeerLtB (t.setTimePoint now).entries).dropWhile
        (fun e => lex3Lt e.byPeerKey (peer, 1, 0))).filter
        (fun e => e.m_peer == peer && e.m_state == State.CANDIDATE_BEST) :=
    takeWhile_eq_filter_of_sorted
      (S := fun a b : Entry => byPeerLtB b a = false)
      (q := fun e : Entry => e.m_peer == peer && e.m_state == State.CANDIDATE_BEST)
      (r := fun e : Entry => !(lex3Lt e.byPeerKey (peer, 1, 0)))
      (fun a b hS hra hrb hqa => bestBlock_propagate peer hS hra hrb hqa)
      hrest_pw hrest_r
  have hselperm : (((sortL byPeerLtB (t.setTimePoint now).entries).dropWhile
      (fun e => lex3Lt e.byPeerKey (peer, 1, 0))).takeWhile
      (fun e => e.m_peer == peer && e.m_state == State.CANDIDATE_BEST)).Perm
      ((t.setTimePoint now).entries.filter
        (fun e => e.m_peer == peer && e.m_state == State.CANDIDATE_BEST)) := by
    rw [htake, hdrop, List.filter_filter]
    have hcong : (sortL byPeerLtB (t.setTimePoint now).entries).filter
        (fun a => (a.m_peer == peer && a.m_state == State.CANDIDATE_BEST) &&
          !(lex3Lt a.byPeerKey (peer, 1, 0))) =
        (sortL byPeerLtB (t.setTimePoint now).entries).filter
          (fun e => e.m_peer == peer && e.m_state == State.CANDIDATE_BEST) := by
      apply List.filter_congr
      intro x hx
      cases hqx : (x.m_peer == peer && x.m_state == State.CANDIDATE_BEST) with
      | false => rfl
      | true =>
          rw [bestKey_not_lt peer x hqx]
          rfl
    rw [hcong]
    exact (sortL_perm byPeerLtB (t.setTimePoint now).entries).filter _
  have hndtake : (((sortL byPeerLtB (t.setTimePoint now).entries).dropWhile
      (fun e => lex3Lt e.byPeerKey (peer, 1, 0))).takeWhile
      (fun e => e.m_peer == peer && e.m_state == State.CANDIDATE_BEST)).Pairwise
      (fun a b => a.m_sequence ≠ b.m_sequence) := by
    have h1 : ((t.setTimePoint now).entries.filter
        (fun e => e.m_peer == peer && e.m_state == State.CANDIDATE_BEST)).Pairwise
        (fun a b => a.m_sequence ≠ b.m_sequence) :=
      List.Pairwise.sublist (List.filter_sublist _) hwf2.1.snd
    exact (hselperm.pairwise_iff (fun h => Ne.symm h)).2 h1
  refine ⟨sortL (fun a b : Entry => decide (a.m_sequence < b.m_sequence))
      (((sortL byPeerLtB (t.setTimePoint now).entries).dropWhile
          (fun e => lex3Lt e.byPeerKey (peer, 1, 0))).takeWhile
        (fun e => e.m_peer == peer && e.m_state == State.CANDIDATE_BEST)),
    ?_, ?_, ?_, ?_⟩
  · have hpw1 := sortL_pairwise
      (fun a b : Entry => decide (a.m_sequence < b.m_sequence))
      (fun a b h => by
        rw [decide_eq_true_eq] at h
        rw [decide_eq_false_iff_not]
        omega)
      (fun a b c h1 h2 => by
        rw [decide_eq_false_iff_not] at h1 h2 ⊢
        omega)
      (((sortL byPeerLtB (t.setTimePoint now).entries).dropWhile
          (fun e => lex3Lt e.byPeerKey (peer, 1, 0))).takeWhile
        (fun e => e.m_peer == peer && e.m_state == State.CANDIDATE_BEST))
    have hnd2 : (sortL (fun a b : Entry => decide (a.m_sequence < b.m_sequence))
        (((sortL byPeerLtB (t.setTimePoint now).entries).dropWhile
            (fun e => lex3Lt e.byPeerKey (peer, 1, 0))).takeWhile
          (fun e => e.m_peer == peer && e.m_state ==
            State.CANDIDATE_BEST))).Pairwise
        (fun a b => a.m_sequence ≠ b.m_sequence) := by
      exact ((sortL_perm _ _).pairwise_iff (fun h => Ne.symm h)).2 hndtake
    exact (hpw1.and hnd2).imp (fun hab => by
      have h1 := hab.1
      rw [decide_eq_false_iff_not] at h1
      have h2 := hab.2
      omega)
  · exact (sortL_perm _ _).trans hselperm
  · rfl
  · rfl

/-- C7: in every reachable state, `GetRequestable(peer, now)` first
advances the time pipeline to `now`, returns exactly the
`(is_wtxid, txhash)` pairs of the peer announcements then in
CANDIDATE_BEST sorted by ascending sequence number, and those
announcements are still CANDIDATE_BEST in the returned state. -/
theorem claim_C7 (k0 k1 : Nat) (ops : List Op) (peer : Nat) (now : Int) :
    ∃ sel : List Entry,
      sel.Pairwise (fun a b => a.m_sequence < b.m_sequence) ∧
      sel.Perm (((runOps k0 k1 ops).setTimePoint now).entries.filter
        (fun e => e.m_peer == peer && e.m_state == State.CANDIDATE_BEST)) ∧
      ((runOps k0 k1 ops).getRequestable peer now).1 =
        sel.map (fun e => (e.m_is_wtxid, e.m_txhash)) ∧
      ((runOps k0 k1 ops).getRequestable peer now).2 =
        (runOps k0 k1 ops).setTimePoint now :=
  getRequestable_spec (runOps k0 k1 ops) (WF_runOps k0 k1 ops) peer now

end TxRequest
